import Mathlib

/-!
Verification of the pipeline-specification compiler of `pfs_pipe2d`
(`python/pfs/pipe2d/generateReductionSpec.py` and
`python/pfs/pipe2d/generateCommands.py`), shallowly embedded in Lean.

Python integers are modelled as `Int`/`Nat`, Python lists as `List`,
Python `dict`s as association lists, the `math.nan` sentinels used by
`getSpansFromIntegers` and `splitSources` as `Option.none` (like NaN, the
sentinel never satisfies the arithmetic grouping keys), and raised
exceptions as `Except.error`.  Python's `sorted` is a stable sort, modelled
by `List.insertionSort` (stable sorts by one key agree on their output).
-/

set_option maxHeartbeats 1600000

namespace Pipe2d

/-- Python `itertools.groupby(xs, key)`: split a list into maximal runs of
consecutive elements whose keys are equal, returning `(key, run)` pairs. -/
def groupRuns {α β : Type} [DecidableEq β] (key : α → β) : List α → List (β × List α)
  | [] => []
  | x :: xs =>
    match groupRuns key xs with
    | [] => [(key x, [x])]
    | (k, g) :: rest =>
      if key x = k then (k, x :: g) :: rest
      else (key x, [x]) :: (k, g) :: rest

/-- All windows of three consecutive elements of a list:
Python `zip(xs[:-2], xs[1:-1], xs[2:])`. -/
def windows3 {α : Type} (l : List α) : List (α × α × α) :=
  l.zip ((l.drop 1).zip (l.drop 2))

/-- Python `sorted(set(ints))`. -/
def sortedDedup (l : List Int) : List Int :=
  List.insertionSort (· ≤ ·) l.dedup

/-- A span `(first, last, stride)` produced by `getSpansFromIntegers`. -/
abbrev Span := Int × Int × Int

/-- The grouping key of the `itertools.groupby` call in `getSpansFromIntegers`:
`xyz[1] - xyz[0] == xyz[2] - xyz[1] == stride`.  A `none` (the model of the
`math.nan` sentinel) never satisfies the key, exactly as NaN comparisons are
always false in Python. -/
def evenKey (stride : Int) : Option Int × Option Int × Option Int → Bool
  | (some x, some y, some z) => y - x = z - y && z - y = stride
  | _ => false

/-- The values `y - x` over which `getSpansFromIntegers` takes `min`
(windows of three consecutive values whose two gaps are equal; unequal-gap
windows contribute `math.inf`, i.e. are skipped). -/
def strideCandidates (l : List Int) : List Int :=
  (windows3 l).filterMap fun w =>
    if w.2.1 - w.1 = w.2.2 - w.2.1 then some (w.2.1 - w.1) else none

/-! ### Lemmas about `groupRuns` and `windows3` (needed for termination). -/

theorem groupRuns_flatMap {α β : Type} [DecidableEq β] (key : α → β) :
    ∀ l : List α, (groupRuns key l).flatMap Prod.snd = l := by
  intro l
  induction l with
  | nil => simp [groupRuns]
  | cons x xs ih =>
    simp only [groupRuns]
    rcases h : groupRuns key xs with _ | ⟨⟨k, g⟩, rest⟩
    · simp only [h, List.flatMap_nil] at ih
      simp [List.flatMap_cons, ← ih]
    · rw [h] at ih
      by_cases hk : key x = k
      · simp only [if_pos hk, List.flatMap_cons] at *
        simp [← ih]
      · simp only [if_neg hk, List.flatMap_cons] at *
        simp [← ih]

theorem groupRuns_key {α β : Type} [DecidableEq β] (key : α → β) :
    ∀ l : List α, ∀ b g, (b, g) ∈ groupRuns key l → ∀ x ∈ g, key x = b := by
  intro l
  induction l with
  | nil => simp [groupRuns]
  | cons x xs ih =>
    intro b g hmem y hy
    rw [groupRuns] at hmem
    rcases h : groupRuns key xs with _ | ⟨⟨k, g'⟩, rest⟩ <;> rw [h] at hmem
    · have hmem2 : (b, g) ∈ [(key x, [x])] := hmem
      simp at hmem2
      rcases hmem2 with ⟨hb, hg⟩
      subst hb; subst hg
      simp at hy; subst hy; rfl
    · have hmem2 : (b, g) ∈
          (if key x = k then (k, x :: g') :: rest
           else (key x, [x]) :: (k, g') :: rest) := hmem
      by_cases hk : key x = k
      · rw [if_pos hk] at hmem2
        rcases List.mem_cons.1 hmem2 with heq | htail
        · injection heq with h1 h2
          subst h2
          rw [h1]
          rcases List.mem_cons.1 hy with rfl | hy'
          · exact hk
          · exact ih k g' (h ▸ List.mem_cons_self _ _) y hy'
        · exact ih b g (h ▸ List.mem_cons_of_mem _ htail) y hy
      · rw [if_neg hk] at hmem2
        rcases List.mem_cons.1 hmem2 with heq | htail
        · injection heq with h1 h2
          subst h2
          rw [h1]
          simp at hy; subst hy; rfl
        · exact ih b g (h ▸ htail) y hy

theorem le_sum_of_mem_map {α : Type} (f : α → ℕ) {L : List α} {a : α} (ha : a ∈ L) :
    f a ≤ (L.map f).sum := by
  induction L with
  | nil => cases ha
  | cons c t ih =>
    rcases List.mem_cons.1 ha with rfl | ht
    · simp
    · simp only [List.map_cons, List.sum_cons]
      exact le_add_of_nonneg_of_le (Nat.zero_le _) (ih ht)

theorem two_mem_map_sum_le {α : Type} (f : α → ℕ) {L : List α} {a b : α}
    (ha : a ∈ L) (hb : b ∈ L) (hne : a ≠ b) : f a + f b ≤ (L.map f).sum := by
  induction L with
  | nil => cases ha
  | cons c t ih =>
    rcases List.mem_cons.1 ha with rfl | hat
    · have hbt : b ∈ t := by
        rcases List.mem_cons.1 hb with rfl | h
        · exact absurd rfl hne
        · exact h
      simp only [List.map_cons, List.sum_cons]
      exact Nat.add_le_add_left (le_sum_of_mem_map f hbt) _
    · rcases List.mem_cons.1 hb with rfl | hbt
      · simp only [List.map_cons, List.sum_cons]
        rw [Nat.add_comm (f a) (f b)]
        exact Nat.add_le_add_left (le_sum_of_mem_map f hat) _
      · simp only [List.map_cons, List.sum_cons]
        exact le_add_of_nonneg_of_le (Nat.zero_le _) (ih hat hbt)

/-- Total length bookkeeping: a run of `groupRuns` is strictly shorter than the
whole list as soon as some element of the list has a different key. -/
theorem groupRuns_length_lt {α β : Type} [DecidableEq β] (key : α → β)
    {l : List α} {b : β} {g : List α} (hmem : (b, g) ∈ groupRuns key l)
    {x : α} (hx : x ∈ l) (hk : key x ≠ b) : g.length < l.length := by
  have hjoin := groupRuns_flatMap key l
  have hx' : x ∈ (groupRuns key l).flatMap Prod.snd := hjoin.symm ▸ hx
  rcases List.mem_flatMap.1 hx' with ⟨⟨b', g'⟩, hmem', hxg'⟩
  have hb' : key x = b' := groupRuns_key key l b' g' hmem' x hxg'
  have hne : ((b, g) : β × List α) ≠ (b', g') := by
    intro h
    injection h with h1 _
    exact hk (hb'.trans h1.symm)
  have hsum : g.length + g'.length ≤ ((groupRuns key l).map (fun p => p.2.length)).sum :=
    two_mem_map_sum_le (fun p => p.2.length) hmem hmem' hne
  have hlen : ((groupRuns key l).map (fun p => p.2.length)).sum = l.length := by
    conv_rhs => rw [← hjoin]
    rw [List.length_flatMap]
    rfl
  have hg' : 0 < g'.length := by
    cases g' with
    | nil => cases hxg'
    | cons _ _ => simp
  omega

theorem windows3_length {α : Type} (l : List α) :
    (windows3 l).length = l.length - 2 := by
  simp [windows3, List.length_zip, List.length_drop]
  omega

theorem windows3_nil_of_short {α : Type} {l : List α} (h : l.length ≤ 2) :
    windows3 l = [] := by
  have : (windows3 l).length = 0 := by rw [windows3_length]; omega
  exact List.length_eq_zero.1 this

theorem windows3_cons₃ {α : Type} (a b c : α) (t : List α) :
    windows3 (a :: b :: c :: t) = (a, b, c) :: windows3 (b :: c :: t) := by
  simp [windows3, List.zip]

theorem windows3_map {α β : Type} (f : α → β) (l : List α) :
    windows3 (l.map f) = (windows3 l).map fun w => (f w.1, f w.2.1, f w.2.2) := by
  induction l with
  | nil => simp [windows3]
  | cons x t ih =>
    match t, ih with
    | [], _ => simp [windows3]
    | [a], _ =>
      rw [windows3_nil_of_short (l := [x, a]) (by simp),
        windows3_nil_of_short (l := [x, a].map f) (by simp)]
      simp
    | a :: b :: t', ih =>
      simp only [List.map_cons] at ih ⊢
      rw [windows3_cons₃, windows3_cons₃, ih]
      simp

theorem windows3_suffix_cons {α : Type} (x : α) (l : List α) :
    windows3 l <:+ windows3 (x :: l) := by
  match l with
  | [] => simp [windows3]
  | [a] => simp [windows3]
  | a :: b :: t =>
    rw [windows3_cons₃]
    exact List.suffix_cons _ _

theorem windows3_prefix_append {α : Type} (l s : List α) :
    windows3 l <+: windows3 (l ++ s) := by
  induction l with
  | nil =>
    rw [windows3_nil_of_short (l := ([] : List α)) (by simp)]
    exact List.nil_prefix
  | cons x t ih =>
    match t, ih with
    | [], _ =>
      rw [windows3_nil_of_short (l := [x]) (by simp)]
      exact List.nil_prefix
    | [a], _ =>
      rw [windows3_nil_of_short (l := [x, a]) (by simp)]
      exact List.nil_prefix
    | a :: b :: t', ih =>
      simp only [List.cons_append] at ih ⊢
      rw [windows3_cons₃, windows3_cons₃]
      exact List.cons_prefix_cons.2 ⟨rfl, ih⟩

theorem mem_windows3_padded {l : List Int} {x y z : Int}
    (h : (x, y, z) ∈ windows3 l) :
    ((some x, some y, some z) : Option Int × Option Int × Option Int)
      ∈ windows3 (none :: none :: (l.map some ++ [none, none])) := by
  have h1 : (some x, some y, some z) ∈ windows3 (l.map some) := by
    rw [windows3_map]
    exact List.mem_map.2 ⟨(x, y, z), h, rfl⟩
  have h2 : (some x, some y, some z) ∈ windows3 (l.map some ++ [none, none]) :=
    (windows3_prefix_append (l.map some) [none, none]).sublist.mem h1
  exact ((windows3_suffix_cons none _).sublist.mem
    ((windows3_suffix_cons none _).sublist.mem h2))

theorem int_min_eq_or : ∀ a b : Int, min a b = a ∨ min a b = b := by
  intro a b
  rcases le_total a b with h | h
  · left; exact min_eq_left h
  · right; exact min_eq_right h

theorem attach_flatMap_eq {α β : Type} (l : List α) (f : α → List β) :
    l.attach.flatMap (fun pg => f pg.1) = l.flatMap f := by
  induction l with
  | nil => rfl
  | cons x xs ih =>
    rw [List.attach_cons, List.flatMap_cons, List.flatMap_cons, List.flatMap_map]
    rw [← ih]

/-- Model of `getSpansFromIntegers` (generateReductionSpec.py, 639–684), specialised to
its internal normal form: a sorted, de-duplicated list.  The two `math.nan`
sentinel guards on each side are modelled by `Option.none`; like NaN they never
satisfy `evenKey`.  The Python recursion re-normalises its argument through
`sorted(set(...))` at function entry, mirrored by `sortedDedup` in the
recursive call.  `group[:-2]` is `List.take (group.length - 2)`. -/
def getSpansFromSorted (l : List Int) : List Span :=
  if l.length ≤ 2 then l.map fun x => (x, x, 1)
  else
    match hmin : (strideCandidates l).min? with
    | none => l.map fun x => (x, x, 1)
    | some stride =>
      (groupRuns (evenKey stride)
          (windows3 (none :: none :: (l.map some ++ [none, none])))).attach.flatMap
        fun pg =>
          if pg.1.1 then
            [((pg.1.2.headD (none, none, none)).1.getD 0,
              ((pg.1.2.getLastD (none, none, none)).2.2).getD 0, stride)]
          else
            getSpansFromSorted
              (sortedDedup (((pg.1.2.take (pg.1.2.length - 2)).filterMap fun w => w.2.2)))
termination_by l.length
decreasing_by
  rename_i hNotEven
  have hstride : stride ∈ strideCandidates l :=
    List.min?_mem int_min_eq_or hmin
  rcases List.mem_filterMap.1 hstride with ⟨w, hw, hweq⟩
  have hcond : w.2.1 - w.1 = w.2.2 - w.2.1 := by
    by_contra hc
    rw [if_neg hc] at hweq
    cases hweq
  rw [if_pos hcond] at hweq
  injection hweq with hweq
  have hwmem : ((some w.1, some w.2.1, some w.2.2) :
      Option Int × Option Int × Option Int)
      ∈ windows3 (none :: none :: (l.map some ++ [none, none])) := by
    have : w = (w.1, w.2.1, w.2.2) := rfl
    exact mem_windows3_padded (this ▸ hw)
  have hkey : evenKey stride (some w.1, some w.2.1, some w.2.2) = true := by
    simp only [evenKey]
    rw [← hcond, hweq]
    simp
  have hgmem : (pg.1.1, pg.1.2) ∈
      groupRuns (evenKey stride)
        (windows3 (none :: none :: (l.map some ++ [none, none]))) := pg.2
  have hne : evenKey stride (some w.1, some w.2.1, some w.2.2) ≠ pg.1.1 := by
    rw [hkey]
    simp only [Bool.not_eq_true] at hNotEven
    rw [hNotEven]
    simp
  have hglt : pg.1.2.length <
      (windows3 (none :: none :: (l.map some ++ [none, none]))).length :=
    groupRuns_length_lt _ hgmem hwmem hne
  have hwin : (windows3 (none :: none :: (l.map some ++ [none, none]))).length
      = l.length + 2 := by
    rw [windows3_length]
    simp
  have h1 : (sortedDedup ((pg.1.2.take (pg.1.2.length - 2)).filterMap fun w => w.2.2)).length
      ≤ ((pg.1.2.take (pg.1.2.length - 2)).filterMap fun w => w.2.2).length := by
    unfold sortedDedup
    rw [List.length_insertionSort]
    exact List.Sublist.length_le (List.dedup_sublist _)
  have h2 : ((pg.1.2.take (pg.1.2.length - 2)).filterMap fun w => w.2.2).length
      ≤ pg.1.2.length - 2 := by
    calc ((pg.1.2.take (pg.1.2.length - 2)).filterMap fun w => w.2.2).length
        ≤ (pg.1.2.take (pg.1.2.length - 2)).length := List.length_filterMap_le _ _
      _ ≤ pg.1.2.length - 2 := by rw [List.length_take]; omega
  omega

/-- Model of `getSpansFromIntegers` (generateReductionSpec.py, 639–684). -/
def getSpansFromIntegers (ints : List Int) : List Span :=
  getSpansFromSorted (sortedDedup ints)

/-- Rendering of one span inside `getCompactNotationFromIntegers`
(generateReductionSpec.py, 616–637). -/
def renderSpan : Span → String
  | (first, last, stride) =>
    if first = last then toString first
    else if stride = 1 then toString first ++ ".." ++ toString last
    else toString first ++ ".." ++ toString last ++ ":" ++ toString stride

/-- Model of `getCompactNotationFromIntegers` (generateReductionSpec.py, 616–637). -/
def getCompactNotationFromIntegers (ints : List Int) : String :=
  String.intercalate "^" ((getSpansFromIntegers ints).map renderSpan)

/-- The inclusive arithmetic progression denoted by a span
`(first, last, stride)`: `first, first+stride, …, last`. -/
def expandSpan : Span → List Int
  | (first, last, stride) =>
    (List.range (((last - first) / stride).toNat + 1)).map fun k => first + stride * k

/-- Unconditional unfolding of `getSpansFromSorted` with the `attach`
bookkeeping removed (used for rewriting). -/
theorem getSpansFromSorted_eq (l : List Int) :
    getSpansFromSorted l =
      if l.length ≤ 2 then l.map fun x => (x, x, 1)
      else
        match (strideCandidates l).min? with
        | none => l.map fun x => (x, x, 1)
        | some stride =>
          (groupRuns (evenKey stride)
              (windows3 (none :: none :: (l.map some ++ [none, none])))).flatMap
            fun p =>
              if p.1 then
                [((p.2.headD (none, none, none)).1.getD 0,
                  ((p.2.getLastD (none, none, none)).2.2).getD 0, stride)]
              else
                getSpansFromSorted
                  (sortedDedup (((p.2.take (p.2.length - 2)).filterMap fun w => w.2.2))) := by
  rw [getSpansFromSorted]
  split
  · rfl
  · split
    · rename_i heq
      rw [heq]
    · rename_i stride heq
      rw [heq]
      exact attach_flatMap_eq
        (groupRuns (evenKey stride)
          (windows3 (none :: none :: (l.map some ++ [none, none]))))
        (fun p =>
          if p.1 then
            [((p.2.headD (none, none, none)).1.getD 0,
              ((p.2.getLastD (none, none, none)).2.2).getD 0, stride)]
          else
            getSpansFromSorted
              (sortedDedup (((p.2.take (p.2.length - 2)).filterMap fun w => w.2.2))))

theorem getSpansFromSorted_nil : getSpansFromSorted [] = [] := by
  rw [getSpansFromSorted_eq]; simp

/-- C9: `getCompactNotationFromIntegers` renders a span with `first == last` as
the bare integer, a stride-1 span as `first..last`, any other stride as
`first..last:stride`, joins spans with `^`; it maps `{1,2,3,4,5}` to `"1..5"`,
`{1,3,5,7}` to `"1..7:2"`, and `{1,2,4,8}` (no three-term equal-gap run) to
`"1^2^4^8"`. -/
theorem C9_compact_notation_rendering :
    (∀ ints : List Int, getCompactNotationFromIntegers ints =
        String.intercalate "^" ((getSpansFromIntegers ints).map renderSpan)) ∧
    (∀ first last stride : Int,
        renderSpan (first, last, stride) =
          if first = last then toString first
          else if stride = 1 then toString first ++ ".." ++ toString last
          else toString first ++ ".." ++ toString last ++ ":" ++ toString stride) ∧
    getCompactNotationFromIntegers [1, 2, 3, 4, 5] = "1..5" ∧
    getCompactNotationFromIntegers [1, 3, 5, 7] = "1..7:2" ∧
    getCompactNotationFromIntegers [1, 2, 4, 8] = "1^2^4^8" := by
  refine ⟨fun _ => rfl, fun _ _ _ => rfl, ?_, ?_, ?_⟩
  · unfold getCompactNotationFromIntegers getSpansFromIntegers
    rw [show sortedDedup [1, 2, 3, 4, 5] = [1, 2, 3, 4, 5] from by decide]
    rw [getSpansFromSorted_eq]
    rw [show (strideCandidates [1, 2, 3, 4, 5]).min? = some 1 from by decide]
    norm_num [strideCandidates, windows3, List.zip, groupRuns, evenKey, List.flatMap]
    norm_num [show sortedDedup [] = [] from by decide, getSpansFromSorted_nil, renderSpan]
    decide
  · unfold getCompactNotationFromIntegers getSpansFromIntegers
    rw [show sortedDedup [1, 3, 5, 7] = [1, 3, 5, 7] from by decide]
    rw [getSpansFromSorted_eq]
    rw [show (strideCandidates [1, 3, 5, 7]).min? = some 2 from by decide]
    norm_num [windows3, List.zip, groupRuns, evenKey, List.flatMap]
    norm_num [show sortedDedup [] = [] from by decide, getSpansFromSorted_nil, renderSpan]
    decide
  · unfold getCompactNotationFromIntegers getSpansFromIntegers
    rw [show sortedDedup [1, 2, 4, 8] = [1, 2, 4, 8] from by decide]
    rw [getSpansFromSorted_eq]
    rw [show (strideCandidates [1, 2, 4, 8]).min? = none from by decide]
    norm_num [renderSpan]
    decide

/-! ### `splitSources` (SourceChunker), generateReductionSpec.py 687–746 -/

/-- Model of `FileId` (generateReductionSpec.py, 45–52). -/
structure FileId where
  visit : Int
  arm : String
  spectrograph : Int
deriving DecidableEq

/-- All pairs of adjacent elements: Python `zip(xs[:-1], xs[1:])`. -/
def windows2 {α : Type} (l : List α) : List (α × α) :=
  l.zip (l.drop 1)

/-- The grouping key of the `itertools.groupby` call in `splitSources`:
`pair[1].visit - pair[0].visit == 1`.  `none` models the sentinel `FileId`
whose visit is `math.nan` (NaN arithmetic never compares equal to 1). -/
def contiguousKey : Option FileId × Option FileId → Bool
  | (some a, some b) => b.visit - a.visit = 1
  | _ => false

/-- One `groupby` group turned into contiguous sequences, as in the first
loop of `splitSources`: a contiguous group becomes the single run
`[pair[0] for pair in group] + [group[-1][-1]]`; a non-contiguous group
becomes the singletons `[pair[-1]] for pair in group[:-1]`. -/
def seqsOfChunk (c : Bool × List (Option FileId × Option FileId)) :
    List (List (Option FileId)) :=
  if c.1 then [c.2.map Prod.fst ++ [(c.2.getLastD (none, none)).2]]
  else (c.2.take (c.2.length - 1)).map fun p => [p.2]

/-- The list `contiguousSeqs` computed by `splitSources` from the sorted
source list (with the two sentinel guards modelled as `none`). -/
def contiguousSeqs (sorted : List FileId) : List (List (Option FileId)) :=
  (groupRuns contiguousKey (windows2 (none :: (sorted.map some ++ [none])))).flatMap
    seqsOfChunk

/-- The chunk-popping loop at the end of `splitSources`: emit `numChunks`
chunks off the front of `seq`, of size `quotient+1` while `remainder > 0`
(decrementing it), then of size `quotient`. -/
def popChunks {α : Type} (quotient : Nat) : Nat → Nat → List α → List (List α)
  | 0, _, _ => []
  | numChunks + 1, remainder, seq =>
    let numToPop := if 0 < remainder then quotient + 1 else quotient
    seq.take numToPop :: popChunks quotient numChunks (remainder - 1) (seq.drop numToPop)

/-- Chunking of one contiguous sequence in `splitSources`:
`numChunks = (n + chunkSize - 1) // chunkSize`,
`quotient, remainder = divmod(n, numChunks)`. -/
def chunksOfSeq {α : Type} (chunkSize : Nat) (seq : List α) : List (List α) :=
  popChunks (seq.length / ((seq.length + chunkSize - 1) / chunkSize))
    ((seq.length + chunkSize - 1) / chunkSize)
    (seq.length % ((seq.length + chunkSize - 1) / chunkSize)) seq

/-- Model of `splitSources` (generateReductionSpec.py, 687–746).  Its `raise ValueError`
is modelled as `none`.  The sentinels around the sorted list are `none`;
each contiguous sequence contains only real (`some`) entries, extracted by
`filterMap id`. -/
def splitSources (sources : List FileId) (chunkSize : Int) :
    Option (List (List FileId)) :=
  if chunkSize ≤ 0 then none
  else
    let sorted := List.insertionSort (fun a b => a.visit ≤ b.visit) sources
    some ((contiguousSeqs sorted).flatMap fun seq =>
      chunksOfSeq chunkSize.toNat (seq.filterMap id))

theorem windows2_nil {α : Type} : windows2 ([] : List α) = [] := rfl

theorem windows2_single {α : Type} (a : α) : windows2 [a] = [] := rfl

theorem windows2_cons₂ {α : Type} (a b : α) (t : List α) :
    windows2 (a :: b :: t) = (a, b) :: windows2 (b :: t) := rfl

theorem windows2_length {α : Type} (l : List α) :
    (windows2 l).length = l.length - 1 := by
  simp [windows2, List.length_zip, List.length_drop]

theorem windows2_map_snd {α : Type} (l : List α) :
    (windows2 l).map Prod.snd = l.drop 1 := by
  match l with
  | [] => rfl
  | [a] => rfl
  | a :: b :: t =>
    rw [windows2_cons₂, List.map_cons, windows2_map_snd (b :: t)]
    rfl

theorem windows2_drop {α : Type} (k : ℕ) (l : List α) :
    (windows2 l).drop k = windows2 (l.drop k) := by
  induction k generalizing l with
  | zero => rfl
  | succ k ih =>
    match l with
    | [] => rfl
    | [a] => simp [windows2_single, List.drop_succ_cons, List.drop_nil, windows2_nil]
    | a :: b :: t =>
      rw [windows2_cons₂, List.drop_succ_cons, ih (b :: t)]
      rfl

theorem windows2_short {α : Type} {l : List α} (h : l.length ≤ 1) :
    windows2 l = [] := by
  have : (windows2 l).length = 0 := by rw [windows2_length]; omega
  exact List.length_eq_zero.1 this

theorem windows2_take {α : Type} (k : ℕ) (l : List α) :
    (windows2 l).take k = windows2 (l.take (k + 1)) := by
  induction k generalizing l with
  | zero =>
    rw [List.take_zero]
    exact (windows2_short (by simp [List.length_take])).symm
  | succ k ih =>
    match l with
    | [] => rfl
    | [a] =>
      rw [windows2_single]
      simp only [List.take_succ_cons, List.take_nil]
      rfl
    | a :: b :: t =>
      rw [windows2_cons₂, List.take_succ_cons, ih (b :: t)]
      simp only [List.take_succ_cons]
      rfl

/-- Adjacent pairs in `windows2 l` overlap: the second component of one is
the first component of the next. -/
theorem windows2_chain {α : Type} (l : List α) :
    List.Chain' (fun p p' => p'.1 = p.2) (windows2 l) := by
  match l with
  | [] => exact List.chain'_nil
  | [a] => exact List.chain'_nil
  | a :: b :: t =>
    rw [windows2_cons₂]
    refine List.chain'_cons'.2 ⟨?_, windows2_chain (b :: t)⟩
    intro y hy
    match t, hy with
    | c :: t', hy =>
      rw [windows2_cons₂] at hy
      simp at hy
      subst hy
      rfl

theorem getLast?_drop_of_ne_nil {α : Type} {l : List α} {k : ℕ}
    (h : l.drop k ≠ []) : (l.drop k).getLast? = l.getLast? := by
  conv_rhs => rw [← List.take_append_drop k l]
  rw [List.getLast?_append]
  rcases hl : (l.drop k).getLast? with _ | x
  · exact absurd (List.getLast?_eq_none_iff.1 hl) h
  · rfl

/-! ### The chunk-popping loop of `splitSources` -/

theorem popChunks_flatten {α : Type} :
    ∀ (nc r q : ℕ) (s : List α), r ≤ nc → s.length = nc * q + r →
      (popChunks q nc r s).flatten = s := by
  intro nc
  induction nc with
  | zero =>
    intro r q s hr hl
    interval_cases r
    simp only [Nat.zero_mul, Nat.zero_add] at hl
    have hs : s = [] := List.length_eq_zero.1 hl
    subst hs
    rfl
  | succ nc ih =>
    intro r q s hr hl
    rw [Nat.succ_mul] at hl
    rw [popChunks, List.flatten_cons]
    rcases Nat.eq_zero_or_pos r with rfl | hrpos
    · rw [if_neg (by omega)]
      rw [ih 0 q (s.drop q) (Nat.zero_le _) (by rw [List.length_drop]; omega)]
      exact List.take_append_drop q s
    · rw [if_pos hrpos]
      rw [ih (r - 1) q (s.drop (q + 1)) (by omega)
        (by rw [List.length_drop]; omega)]
      exact List.take_append_drop (q + 1) s

theorem popChunks_sizes {α : Type} :
    ∀ (nc r q : ℕ) (s : List α), r ≤ nc → s.length = nc * q + r →
      (popChunks q nc r s).map List.length =
        List.replicate r (q + 1) ++ List.replicate (nc - r) q := by
  intro nc
  induction nc with
  | zero =>
    intro r q s hr _
    interval_cases r
    rfl
  | succ nc ih =>
    intro r q s hr hl
    rw [Nat.succ_mul] at hl
    rw [popChunks, List.map_cons]
    rcases Nat.eq_zero_or_pos r with rfl | hrpos
    · rw [if_neg (by omega)]
      rw [ih 0 q (s.drop q) (Nat.zero_le _) (by rw [List.length_drop]; omega)]
      rw [List.length_take]
      have hmin : min q s.length = q := by omega
      rw [hmin]
      simp [List.replicate_succ]
    · rw [if_pos hrpos]
      rw [ih (r - 1) q (s.drop (q + 1)) (by omega)
        (by rw [List.length_drop]; omega)]
      rw [List.length_take]
      have hmin : min (q + 1) s.length = q + 1 := by omega
      rw [hmin, show nc - (r - 1) = nc + 1 - r from by omega]
      conv_rhs => rw [show r = (r - 1) + 1 from by omega]
      rw [List.replicate_succ]
      simp only [List.cons_append]
      rw [show (r - 1) + 1 = r from by omega]

theorem popChunks_mem_split {α : Type} :
    ∀ (nc r q : ℕ) (s : List α) (chunk : List α), chunk ∈ popChunks q nc r s →
      ∃ i j, chunk = (s.drop i).take j := by
  intro nc
  induction nc with
  | zero => intro r q s chunk h; cases h
  | succ nc ih =>
    intro r q s chunk h
    rw [popChunks] at h
    rcases List.mem_cons.1 h with rfl | htail
    · exact ⟨0, _, by rw [List.drop_zero]⟩
    · rcases ih _ _ _ _ htail with ⟨i, j, hij⟩
      exact ⟨_ + i, j, by rw [hij, List.drop_drop]⟩

theorem chunksOfSeq_nil_of_len_zero {α : Type} {cs : ℕ} (hcs : 0 < cs)
    {s : List α} (h0 : s.length = 0) : chunksOfSeq cs s = [] := by
  unfold chunksOfSeq
  rw [h0, show (0 + cs - 1) / cs = 0 from Nat.div_eq_of_lt (by omega)]
  rfl


theorem chunksOfSeq_flatten {α : Type} {cs : ℕ} (hcs : 0 < cs) (s : List α) :
    (chunksOfSeq cs s).flatten = s := by
  rcases Nat.eq_zero_or_pos s.length with h0 | hpos
  · rw [chunksOfSeq_nil_of_len_zero hcs h0]
    exact (List.length_eq_zero.1 h0).symm
  · unfold chunksOfSeq
    have hnc : 0 < (s.length + cs - 1) / cs :=
      (Nat.le_div_iff_mul_le hcs).2 (by omega)
    exact popChunks_flatten _ _ _ _ (le_of_lt (Nat.mod_lt _ hnc))
      (Nat.div_add_mod s.length _).symm

/-- Ceiling arithmetic: `n ≤ cs * ((n + cs - 1) / cs)`. -/
theorem le_mul_ceilDivLike {n cs : ℕ} (hcs : 0 < cs) :
    n ≤ cs * ((n + cs - 1) / cs) := by
  have h1 := Nat.div_add_mod (n + cs - 1) cs
  have h2 := Nat.mod_lt (n + cs - 1) hcs
  omega

theorem chunksOfSeq_size_le {α : Type} {cs : ℕ} (hcs : 0 < cs) (s : List α) :
    ∀ chunk ∈ chunksOfSeq cs s, chunk.length ≤ cs := by
  intro chunk hmem
  rcases Nat.eq_zero_or_pos s.length with h0 | hpos
  · rw [chunksOfSeq_nil_of_len_zero hcs h0] at hmem
    cases hmem
  · unfold chunksOfSeq at hmem
    have hnc : 0 < (s.length + cs - 1) / cs :=
      (Nat.le_div_iff_mul_le hcs).2 (by omega)
    have hle : s.length ≤ cs * ((s.length + cs - 1) / cs) := le_mul_ceilDivLike hcs
    have hdm := Nat.div_add_mod s.length ((s.length + cs - 1) / cs)
    have hsizes := popChunks_sizes _ _ _ s (le_of_lt (Nat.mod_lt _ hnc))
      (Nat.div_add_mod s.length _).symm
    have hmem2 : chunk.length ∈
        (popChunks (s.length / ((s.length + cs - 1) / cs))
          ((s.length + cs - 1) / cs)
          (s.length % ((s.length + cs - 1) / cs)) s).map List.length :=
      List.mem_map_of_mem _ hmem
    rw [hsizes] at hmem2
    have hqcs : s.length / ((s.length + cs - 1) / cs) ≤ cs := by
      have h1 : s.length / ((s.length + cs - 1) / cs) * ((s.length + cs - 1) / cs)
          ≤ s.length := Nat.div_mul_le_self _ _
      by_contra hq
      push_neg at hq
      have h2 : (cs + 1) * ((s.length + cs - 1) / cs)
          ≤ (s.length / ((s.length + cs - 1) / cs)) * ((s.length + cs - 1) / cs) :=
        Nat.mul_le_mul_right _ hq
      have h3 : cs * ((s.length + cs - 1) / cs) <
          (cs + 1) * ((s.length + cs - 1) / cs) := by
        rw [Nat.succ_mul]
        omega
      omega
    rcases List.mem_append.1 hmem2 with hq1 | hq0
    · rcases List.mem_replicate.1 hq1 with ⟨hrne, hlen⟩
      -- remainder is nonzero, so the quotient is strictly below cs
      have hrpos : 0 < s.length % ((s.length + cs - 1) / cs) := Nat.pos_of_ne_zero
        (fun h => hrne (by rw [h]))
      have hqlt : s.length / ((s.length + cs - 1) / cs) < cs := by
        rcases Nat.lt_or_ge (s.length / ((s.length + cs - 1) / cs)) cs with h | h
        · exact h
        · exfalso
          have h2 : cs * ((s.length + cs - 1) / cs)
              ≤ (s.length / ((s.length + cs - 1) / cs)) * ((s.length + cs - 1) / cs) :=
            Nat.mul_le_mul_right _ h
          have h3 : (s.length / ((s.length + cs - 1) / cs)) * ((s.length + cs - 1) / cs)
              = ((s.length + cs - 1) / cs) * (s.length / ((s.length + cs - 1) / cs)) :=
            Nat.mul_comm _ _
          omega
      omega
    · rcases List.mem_replicate.1 hq0 with ⟨_, hlen⟩
      omega

/-- The chunk sizes of one contiguous run are non-increasing and pairwise
differ by at most one. -/
theorem chunksOfSeq_balanced {α : Type} {cs : ℕ} (hcs : 0 < cs) (s : List α) :
    ((chunksOfSeq cs s).map List.length).Chain' (fun a b => b ≤ a) ∧
    (∀ a ∈ (chunksOfSeq cs s).map List.length,
     ∀ b ∈ (chunksOfSeq cs s).map List.length, a ≤ b + 1) := by
  rcases Nat.eq_zero_or_pos s.length with h0 | hpos
  · rw [chunksOfSeq_nil_of_len_zero hcs h0]
    exact ⟨List.chain'_nil, by simp⟩
  · unfold chunksOfSeq
    have hnc : 0 < (s.length + cs - 1) / cs :=
      (Nat.le_div_iff_mul_le hcs).2 (by omega)
    rw [popChunks_sizes _ _ _ s (le_of_lt (Nat.mod_lt _ hnc))
      (Nat.div_add_mod s.length _).symm]
    constructor
    · rw [List.chain'_append]
      refine ⟨List.chain'_replicate_of_rel _ le_rfl, List.chain'_replicate_of_rel _ le_rfl, ?_⟩
      intro x hx y hy
      rcases List.mem_replicate.1 (List.mem_of_mem_head? hy) with ⟨_, rfl⟩
      have := List.mem_of_getLast?_eq_some hx
      rcases List.mem_replicate.1 this with ⟨_, rfl⟩
      omega
    · intro a ha b hb
      have hval : ∀ c, c ∈ List.replicate (s.length % ((s.length + cs - 1) / cs))
          (s.length / ((s.length + cs - 1) / cs) + 1) ++
          List.replicate ((s.length + cs - 1) / cs - s.length % ((s.length + cs - 1) / cs))
          (s.length / ((s.length + cs - 1) / cs)) →
          c = s.length / ((s.length + cs - 1) / cs) + 1 ∨
          c = s.length / ((s.length + cs - 1) / cs) := by
        intro c hc
        rcases List.mem_append.1 hc with h | h
        · exact Or.inl (List.mem_replicate.1 h).2
        · exact Or.inr (List.mem_replicate.1 h).2
      rcases hval a ha with rfl | rfl <;> rcases hval b hb with rfl | rfl <;> omega

/-! ### Structure of `groupRuns` groups -/

theorem groupRuns_ne_nil {α β : Type} [DecidableEq β] (key : α → β) :
    ∀ l : List α, ∀ b g, (b, g) ∈ groupRuns key l → g ≠ [] := by
  intro l
  induction l with
  | nil => simp [groupRuns]
  | cons x xs ih =>
    intro b g hmem
    rw [groupRuns] at hmem
    rcases h : groupRuns key xs with _ | ⟨⟨k, g'⟩, rest⟩ <;> rw [h] at hmem
    · have hmem2 : (b, g) ∈ [(key x, [x])] := hmem
      simp at hmem2
      rw [hmem2.2]
      simp
    · have hmem2 : (b, g) ∈
          (if key x = k then (k, x :: g') :: rest
           else (key x, [x]) :: (k, g') :: rest) := hmem
      by_cases hk : key x = k
      · rw [if_pos hk] at hmem2
        rcases List.mem_cons.1 hmem2 with heq | htail
        · injection heq with _ h2
          rw [h2]
          simp
        · exact ih b g (h ▸ List.mem_cons_of_mem _ htail)
      · rw [if_neg hk] at hmem2
        rcases List.mem_cons.1 hmem2 with heq | htail
        · injection heq with _ h2
          rw [h2]
          simp
        · exact ih b g (h ▸ htail)

theorem groupRuns_flags_alternate {α β : Type} [DecidableEq β] (key : α → β) :
    ∀ l : List α, List.Chain' (fun a b => a.1 ≠ b.1) (groupRuns key l) := by
  intro l
  induction l with
  | nil => simp [groupRuns]
  | cons x xs ih =>
    rw [groupRuns]
    rcases h : groupRuns key xs with _ | ⟨⟨k, g'⟩, rest⟩ <;> rw [h] at ih
    · simp
    · by_cases hk : key x = k
      · show List.Chain'
          (fun a b => a.1 ≠ b.1)
          (if key x = k then (k, x :: g') :: rest
           else (key x, [x]) :: (k, g') :: rest)
        rw [if_pos hk]
        rcases List.chain'_cons'.1 ih with ⟨hrel, htail⟩
        exact List.chain'_cons'.2 ⟨hrel, htail⟩
      · show List.Chain'
          (fun a b => a.1 ≠ b.1)
          (if key x = k then (k, x :: g') :: rest
           else (key x, [x]) :: (k, g') :: rest)
        rw [if_neg hk]
        exact List.chain'_cons.2 ⟨hk, ih⟩

theorem groupRuns_head_key {α β : Type} [DecidableEq β] (key : α → β) (x : α)
    (xs : List α) : ∃ g rest, groupRuns key (x :: xs) = (key x, g) :: rest := by
  rw [groupRuns]
  rcases h : groupRuns key xs with _ | ⟨⟨k, g'⟩, rest⟩
  · exact ⟨[x], [], rfl⟩
  · by_cases hk : key x = k
    · refine ⟨x :: g', rest, ?_⟩
      show (if key x = k then (k, x :: g') :: rest
            else (key x, [x]) :: (k, g') :: rest) = (key x, x :: g') :: rest
      rw [if_pos hk, hk]
    · refine ⟨[x], (k, g') :: rest, ?_⟩
      show (if key x = k then (k, x :: g') :: rest
            else (key x, [x]) :: (k, g') :: rest) = (key x, [x]) :: (k, g') :: rest
      rw [if_neg hk]

/-- A contiguous group of adjacent pairs restores the original slice:
`[pair[0] for pair in group] + [group[-1][-1]]` is the underlying list. -/
theorem windows2_extract {α : Type} :
    ∀ (p : List α) (d : α × α), 2 ≤ p.length →
      (windows2 p).map Prod.fst ++ [((windows2 p).getLastD d).2] = p := by
  intro p
  match p with
  | [] => intro d h; simp at h
  | [a] => intro d h; simp at h
  | a :: b :: t =>
    induction t generalizing a b with
    | nil => intro d _; rfl
    | cons c t' ih =>
      intro d _
      rw [windows2_cons₂, List.map_cons, List.getLastD_cons]
      simp only [List.cons_append]
      exact congrArg (a :: ·) (ih b c (a, b) (by simp))

theorem flatten_map_singleton {α β : Type} (f : α → β) (l : List α) :
    (l.map fun x => [f x]).flatten = l.map f := by
  induction l with
  | nil => rfl
  | cons x xs ih => simp [ih]

theorem contiguousKey_none_snd (x : Option FileId) :
    contiguousKey (x, none) = false := by
  cases x <;> rfl

theorem seqsOfChunk_true (g : List (Option FileId × Option FileId)) :
    seqsOfChunk (true, g) = [g.map Prod.fst ++ [(g.getLastD (none, none)).2]] := by
  simp [seqsOfChunk]

theorem seqsOfChunk_false (g : List (Option FileId × Option FileId)) :
    seqsOfChunk (false, g) = (g.take (g.length - 1)).map fun p => [p.2] := by
  simp [seqsOfChunk]

/-- Cover lemma for the first loop of `splitSources`: the extracted
contiguous sequences concatenate to the interior of the padded list
(everything except the first element, which the leading sentinel pair
hides, and the final sentinel). -/
theorem chunkCover :
    ∀ (CL : List (Bool × List (Option FileId × Option FileId)))
      (q : List (Option FileId)),
      CL.flatMap Prod.snd = windows2 q →
      (∀ p ∈ CL, ∀ w ∈ p.2, contiguousKey w = p.1) →
      (∀ p ∈ CL, p.2 ≠ []) →
      List.Chain' (fun a b => a.1 ≠ b.1) CL →
      q.getLast? = some none →
      (CL.flatMap seqsOfChunk).flatten =
        match CL with
        | [] => []
        | c :: _ => if c.1 then q.dropLast else (q.drop 1).dropLast := by
  intro CL
  induction CL with
  | nil => intro q _ _ _ _ _; rfl
  | cons c CL' ih =>
    intro q hjoin huni hne halt hlast
    obtain ⟨b, g⟩ := c
    show (((b, g) :: CL').flatMap seqsOfChunk).flatten =
      if b then q.dropLast else (q.drop 1).dropLast
    have hgne : g ≠ [] := hne (b, g) (List.mem_cons_self _ _)
    have hklen : 1 ≤ g.length := by
      cases g with
      | nil => exact absurd rfl hgne
      | cons _ _ => simp
    rw [List.flatMap_cons] at hjoin
    have hwlen : g.length ≤ (windows2 q).length := by
      rw [← hjoin]
      simp [List.length_append]
    have hq2 : 2 ≤ q.length := by
      have := windows2_length q
      omega
    have hg_take : g = (windows2 q).take g.length := by
      rw [← hjoin, List.take_left]
    have hrest : CL'.flatMap Prod.snd = windows2 (q.drop g.length) := by
      rw [← windows2_drop, ← hjoin, List.drop_left]
    rw [List.flatMap_cons, List.flatten_append]
    cases CL' with
    | nil =>
      simp only [List.flatMap_nil, List.flatten_nil, List.append_nil]
      simp only [List.flatMap_nil, List.append_nil] at hjoin
      cases b with
      | false =>
        rw [if_neg Bool.false_ne_true]
        rw [seqsOfChunk_false]
        rw [flatten_map_singleton Prod.snd]
        rw [hjoin, List.map_take, windows2_map_snd, List.dropLast_eq_take]
        congr 1
        rw [windows2_length, List.length_drop]
      | true =>
        exfalso
        have hql : (q.drop 1).getLast? = some none := by
          rw [getLast?_drop_of_ne_nil]
          · exact hlast
          · intro hnil
            have := congrArg List.length hnil
            simp [List.length_drop] at this
            omega
        have hsnd : ((windows2 q).map Prod.snd).getLast? = some none := by
          rw [windows2_map_snd]
          exact hql
        rw [List.getLast?_map] at hsnd
        rcases hw : (windows2 q).getLast? with _ | w
        · rw [hw] at hsnd; cases hsnd
        · rw [hw] at hsnd
          simp only [Option.map_some'] at hsnd
          have hwmem : w ∈ windows2 q := List.mem_of_getLast?_eq_some hw
          have hwg : w ∈ g := hjoin ▸ hwmem
          have hkey : contiguousKey w = true :=
            huni (true, g) (List.mem_cons_self _ _) w hwg
          have hw2 : w = (w.1, (none : Option FileId)) := by
            have : w.2 = none := Option.some.inj hsnd
            rw [← this]
          rw [hw2, contiguousKey_none_snd] at hkey
          cases hkey
    | cons c' CL'' =>
      have hj' : c'.2 ++ CL''.flatMap Prod.snd = windows2 (q.drop g.length) := by
        rw [← hrest, List.flatMap_cons]
      have hc'ne : c'.2 ≠ [] := hne c' (List.mem_cons_of_mem _ (List.mem_cons_self _ _))
      have hq'w : windows2 (q.drop g.length) ≠ [] := by
        rw [← hj']
        intro h
        exact hc'ne (List.append_eq_nil.1 h).1
      have hq'len : 2 ≤ (q.drop g.length).length := by
        have h1 := windows2_length (q.drop g.length)
        have h2 : 0 < (windows2 (q.drop g.length)).length :=
          List.length_pos.2 hq'w
        omega
      have hq'ne : q.drop g.length ≠ [] := by
        intro h
        rw [h] at hq'len
        simp at hq'len
      have hlast' : (q.drop g.length).getLast? = some none := by
        rw [getLast?_drop_of_ne_nil hq'ne]
        exact hlast
      have halt' : List.Chain' (fun a b => a.1 ≠ b.1) (c' :: CL'') :=
        (List.chain'_cons'.1 halt).2
      have hflagne : b ≠ c'.1 := by
        have := (List.chain'_cons'.1 halt).1
        exact this c' (by simp)
      have hIH2 : ((c' :: CL'').flatMap seqsOfChunk).flatten =
          if c'.1 then (q.drop g.length).dropLast
          else ((q.drop g.length).drop 1).dropLast :=
        ih (q.drop g.length) hrest
          (fun p hp w hw => huni p (List.mem_cons_of_mem _ hp) w hw)
          (fun p hp => hne p (List.mem_cons_of_mem _ hp)) halt' hlast'
      have hdropne : q.drop (g.length + 1) ≠ [] := by
        intro h
        have := congrArg List.length h
        rw [List.length_drop] at this
        simp at this
        rw [List.length_drop] at hq'len
        omega
      cases b with
      | true =>
        have hc' : c'.1 = false := Bool.eq_false_iff.mpr (Ne.symm hflagne)
        rw [hc'] at hIH2
        simp only [Bool.false_eq_true, if_false] at hIH2
        rw [hIH2]
        rw [if_pos rfl]
        -- head: the contiguous group restores `q.take (g.length + 1)`
        rw [seqsOfChunk_true, List.flatten_cons, List.flatten_nil, List.append_nil]
        have hgw : g = windows2 (q.take (g.length + 1)) := by
          rw [← windows2_take, ← hg_take]
        have hextract : g.map Prod.fst ++ [(g.getLastD (none, none)).2]
            = q.take (g.length + 1) := by
          conv_lhs => rw [hgw]
          exact windows2_extract (q.take (g.length + 1)) (none, none)
            (by rw [List.length_take]; omega)
        rw [hextract]
        have hdd : (q.drop g.length).drop 1 = q.drop (g.length + 1) := by
          rw [List.drop_drop]
        rw [hdd]
        conv_rhs => rw [← List.take_append_drop (g.length + 1) q]
        rw [List.dropLast_append_of_ne_nil _ hdropne]
      | false =>
        have hc' : c'.1 = true := Bool.ne_false_iff.mp (Ne.symm hflagne)
        rw [hc'] at hIH2
        simp only [if_true] at hIH2
        rw [hIH2]
        rw [if_neg Bool.false_ne_true]
        rw [seqsOfChunk_false]
        rw [flatten_map_singleton Prod.snd]
        have hhead : ∀ m, m + 1 = g.length →
            (g.take m).map Prod.snd = (q.drop 1).take m := by
          intro m hm
          rw [hg_take, List.take_take, min_eq_left (by omega), List.map_take,
            windows2_map_snd]
        rw [hhead (g.length - 1) (by omega)]
        have hdd : (q.drop 1).drop (g.length - 1) = q.drop g.length := by
          rw [List.drop_drop]
          congr 1
          omega
        conv_rhs => rw [← List.take_append_drop (g.length - 1) (q.drop 1)]
        rw [hdd]
        rw [List.dropLast_append_of_ne_nil _ hq'ne]

theorem contiguousKey_true_elim {p : Option FileId × Option FileId}
    (h : contiguousKey p = true) :
    ∃ fa fb, p = (some fa, some fb) ∧ fb.visit - fa.visit = 1 := by
  match p, h with
  | (some fa, some fb), h =>
    refine ⟨fa, fb, rfl, ?_⟩
    simpa [contiguousKey] using h

/-- The elements of one contiguous group, extracted exactly as `splitSources`
does, have visits increasing by exactly one. -/
theorem trueGroup_chain :
    ∀ g : List (Option FileId × Option FileId), g ≠ [] →
      (∀ w ∈ g, contiguousKey w = true) →
      List.Chain' (fun p p' => p'.1 = p.2) g →
      List.Chain' (fun a b => b.visit - a.visit = 1)
        ((g.map Prod.fst ++ [(g.getLastD (none, none)).2]).filterMap id) := by
  intro g
  induction g with
  | nil => intro h; exact absurd rfl h
  | cons w g' ih =>
    intro _ huni hchain
    obtain ⟨fa, fb, hw, hv⟩ :=
      contiguousKey_true_elim (huni w (List.mem_cons_self _ _))
    cases g' with
    | nil =>
      subst hw
      simp only [List.map_cons, List.map_nil, List.getLastD_cons, List.getLastD]
      simp only [List.nil_append, List.cons_append]
      simp only [List.filterMap_cons, id]
      exact List.chain'_cons.2 ⟨hv, List.chain'_singleton _⟩
    | cons w' g'' =>
      have htail : List.Chain' (fun p p' => p'.1 = p.2) (w' :: g'') :=
        (List.chain'_cons.1 hchain).2
      have hov : w'.1 = w.2 := (List.chain'_cons.1 hchain).1
      have hih := ih (by simp)
        (fun x hx => huni x (List.mem_cons_of_mem _ hx)) htail
      rw [List.map_cons, List.getLastD_cons, List.cons_append,
        List.filterMap_cons]
      have hw1 : w.1 = some fa := by rw [hw]
      have hw2 : w.2 = some fb := by rw [hw]
      rw [hw1]
      simp only [id]
      have hgd : (w' :: g'').getLastD w = (w' :: g'').getLastD (none, none) := by
        rw [List.getLastD_cons, List.getLastD_cons]
      rw [hgd]
      refine List.chain'_cons'.2 ⟨?_, hih⟩
      intro y hy
      rw [List.map_cons, List.cons_append, List.filterMap_cons] at hy
      rw [hov, hw2] at hy
      simp only [id] at hy
      simp only [List.head?_cons, Option.mem_def, Option.some.injEq] at hy
      rw [← hy]
      exact hv

theorem chain_of_append_mid {α : Type} {R : α → α → Prop} {s mid t : List α}
    (h : List.Chain' R (s ++ (mid ++ t))) : List.Chain' R mid :=
  (List.chain'_append.1 (List.chain'_append.1 h).2.1).1

theorem chain_take_drop {α : Type} {R : α → α → Prop} {l : List α}
    (h : List.Chain' R l) (i j : ℕ) : List.Chain' R ((l.drop i).take j) := by
  have hdecomp : l = l.take i ++ (((l.drop i).take j) ++ (l.drop i).drop j) := by
    rw [List.take_append_drop, List.take_append_drop]
  rw [hdecomp] at h
  exact chain_of_append_mid h

/-- Every contiguous sequence produced by `splitSources`, with the sentinels
stripped, has visits increasing by exactly one. -/
theorem contiguousSeqs_chain (sorted : List FileId) :
    ∀ seq ∈ contiguousSeqs sorted,
      List.Chain' (fun a b => b.visit - a.visit = 1) (seq.filterMap id) := by
  intro seq hseq
  unfold contiguousSeqs at hseq
  rcases List.mem_flatMap.1 hseq with ⟨⟨b, g⟩, hcmem, hsmem⟩
  cases b with
  | false =>
    rw [seqsOfChunk_false] at hsmem
    rcases List.mem_map.1 hsmem with ⟨p, _, hp⟩
    rw [← hp]
    cases hx : p.2 with
    | none => simp [hx]
    | some f => simp [hx]
  | true =>
    rw [seqsOfChunk_true] at hsmem
    simp only [List.mem_singleton] at hsmem
    subst hsmem
    have hgne : g ≠ [] := groupRuns_ne_nil contiguousKey _ _ _ hcmem
    have huni : ∀ w ∈ g, contiguousKey w = true :=
      groupRuns_key contiguousKey _ _ _ hcmem
    -- the group is a contiguous slice of the padded pair list, so adjacent
    -- pairs overlap
    have hchain : List.Chain' (fun p p' => p'.1 = p.2) g := by
      rcases List.append_of_mem hcmem with ⟨CL1, CL2, hsplit⟩
      have hjoin := groupRuns_flatMap contiguousKey
        (windows2 (none :: (sorted.map some ++ [none])))
      rw [hsplit] at hjoin
      rw [List.flatMap_append, List.flatMap_cons] at hjoin
      have hwchain := windows2_chain (none :: (sorted.map some ++ [none]))
      rw [← hjoin] at hwchain
      exact chain_of_append_mid hwchain
    exact trueGroup_chain g hgne huni hchain

/-- The contiguous sequences concatenate to exactly the sorted list (wrapped
in `some`): nothing is lost and nothing is duplicated. -/
theorem contiguousSeqs_flatten (sorted : List FileId) :
    (contiguousSeqs sorted).flatten = sorted.map some := by
  unfold contiguousSeqs
  have hlast : (none :: (sorted.map some ++ [none]) :
      List (Option FileId)).getLast? = some none := by
    rw [show (none :: (sorted.map some ++ [none]) : List (Option FileId))
      = (none :: sorted.map some) ++ [none] from by simp]
    rw [List.getLast?_concat]
  obtain ⟨g0, rest0, hCL⟩ : ∃ g rest,
      groupRuns contiguousKey (windows2 (none :: (sorted.map some ++ [none])))
        = (false, g) :: rest := by
    cases sorted with
    | nil => exact ⟨[(none, none)], [], rfl⟩
    | cons f fs =>
      simp only [List.map_cons, List.cons_append]
      rw [windows2_cons₂]
      obtain ⟨g, rest, h⟩ := groupRuns_head_key contiguousKey
        ((none : Option FileId), some f) (windows2 (some f :: (fs.map some ++ [none])))
      exact ⟨g, rest, by rw [h]; rfl⟩
  have hcover : ((((false, g0) :: rest0) :
      List (Bool × List (Option FileId × Option FileId))).flatMap
        seqsOfChunk).flatten =
      ((none :: (sorted.map some ++ [none]) : List (Option FileId)).drop 1).dropLast := by
    exact chunkCover ((false, g0) :: rest0) (none :: (sorted.map some ++ [none]))
      (by rw [← hCL]; exact groupRuns_flatMap _ _)
      (by rw [← hCL]; exact fun p hp w hw => groupRuns_key _ _ _ _ hp w hw)
      (by rw [← hCL]; exact fun p hp => groupRuns_ne_nil _ _ _ _ hp)
      (by rw [← hCL]; exact groupRuns_flags_alternate _ _)
      hlast
  rw [hCL, hcover]
  simp only [List.drop_succ_cons, List.drop_zero]
  rw [List.dropLast_concat]

theorem flatten_flatMap {α β : Type} (l : List α) (g : α → List (List β)) :
    (l.flatMap g).flatten = l.flatMap fun a => (g a).flatten := by
  induction l with
  | nil => rfl
  | cons x xs ih => simp [List.flatMap_cons, ih]

theorem flatMap_filterMap_flatten {α β : Type} (l : List (List α)) (f : α → Option β) :
    (l.flatMap fun s => s.filterMap f) = l.flatten.filterMap f := by
  induction l with
  | nil => rfl
  | cons x xs ih => simp [List.flatMap_cons, List.filterMap_append, ih]

/-- C2: for every collection of `FileId` and positive `chunkSize`,
`splitSources` returns a partition of the input whose chunks have size at
most `chunkSize` and internally contiguous (increasing-by-one) visits, and
the chunk sizes of one maximal contiguous run are non-increasing and differ
pairwise by at most 1; a run of 11 contiguous visits with `chunkSize = 5`
splits into sizes `[4, 4, 3]`; and `chunkSize ≤ 0` raises `ValueError`
(modelled as `none`). -/
theorem C2_splitSources_spec :
    (∀ (sources : List FileId) (chunkSize : Int), 0 < chunkSize →
      ∃ out, splitSources sources chunkSize = some out ∧
        out.flatten.Perm sources ∧
        (∀ chunk ∈ out, (chunk.length : Int) ≤ chunkSize) ∧
        (∀ chunk ∈ out, List.Chain' (fun a b => b.visit - a.visit = 1) chunk) ∧
        (∀ seq ∈ contiguousSeqs
            (List.insertionSort (fun a b => a.visit ≤ b.visit) sources),
          ((chunksOfSeq chunkSize.toNat (seq.filterMap id)).map List.length).Chain'
            (fun a b => b ≤ a) ∧
          ∀ a ∈ (chunksOfSeq chunkSize.toNat (seq.filterMap id)).map List.length,
          ∀ b ∈ (chunksOfSeq chunkSize.toNat (seq.filterMap id)).map List.length,
            a ≤ b + 1)) ∧
    (∀ (sources : List FileId) (chunkSize : Int), chunkSize ≤ 0 →
      splitSources sources chunkSize = none) ∧
    (splitSources ((List.range 11).map fun i => ⟨(i : Int) + 1, "b", 1⟩) 5).map
      (fun out => out.map List.length) = some [4, 4, 3] := by
  refine ⟨?_, ?_, ?_⟩
  · intro sources chunkSize hcs
    have hcsn : 0 < chunkSize.toNat := by omega
    refine ⟨(contiguousSeqs
        (List.insertionSort (fun a b => a.visit ≤ b.visit) sources)).flatMap
        fun seq => chunksOfSeq chunkSize.toNat (seq.filterMap id),
      ?_, ?_, ?_, ?_, ?_⟩
    · unfold splitSources
      rw [if_neg (by omega)]
    · rw [flatten_flatMap]
      have hcong : ((contiguousSeqs
          (List.insertionSort (fun a b => a.visit ≤ b.visit) sources)).flatMap
          fun seq => (chunksOfSeq chunkSize.toNat (seq.filterMap id)).flatten)
          = (contiguousSeqs
            (List.insertionSort (fun a b => a.visit ≤ b.visit) sources)).flatMap
            fun seq => seq.filterMap id := by
        apply List.flatMap_congr
        intro seq _
        exact chunksOfSeq_flatten hcsn _
      rw [hcong, flatMap_filterMap_flatten, contiguousSeqs_flatten,
        List.filterMap_map]
      have hid : (List.filterMap (id ∘ some)
          (List.insertionSort (fun a b => a.visit ≤ b.visit) sources))
          = List.insertionSort (fun a b => a.visit ≤ b.visit) sources := by
        simp
      rw [hid]
      exact List.perm_insertionSort _ _
    · intro chunk hchunk
      rcases List.mem_flatMap.1 hchunk with ⟨seq, _, hc⟩
      have := chunksOfSeq_size_le hcsn _ chunk hc
      omega
    · intro chunk hchunk
      rcases List.mem_flatMap.1 hchunk with ⟨seq, hseq, hc⟩
      have hseqchain := contiguousSeqs_chain _ seq hseq
      rcases popChunks_mem_split _ _ _ _ chunk hc with ⟨i, j, rfl⟩
      exact chain_take_drop hseqchain i j
    · intro seq _
      exact chunksOfSeq_balanced hcsn _
  · intro sources chunkSize hcs
    unfold splitSources
    rw [if_pos hcs]
  · decide

/-- Witness for `C2_splitSources_spec`: its hypotheses are satisfiable at
concrete inputs. -/
theorem C2_splitSources_spec_witness :
    (0 < (5 : Int) ∧
      ∃ out, splitSources [⟨1, "b", 1⟩, ⟨2, "b", 1⟩, ⟨5, "r", 2⟩] 5 = some out) ∧
    ((-1 : Int) ≤ 0 ∧ splitSources [] (-1) = none) :=
  ⟨⟨by decide,
    (C2_splitSources_spec.1 [⟨1, "b", 1⟩, ⟨2, "b", 1⟩, ⟨5, "r", 2⟩] 5
      (by decide)).elim fun out h => ⟨out, h.1⟩⟩,
   ⟨by decide, C2_splitSources_spec.2.1 [] (-1) (by decide)⟩⟩

/-! ### `addSerialNumbersToNames` (generateReductionSpec.py, 936–959)

A calibBlock is modelled as its `"name"` field paired with its remaining
content (the claims touch nothing but the names). -/

/-- Python's string comparison: code-point lexicographic.  (Lean's builtin
`String` order is the same relation, but its iterator-based decision
procedure does not reduce inside the kernel, so the model spells the
comparison out over the character list.) -/
def pyCharListLe : List Char → List Char → Bool
  | [], _ => true
  | _ :: _, [] => false
  | a :: as, b :: bs =>
    if a.toNat < b.toNat then true
    else if b.toNat < a.toNat then false
    else pyCharListLe as bs

/-- Python's `s <= t` on strings. -/
def pyStrLe (s t : String) : Bool :=
  pyCharListLe s.data t.data

theorem pyCharListLe_total :
    ∀ l1 l2, pyCharListLe l1 l2 = true ∨ pyCharListLe l2 l1 = true := by
  intro l1
  induction l1 with
  | nil => intro l2; left; cases l2 <;> rfl
  | cons a as ih =>
    intro l2
    cases l2 with
    | nil => right; rfl
    | cons b bs =>
      rw [pyCharListLe, pyCharListLe]
      rcases Nat.lt_trichotomy a.toNat b.toNat with h | h | h
      · left; rw [if_pos h]
      · rw [if_neg (by omega), if_neg (by omega), if_neg (by omega),
          if_neg (by omega)]
        exact ih bs
      · right; rw [if_pos h]

theorem pyCharListLe_trans :
    ∀ l1 l2 l3, pyCharListLe l1 l2 = true → pyCharListLe l2 l3 = true →
      pyCharListLe l1 l3 = true := by
  intro l1
  induction l1 with
  | nil => intro l2 l3 _ _; cases l3 <;> rfl
  | cons a as ih =>
    intro l2 l3 h12 h23
    cases l2 with
    | nil => rw [pyCharListLe] at h12; cases h12
    | cons b bs =>
      cases l3 with
      | nil => rw [pyCharListLe] at h23; cases h23
      | cons c cs =>
        rw [pyCharListLe] at h12 h23 ⊢
        rcases Nat.lt_trichotomy a.toNat b.toNat with hab | hab | hab
        · rcases Nat.lt_trichotomy b.toNat c.toNat with hbc | hbc | hbc
          · rw [if_pos (by omega)]
          · rw [if_pos (by omega)]
          · rw [if_neg (by omega), if_pos hbc] at h23; cases h23
        · rcases Nat.lt_trichotomy b.toNat c.toNat with hbc | hbc | hbc
          · rw [if_pos (by omega)]
          · rw [if_neg (by omega), if_neg (by omega)]
            rw [if_neg (by omega), if_neg (by omega)] at h12
            rw [if_neg (by omega), if_neg (by omega)] at h23
            exact ih bs cs h12 h23
          · rw [if_neg (by omega), if_pos hbc] at h23; cases h23
        · rw [if_neg (by omega), if_pos hab] at h12; cases h12

theorem pyCharListLe_antisymm :
    ∀ l1 l2, pyCharListLe l1 l2 = true → pyCharListLe l2 l1 = true →
      l1 = l2 := by
  intro l1
  induction l1 with
  | nil =>
    intro l2 _ h21
    cases l2 with
    | nil => rfl
    | cons b bs => rw [pyCharListLe] at h21; cases h21
  | cons a as ih =>
    intro l2 h12 h21
    cases l2 with
    | nil => rw [pyCharListLe] at h12; cases h12
    | cons b bs =>
      rw [pyCharListLe] at h12 h21
      rcases Nat.lt_trichotomy a.toNat b.toNat with hab | hab | hab
      · rw [if_neg (by omega), if_pos hab] at h21; cases h21
      · rw [if_neg (by omega), if_neg (by omega)] at h12 h21
        have hchar : a = b := Char.ext (UInt32.toNat.inj hab)
        rw [hchar, ih bs h12 h21]
      · rw [if_neg (by omega), if_pos hab] at h12; cases h12

theorem pyStrLe_total (s t : String) : pyStrLe s t = true ∨ pyStrLe t s = true :=
  pyCharListLe_total s.data t.data

theorem pyStrLe_trans {s t u : String} (h1 : pyStrLe s t = true)
    (h2 : pyStrLe t u = true) : pyStrLe s u = true :=
  pyCharListLe_trans s.data t.data u.data h1 h2

theorem pyStrLe_antisymm {s t : String} (h1 : pyStrLe s t = true)
    (h2 : pyStrLe t s = true) : s = t :=
  String.ext (pyCharListLe_antisymm s.data t.data h1 h2)

/-- Little-endian decimal digits of `n`, with enough fuel; mirrors the
digit sequence of Python's `str(i)` (`i ≥ 1` throughout). -/
def decDigitsAux : Nat → Nat → List Nat
  | 0, _ => []
  | fuel + 1, n => if n = 0 then [] else n % 10 :: decDigitsAux fuel (n / 10)

/-- Decimal rendering of a natural number, as Python's `str(i)` inside
`f"_{i}"` (for `i ≥ 1`). -/
def decimalRepr (n : Nat) : String :=
  ((decDigitsAux n n).reverse.map Nat.digitChar).asString

/-- Model of `addSerialNumbersToNames` (generateReductionSpec.py, 936–959):
sort the blocks by name (Python's stable `sorted`), group runs of equal
names, and append `"_1"`, `"_2"`, … within each run. -/
def addSerialNumbersToNames {α : Type} (calibBlocks : List (String × α)) :
    List (String × α) :=
  (groupRuns Prod.fst
      (List.insertionSort (fun a b => pyStrLe a.1 b.1 = true) calibBlocks)).flatMap
    fun c => c.2.mapIdx fun i elem => (elem.1 ++ "_" ++ decimalRepr (i + 1), elem.2)

theorem decDigitsAux_eq_digits :
    ∀ fuel n, n ≤ fuel → decDigitsAux fuel n = Nat.digits 10 n := by
  intro fuel
  induction fuel with
  | zero =>
    intro n hn
    interval_cases n
    rw [Nat.digits_zero]
    rfl
  | succ fuel ih =>
    intro n hn
    rw [decDigitsAux]
    rcases Nat.eq_zero_or_pos n with rfl | hpos
    · rw [if_pos rfl, Nat.digits_zero]
    · rw [if_neg (by omega)]
      rw [ih (n / 10)
        (by have := Nat.div_lt_self hpos (by norm_num : (1 : ℕ) < 10); omega)]
      rw [Nat.digits_def' (by norm_num : (1 : ℕ) < 10) hpos]

theorem digitChar_inj_lt :
    ∀ a : Fin 10, ∀ b : Fin 10, Nat.digitChar a = Nat.digitChar b → a = b := by
  decide

theorem digitChar_ne_underscore : ∀ a : Fin 10, Nat.digitChar a ≠ '_' := by
  decide

theorem map_digitChar_inj :
    ∀ (l1 l2 : List Nat), (∀ x ∈ l1, x < 10) → (∀ x ∈ l2, x < 10) →
      l1.map Nat.digitChar = l2.map Nat.digitChar → l1 = l2 := by
  intro l1
  induction l1 with
  | nil =>
    intro l2 _ _ h
    cases l2 with
    | nil => rfl
    | cons b t2 => simp at h
  | cons a t ih =>
    intro l2 h1 h2 h
    cases l2 with
    | nil => simp at h
    | cons b t2 =>
      simp only [List.map_cons, List.cons.injEq] at h
      have ha : a < 10 := h1 a (List.mem_cons_self _ _)
      have hb : b < 10 := h2 b (List.mem_cons_self _ _)
      have hab : a = b := by
        have := digitChar_inj_lt ⟨a, ha⟩ ⟨b, hb⟩ h.1
        exact congrArg Fin.val this
      rw [hab, ih t2 (fun x hx => h1 x (List.mem_cons_of_mem _ hx))
        (fun x hx => h2 x (List.mem_cons_of_mem _ hx)) h.2]

theorem decimalRepr_inj {m n : Nat} (h : decimalRepr m = decimalRepr n) :
    m = n := by
  unfold decimalRepr at h
  rw [decDigitsAux_eq_digits m m le_rfl, decDigitsAux_eq_digits n n le_rfl] at h
  have hdata : ((Nat.digits 10 m).reverse.map Nat.digitChar)
      = ((Nat.digits 10 n).reverse.map Nat.digitChar) := by
    have := congrArg String.data h
    simpa [List.asString] using this
  have hdig : (Nat.digits 10 m).reverse = (Nat.digits 10 n).reverse :=
    map_digitChar_inj _ _
      (fun x hx => Nat.digits_lt_base (by norm_num) (List.mem_reverse.1 hx))
      (fun x hx => Nat.digits_lt_base (by norm_num) (List.mem_reverse.1 hx))
      hdata
  have hdig2 := congrArg List.reverse hdig
  simp only [List.reverse_reverse] at hdig2
  have hofd := congrArg (Nat.ofDigits 10) hdig2
  rwa [Nat.ofDigits_digits, Nat.ofDigits_digits] at hofd

theorem decimalRepr_no_underscore (n : Nat) :
    '_' ∉ (decimalRepr n).data := by
  unfold decimalRepr
  rw [decDigitsAux_eq_digits n n le_rfl]
  intro hmem
  have : ('_' : Char) ∈ (Nat.digits 10 n).reverse.map Nat.digitChar := by
    simpa [List.asString] using hmem
  rcases List.mem_map.1 this with ⟨d, hd, hchar⟩
  have hdlt : d < 10 := Nat.digits_lt_base (by norm_num) (List.mem_reverse.1 hd)
  exact digitChar_ne_underscore ⟨d, hdlt⟩ hchar

/-- Splitting two lists at a separator absent from both left parts. -/
theorem sep_split :
    ∀ (xs ys u v : List Char), '_' ∉ xs → '_' ∉ ys →
      xs ++ '_' :: u = ys ++ '_' :: v → xs = ys ∧ u = v := by
  intro xs
  induction xs with
  | nil =>
    intro ys u v _ hys h
    cases ys with
    | nil => simpa using h
    | cons c t =>
      simp only [List.nil_append, List.cons_append, List.cons.injEq] at h
      exact absurd (h.1 ▸ List.mem_cons_self _ _) hys
  | cons c t ih =>
    intro ys u v hxs hys h
    cases ys with
    | nil =>
      simp only [List.nil_append, List.cons_append, List.cons.injEq] at h
      exact absurd (h.1.symm ▸ List.mem_cons_self _ _) hxs
    | cons c' t' =>
      simp only [List.cons_append, List.cons.injEq] at h
      have := ih t' u v (fun hm => hxs (List.mem_cons_of_mem _ hm))
        (fun hm => hys (List.mem_cons_of_mem _ hm)) h.2
      exact ⟨by rw [h.1, this.1], this.2⟩

/-- Two serial-suffixed names coincide only if base name and serial agree. -/
theorem serial_name_inj (a b : String) (i j : Nat)
    (h : a ++ "_" ++ decimalRepr i = b ++ "_" ++ decimalRepr j) :
    a = b ∧ i = j := by
  have hdata := congrArg String.data h
  rw [String.data_append, String.data_append, String.data_append,
    String.data_append] at hdata
  have hform : a.data ++ '_' :: (decimalRepr i).data
      = b.data ++ '_' :: (decimalRepr j).data := by
    simpa using hdata
  have hrev := congrArg List.reverse hform
  rw [List.reverse_append, List.reverse_append, List.reverse_cons,
    List.reverse_cons] at hrev
  simp only [List.append_assoc, List.singleton_append] at hrev
  have := sep_split _ _ _ _
    (fun hm => decimalRepr_no_underscore i (List.mem_reverse.1 hm))
    (fun hm => decimalRepr_no_underscore j (List.mem_reverse.1 hm)) hrev
  constructor
  · have ha := congrArg List.reverse this.2
    simp only [List.reverse_reverse] at ha
    exact String.ext ha
  · have hd := congrArg List.reverse this.1
    simp only [List.reverse_reverse] at hd
    exact decimalRepr_inj (String.ext hd)

theorem groupRuns_keys_sublist {α β : Type} [DecidableEq β] (key : α → β) :
    ∀ l : List α, ((groupRuns key l).map Prod.fst).Sublist (l.map key) := by
  intro l
  induction l with
  | nil => simp [groupRuns]
  | cons x xs ih =>
    rw [groupRuns]
    rcases h : groupRuns key xs with _ | ⟨⟨k, g'⟩, rest⟩ <;> rw [h] at ih
    · show ([(key x, [x])].map Prod.fst).Sublist ((x :: xs).map key)
      simp
    · by_cases hk : key x = k
      · show ((if key x = k then (k, x :: g') :: rest
          else (key x, [x]) :: (k, g') :: rest).map Prod.fst).Sublist
          ((x :: xs).map key)
        rw [if_pos hk]
        simp only [List.map_cons]
        rw [← hk]
        simp only [List.map_cons] at ih
        rw [← hk] at ih
        exact (List.sublist_of_cons_sublist ih).cons₂ _
      · show ((if key x = k then (k, x :: g') :: rest
          else (key x, [x]) :: (k, g') :: rest).map Prod.fst).Sublist
          ((x :: xs).map key)
        rw [if_neg hk]
        simp only [List.map_cons]
        exact (List.map_cons Prod.fst (k, g') rest ▸ ih).cons₂ _

theorem chain_lt_of_le_ne :
    ∀ l : List String, l.Chain' (fun s t => pyStrLe s t = true) →
      l.Chain' (· ≠ ·) →
      l.Chain' (fun s t => pyStrLe s t = true ∧ s ≠ t) := by
  intro l
  induction l with
  | nil => intro _ _; exact List.chain'_nil
  | cons a t ih =>
    intro hle hne
    cases t with
    | nil => exact List.chain'_singleton _
    | cons b t2 =>
      refine List.chain'_cons.2 ⟨?_, ?_⟩
      · exact ⟨(List.chain'_cons.1 hle).1, (List.chain'_cons.1 hne).1⟩
      · exact ih (List.chain'_cons.1 hle).2 (List.chain'_cons.1 hne).2

/-- The run keys of `groupRuns` over a name-sorted block list are pairwise
distinct. -/
theorem groupRuns_keys_nodup {α : Type} (bs : List (String × α)) :
    ((groupRuns Prod.fst
      (List.insertionSort (fun a b => pyStrLe a.1 b.1 = true) bs)).map Prod.fst).Nodup := by
  letI : IsTotal (String × α) (fun a b => pyStrLe a.1 b.1 = true) :=
    ⟨fun a b => pyStrLe_total a.1 b.1⟩
  letI : IsTrans (String × α) (fun a b => pyStrLe a.1 b.1 = true) :=
    ⟨fun _ _ _ hab hbc => pyStrLe_trans hab hbc⟩
  have hsorted : List.Sorted (fun a b : String × α => pyStrLe a.1 b.1 = true)
      (List.insertionSort (fun a b => pyStrLe a.1 b.1 = true) bs) :=
    List.sorted_insertionSort _ _
  have hnames : ((List.insertionSort (fun a b => pyStrLe a.1 b.1 = true) bs).map
      Prod.fst).Pairwise (fun s t => pyStrLe s t = true) :=
    List.pairwise_map.2 hsorted
  have hle : ((groupRuns Prod.fst
      (List.insertionSort (fun a b => pyStrLe a.1 b.1 = true) bs)).map
      Prod.fst).Pairwise (fun s t => pyStrLe s t = true) :=
    hnames.sublist (groupRuns_keys_sublist _ _)
  have hne : ((groupRuns Prod.fst
      (List.insertionSort (fun a b => pyStrLe a.1 b.1 = true) bs)).map Prod.fst).Chain'
      (· ≠ ·) :=
    (List.chain'_map Prod.fst).2 (groupRuns_flags_alternate _ _)
  have hlt := chain_lt_of_le_ne _ hle.chain' hne
  letI : IsTrans String (fun s t => pyStrLe s t = true ∧ s ≠ t) := by
    refine ⟨fun a b c hab hbc => ⟨pyStrLe_trans hab.1 hbc.1, ?_⟩⟩
    intro hac
    subst hac
    exact hbc.2 (pyStrLe_antisymm hbc.1 hab.1)
  have hplt : ((groupRuns Prod.fst
      (List.insertionSort (fun a b => pyStrLe a.1 b.1 = true) bs)).map
      Prod.fst).Pairwise (fun s t => pyStrLe s t = true ∧ s ≠ t) :=
    List.chain'_iff_pairwise.1 hlt
  exact hplt.imp fun h => h.2

theorem mapIdx_names {α : Type} (g : List (String × α)) (k : String)
    (huni : ∀ e ∈ g, e.1 = k) :
    ((g.mapIdx fun i elem => (elem.1 ++ "_" ++ decimalRepr (i + 1), elem.2)).map
      Prod.fst) = (List.range g.length).map fun i => k ++ "_" ++ decimalRepr (i + 1) := by
  apply List.ext_getElem
  · simp
  · intro i h1 h2
    simp only [List.getElem_map, List.getElem_mapIdx, List.getElem_range]
    rw [huni _ (List.getElem_mem _)]

theorem nodup_flatMap_of {α β : Type} (L : List α) (f : α → List β)
    (hnodup : ∀ a ∈ L, (f a).Nodup)
    (hdisj : L.Pairwise fun a b => ∀ x ∈ f a, x ∉ f b) :
    (L.flatMap f).Nodup := by
  induction L with
  | nil => simp
  | cons a t ih =>
    rw [List.flatMap_cons, List.nodup_append]
    refine ⟨hnodup a (List.mem_cons_self _ _),
      ih (fun x hx => hnodup x (List.mem_cons_of_mem _ hx))
        (List.pairwise_cons.1 hdisj).2, ?_⟩
    intro x hxa hxt
    rcases List.mem_flatMap.1 hxt with ⟨b, hbt, hxb⟩
    exact (List.pairwise_cons.1 hdisj).1 b hbt x hxa hxb

/-- C7: `addSerialNumbersToNames` appends `"_1", "_2", …` within each group
of blocks sharing a name (in the stable sorted order), the resulting names
are globally unique (even when distinct input names are prefixes of one
another), three blocks named `"x"` become `"x_1", "x_2", "x_3"`, and a
single uniquely-named block `"y"` becomes `"y_1"`. -/
theorem C7_addSerialNumbersToNames_spec :
    (∀ (α : Type) (bs : List (String × α)),
      ((addSerialNumbersToNames bs).map Prod.fst).Nodup) ∧
    (∀ (α : Type) (bs : List (String × α)) (b : String × α),
      b ∈ addSerialNumbersToNames bs →
      ∃ name rest i, (name, rest) ∈ bs ∧ 1 ≤ i ∧
        i ≤ (bs.map Prod.fst).count name ∧
        b = (name ++ "_" ++ decimalRepr i, rest)) ∧
    addSerialNumbersToNames [("x", 0), ("x", 1), ("x", 2)]
      = [("x_1", 0), ("x_2", 1), ("x_3", 2)] ∧
    addSerialNumbersToNames [("y", 0)] = [("y_1", 0)] := by
  refine ⟨?_, ?_, by decide, by decide⟩
  · intro α bs
    unfold addSerialNumbersToNames
    rw [List.map_flatMap]
    apply nodup_flatMap_of
    · intro c hc
      rw [mapIdx_names c.2 c.1
        (fun e he => groupRuns_key Prod.fst _ _ _ (by exact hc) e he)]
      refine List.Nodup.map ?_ (List.nodup_range _)
      intro i j hij
      have := (serial_name_inj c.1 c.1 (i + 1) (j + 1) hij).2
      omega
    · have hkeys := groupRuns_keys_nodup bs
      have hpair : (groupRuns Prod.fst
          (List.insertionSort (fun a b => pyStrLe a.1 b.1 = true) bs)).Pairwise
          (fun c d => c.1 ≠ d.1) := by
        rw [List.Nodup, List.pairwise_map] at hkeys
        exact hkeys
      refine hpair.imp_of_mem ?_
      intro c d hc hd hne x hxc hxd
      rw [mapIdx_names c.2 c.1
        (fun e he => groupRuns_key Prod.fst _ _ _ (by exact hc) e he)] at hxc
      rw [mapIdx_names d.2 d.1
        (fun e he => groupRuns_key Prod.fst _ _ _ (by exact hd) e he)] at hxd
      rcases List.mem_map.1 hxc with ⟨i, _, hi⟩
      rcases List.mem_map.1 hxd with ⟨j, _, hj⟩
      exact hne (serial_name_inj c.1 d.1 (i + 1) (j + 1) (hi.trans hj.symm)).1
  · intro α bs b hb
    unfold addSerialNumbersToNames at hb
    rcases List.mem_flatMap.1 hb with ⟨c, hc, hmem⟩
    rw [List.mem_mapIdx] at hmem
    rcases hmem with ⟨i, hi, heq⟩
    have hemem : c.2[i] ∈ c.2 := List.getElem_mem _
    have hsortmem : c.2[i] ∈ List.insertionSort (fun a b => pyStrLe a.1 b.1 = true) bs := by
      rw [← groupRuns_flatMap Prod.fst (List.insertionSort (fun a b => pyStrLe a.1 b.1 = true) bs)]
      exact List.mem_flatMap.2 ⟨c, hc, hemem⟩
    have hbsmem : c.2[i] ∈ bs :=
      (List.perm_insertionSort (fun a b => pyStrLe a.1 b.1 = true) bs).mem_iff.1 hsortmem
    refine ⟨c.2[i].1, c.2[i].2, i + 1, by simpa using hbsmem, by omega, ?_, ?_⟩
    · -- the serial stays within the multiplicity of the name
      have hname : c.2[i].1 = c.1 :=
        groupRuns_key Prod.fst _ _ _ (by exact hc) _ hemem
      rcases List.append_of_mem hc with ⟨CL1, CL2, hsplit⟩
      have hjoin := groupRuns_flatMap Prod.fst
        (List.insertionSort (fun a b => pyStrLe a.1 b.1 = true) bs)
      rw [hsplit, List.flatMap_append, List.flatMap_cons] at hjoin
      have hcount : ((List.insertionSort (fun a b => pyStrLe a.1 b.1 = true) bs).map
          Prod.fst).count c.2[i].1 ≥ c.2.length := by
        rw [← hjoin]
        simp only [List.map_append, List.count_append]
        have hmid : (c.2.map Prod.fst).count c.2[i].1 = c.2.length := by
          rw [show c.2.length = (c.2.map Prod.fst).length from
            (List.length_map _ _).symm]
          rw [List.count_eq_length]
          intro y hy
          rcases List.mem_map.1 hy with ⟨e, he, rfl⟩
          rw [hname, groupRuns_key Prod.fst _ _ _ (by exact hc) e he]
        omega
      have hpermcount : ((List.insertionSort (fun a b => pyStrLe a.1 b.1 = true) bs).map
          Prod.fst).count c.2[i].1 = (bs.map Prod.fst).count c.2[i].1 :=
        ((List.perm_insertionSort (fun a b => pyStrLe a.1 b.1 = true) bs).map Prod.fst).count_eq _
      omega
    · rw [← heq]

/-- Witness for `C7_addSerialNumbersToNames_spec`: the membership hypothesis
of its second conjunct is satisfiable at a concrete input. -/
theorem C7_addSerialNumbersToNames_spec_witness :
    (("y_1", 0) ∈ addSerialNumbersToNames [("y", 0)]) ∧
    ∃ name rest i, (name, rest) ∈ [("y", (0 : Nat))] ∧ 1 ≤ i ∧
      i ≤ ([("y", (0 : Nat))].map Prod.fst).count name ∧
      (("y_1", 0) : String × Nat) = (name ++ "_" ++ decimalRepr i, rest) :=
  ⟨by decide,
    C7_addSerialNumbersToNames_spec.2.1 Nat [("y", 0)] ("y_1", 0) (by decide)⟩

/-! ### calibBlock merging (generateReductionSpec.py, 772–933) -/

/-- YAML-derived calibBlock trees: strings, sequences, mappings (association
lists standing for Python dicts) and other scalars (numbers, booleans, null),
which the merge code only ever compares for equality, so an integer tag
suffices. -/
inductive Yaml : Type where
  | str (s : String)
  | list (l : List Yaml)
  | map (m : List (String × Yaml))
  | scalar (n : Int)

/-- Result trees of `_mergeCalibBlocks_merge`: like `Yaml` but with an extra
leaf for a `ValueError` object that was returned (not raised). -/
inductive MYaml : Type where
  | str (s : String)
  | list (l : List MYaml)
  | map (m : List (String × MYaml))
  | scalar (n : Int)
  | exc (s : String)

def Yaml.isList : Yaml → Bool | .list _ => true | _ => false
def Yaml.isMap : Yaml → Bool | .map _ => true | _ => false
def Yaml.isStr : Yaml → Bool | .str _ => true | _ => false
def Yaml.getList : Yaml → List Yaml | .list l => l | _ => []
def Yaml.getMap : Yaml → List (String × Yaml) | .map m => m | _ => []
def Yaml.getStr : Yaml → String | .str s => s | _ => ""
def Yaml.getScalar : Yaml → Int | .scalar n => n | _ => 0

/-- Python `s.startswith(pat)`. -/
def pyStartsWith (s pat : String) : Bool := pat.data.isPrefixOf s.data

/-- Python `s[len("arm="):]`. -/
def armSuffix (s : String) : String := (s.data.drop 4).asString

/-- Python `set(m1.keys()) == set(m2.keys())`. -/
def sameKeySet (m1 m2 : List (String × Yaml)) : Bool :=
  (m1.map Prod.fst).all (fun k => (m2.map Prod.fst).contains k) &&
  (m2.map Prod.fst).all (fun k => (m1.map Prod.fst).contains k)

/-- Python dict access `m[k]` (the default is never reached on the paths the
code takes, where the key-set checks have passed). -/
def pyLookup (m : List (String × Yaml)) (k : String) : Yaml :=
  (m.lookup k).getD (Yaml.scalar 0)

theorem lookup_some_mem {m : List (String × Yaml)} {k : String} {v : Yaml}
    (h : m.lookup k = some v) : (k, v) ∈ m := by
  induction m with
  | nil => simp [List.lookup] at h
  | cons e rest ih =>
    rw [List.lookup] at h
    by_cases hk : k == e.1
    · rw [hk] at h
      simp at hk
      cases h
      rw [hk]
      exact List.mem_cons_self _ _
    · rw [Bool.of_not_eq_true hk] at h
      right
      exact ih h

theorem contains_lookup_isSome {m : List (String × Yaml)} {k : String}
    (h : ((m.map Prod.fst).contains k) = true) : ∃ v, m.lookup k = some v := by
  induction m with
  | nil => simp at h
  | cons e rest ih =>
    rw [List.map_cons, List.contains_cons] at h
    by_cases hk : k == e.1
    · exact ⟨e.2, by rw [List.lookup, hk]⟩
    · rw [Bool.of_not_eq_true hk, Bool.false_or] at h
      obtain ⟨v, hv⟩ := ih h
      exact ⟨v, by rw [List.lookup, Bool.of_not_eq_true hk, hv]⟩

theorem sizeOf_pyLookup_lt {m : List (String × Yaml)} {k : String}
    (h : ((m.map Prod.fst).contains k) = true) :
    sizeOf (pyLookup m k) < sizeOf (Yaml.map m) := by
  obtain ⟨v, hv⟩ := contains_lookup_isSome h
  have hmem := lookup_some_mem hv
  have h1 := List.sizeOf_lt_of_mem hmem
  rw [pyLookup, hv]
  simp only [Option.getD_some, Yaml.map.sizeOf_spec]
  have h2 : sizeOf v < sizeOf (k, v) := by simp
  omega

/-- Model of `_mergeCalibBlocks_isMergeable` (generateReductionSpec.py,
804–850). -/
def isMergeable : Yaml → Yaml → Bool
  | .list l1, .list l2 =>
    (l1.length == l2.length) &&
      (l1.zip l2).attach.all fun p => isMergeable p.1.1 p.1.2
  | .list _, _ => false
  | .map m1, .map m2 =>
    sameKeySet m1 m2 &&
      m1.attach.all fun e => (e.1.1 == "name") || isMergeable e.1.2 (pyLookup m2 e.1.1)
  | .map _, _ => false
  | .str s1, .str s2 =>
    (pyStartsWith s1 "arm=" && pyStartsWith s2 "arm=") || s1 == s2
  | .str _, _ => false
  | .scalar n1, .scalar n2 => n1 == n2
  | .scalar _, _ => false
termination_by o1 _ => sizeOf o1
decreasing_by
  · obtain ⟨⟨a, b⟩, hp⟩ := p
    have h1 := (List.of_mem_zip hp).1
    have h2 := List.sizeOf_lt_of_mem h1
    simp only [Yaml.list.sizeOf_spec]
    simp
    omega
  · obtain ⟨⟨k, v⟩, he⟩ := e
    have h1 := List.sizeOf_lt_of_mem he
    simp only [Yaml.map.sizeOf_spec]
    simp at h1 ⊢
    omega

theorem sum_len_tail_le {α : Type} (ls : List (List α)) :
    ((ls.map List.tail).map List.length).sum ≤ (ls.map List.length).sum := by
  induction ls with
  | nil => simp
  | cons x rest ih =>
    simp only [List.map_cons, List.sum_cons]
    have hx : x.tail.length ≤ x.length := by
      cases x <;> simp
    omega

theorem sum_len_tail_lt {α : Type} (ls : List (List α)) (h0 : ls ≠ [])
    (h1 : ∀ l ∈ ls, l ≠ []) :
    ((ls.map List.tail).map List.length).sum < (ls.map List.length).sum := by
  cases ls with
  | nil => exact absurd rfl h0
  | cons x rest =>
    simp only [List.map_cons, List.sum_cons]
    have hx : x.tail.length < x.length := by
      cases x with
      | nil => exact absurd rfl (h1 [] (List.mem_cons_self _ _))
      | cons a t => simp
    have hr := sum_len_tail_le rest
    omega

/-- Model of Python `zip(*ls)` (transpose, truncating at the shortest row). -/
def zipAll {α : Type} (ls : List (List α)) : List (List α) :=
  if ls.isEmpty || ls.any List.isEmpty then []
  else (ls.filterMap List.head?) :: zipAll (ls.map List.tail)
termination_by (ls.map List.length).sum
decreasing_by
  rename_i h
  have hcond : (ls.isEmpty || ls.any List.isEmpty) = false := by
    revert h
    cases ls.isEmpty || ls.any List.isEmpty <;> simp
  rw [Bool.or_eq_false_iff] at hcond
  refine sum_len_tail_lt ls ?_ ?_
  · intro hnil
    rw [hnil] at hcond
    simp at hcond
  · intro l hl hlnil
    rw [List.any_eq_false] at hcond
    exact hcond.2 l hl (by rw [hlnil]; rfl)

theorem filterMap_headOpt_forall₂ {α : Type} (ls : List (List α))
    (h : ∀ l ∈ ls, l ≠ []) :
    List.Forall₂ (fun a l => a ∈ l) (ls.filterMap List.head?) ls := by
  induction ls with
  | nil => exact List.Forall₂.nil
  | cons x rest ih =>
    have hx : x ≠ [] := h x (List.mem_cons_self _ _)
    cases x with
    | nil => exact absurd rfl hx
    | cons a t =>
      rw [List.filterMap_cons]
      simp only [List.head?_cons]
      exact List.Forall₂.cons (List.mem_cons_self _ _)
        (ih fun l hl => h l (List.mem_cons_of_mem _ hl))

theorem zipAll_mem_forall₂ {α : Type} :
    ∀ (ls : List (List α)), ∀ col ∈ zipAll ls,
      List.Forall₂ (fun a l => a ∈ l) col ls := by
  intro ls
  induction ls using zipAll.induct with
  | case1 ls h =>
    intro col hcol
    rw [zipAll, if_pos h] at hcol
    simp at hcol
  | case2 ls h ih =>
    intro col hcol
    rw [zipAll, if_neg h] at hcol
    have hcond : (ls.isEmpty || ls.any List.isEmpty) = false := by
      revert h
      cases ls.isEmpty || ls.any List.isEmpty <;> simp
    rw [Bool.or_eq_false_iff, List.any_eq_false] at hcond
    have hne : ∀ l ∈ ls, l ≠ [] := by
      intro l hl hlnil
      exact hcond.2 l hl (by rw [hlnil]; rfl)
    rw [List.mem_cons] at hcol
    rcases hcol with hcol | hcol
    · rw [hcol]
      exact filterMap_headOpt_forall₂ ls hne
    · have h2 := ih col hcol
      have h3 := List.forall₂_map_right_iff.mp h2
      exact h3.imp fun a l ha => List.mem_of_mem_tail ha

theorem forall₂_and_right {α β : Type} {R : α → β → Prop} {P : β → Prop} :
    ∀ {l1 : List α} {l2 : List β}, List.Forall₂ R l1 l2 → (∀ b ∈ l2, P b) →
      List.Forall₂ (fun a b => R a b ∧ P b) l1 l2 := by
  intro l1 l2 h hp
  induction h with
  | nil => exact List.Forall₂.nil
  | cons hR _ ih =>
    exact List.Forall₂.cons ⟨hR, hp _ (List.mem_cons_self _ _)⟩
      (ih fun b hb => hp b (List.mem_cons_of_mem _ hb))

theorem sum_le_sum_of_forall₂ {α β : Type} (f : α → Nat) (g : β → Nat) :
    ∀ {l1 : List α} {l2 : List β}, List.Forall₂ (fun a b => f a < g b) l1 l2 →
      (l1.map f).sum ≤ (l2.map g).sum := by
  intro l1 l2 h
  induction h with
  | nil => simp
  | cons hR _ ih =>
    simp only [List.map_cons, List.sum_cons]
    omega

theorem sum_lt_sum_of_forall₂ {α β : Type} (f : α → Nat) (g : β → Nat)
    {l1 : List α} {l2 : List β} (h : List.Forall₂ (fun a b => f a < g b) l1 l2)
    (hne : l1 ≠ []) : (l1.map f).sum < (l2.map g).sum := by
  cases h with
  | nil => exact absurd rfl hne
  | cons hR htail =>
    simp only [List.map_cons, List.sum_cons]
    have := sum_le_sum_of_forall₂ f g htail
    omega

theorem sum_map_le {α β : Type} (f : α → β) (F : β → Nat) (G : α → Nat) :
    ∀ (l : List α), (∀ o ∈ l, F (f o) ≤ G o) →
      ((l.map f).map F).sum ≤ (l.map G).sum := by
  intro l
  induction l with
  | nil => intro _; simp
  | cons x rest ih =>
    intro h
    simp only [List.map_cons, List.sum_cons]
    have hx := h x (List.mem_cons_self _ _)
    have hr := ih fun o ho => h o (List.mem_cons_of_mem _ ho)
    omega

theorem sum_map_lt {α β : Type} (f : α → β) (F : β → Nat) (G : α → Nat)
    (l : List α) (h : ∀ o ∈ l, F (f o) < G o) (hne : l ≠ []) :
    ((l.map f).map F).sum < (l.map G).sum := by
  cases l with
  | nil => exact absurd rfl hne
  | cons x rest =>
    simp only [List.map_cons, List.sum_cons]
    have hx := h x (List.mem_cons_self _ _)
    have hr := sum_map_le f F G rest fun o ho =>
      Nat.le_of_lt (h o (List.mem_cons_of_mem _ ho))
    omega

/-- Monadic map over `Except`, written out structurally (the merge code is a
list/dict comprehension that propagates the first raised exception). -/
def eMapM {α β : Type} (f : α → Except String β) : List α → Except String (List β)
  | [] => .ok []
  | x :: xs =>
    match f x with
    | .error e => .error e
    | .ok y =>
      match eMapM f xs with
      | .error e => .error e
      | .ok ys => .ok (y :: ys)

theorem eMapM_map {α β γ : Type} (g : β → Except String γ) (h : α → β)
    (l : List α) : eMapM g (l.map h) = eMapM (fun a => g (h a)) l := by
  induction l with
  | nil => rfl
  | cons x xs ih => rw [List.map_cons, eMapM, eMapM, ih]

theorem eMapM_attach {α γ : Type} (l : List α) (f : α → Except String γ) :
    eMapM (fun x : {a // a ∈ l} => f x.1) l.attach = eMapM f l := by
  conv_rhs => rw [← List.attach_map_subtype_val l]
  rw [eMapM_map]

theorem keyContains_of_mem {l : List String} {k : String} (h : k ∈ l) :
    l.contains k = true := by
  induction l with
  | nil => simp at h
  | cons a rest ih =>
    rw [List.mem_cons] at h
    rw [List.contains_cons]
    rcases h with h | h
    · rw [h]
      simp
    · rw [ih h]
      simp

def all_arms : List Char := ['b', 'r', 'n', 'm']

/-- Model of Python `re.match(r"\\A(?P<prefix>.*)(?P<arm>b|r|n|m)\\Z", name)`:
with the greedy `.*`, a match exists iff the last character is one of the four
arm letters and the rest of the name has no newline (`.` does not match a
newline), and then the groups are (all but the last character, the last
character).  `.groupdict()` on a failed match raises `AttributeError`. -/
def nameSplit (name : String) : Except String (String × String) :=
  match name.data.getLast? with
  | none => .error "AttributeError: NoneType has no attribute groupdict"
  | some c =>
    if all_arms.contains c && !(name.data.dropLast.contains (Char.ofNat 10)) then
      .ok (name.data.dropLast.asString, String.mk [c])
    else .error "AttributeError: NoneType has no attribute groupdict"

/-- Model of `_mergeCalibBlocks_mergeNames` (generateReductionSpec.py,
906–933). -/
def pyMergeNames (names : List String) : Except String String :=
  if names.isEmpty then .error "No names to merge."
  else
    match eMapM nameSplit names with
    | .error e => .error e
    | .ok parts =>
      if parts.all fun p => (parts.headD ("", "")).1 == p.1 then
        .ok ((parts.headD ("", "")).1 ++
          String.join (List.insertionSort (fun a b => pyStrLe a b = true)
            (parts.map Prod.snd)))
      else .error "names are not mergeable."

/-- A mapping value fed to `_mergeCalibBlocks_mergeNames` must be a string:
`re.match` raises `TypeError` otherwise. -/
def asStrName : Yaml → Except String String
  | .str s => .ok s
  | _ => .error "TypeError: expected string or bytes-like object"

/-- Model of `_mergeCalibBlocks_merge` (generateReductionSpec.py, 853–903).
The two `return ValueError(...)` statements of the source (sequence-length
mismatch and key-set mismatch) return the exception object as a value, which
this model renders as `.ok (.exc ...)`; `raise` is `.error`. -/
def pyMerge (objects : List Yaml) : Except String MYaml :=
  if h0 : objects.isEmpty then .error "No objects to merge."
  else if objects.any Yaml.isList then
    if hL : objects.all Yaml.isList then
      if objects.all fun o =>
          (objects.headD (Yaml.list [])).getList.length == o.getList.length then
        (eMapM (fun c => pyMerge c.1)
          (zipAll (objects.map Yaml.getList)).attach).map MYaml.list
      else .ok (.exc "calibBlocks are not mergeable.")
    else .error "calibBlocks are not mergeable."
  else if objects.any Yaml.isMap then
    if hM : objects.all Yaml.isMap then
      if hK : objects.all fun o =>
          sameKeySet (objects.headD (Yaml.map [])).getMap o.getMap then
        (eMapM (fun e =>
            if e.1.1 == "name" then
              match eMapM asStrName (objects.map fun o => pyLookup o.getMap e.1.1) with
              | .error msg => .error msg
              | .ok names =>
                match pyMergeNames names with
                | .error msg => .error msg
                | .ok s => .ok (e.1.1, MYaml.str s)
            else
              match pyMerge (objects.map fun o => pyLookup o.getMap e.1.1) with
              | .error msg => .error msg
              | .ok v => .ok (e.1.1, v))
          (objects.headD (Yaml.map [])).getMap.attach).map MYaml.map
      else .ok (.exc "calibBlocks are not mergeable.")
    else .error "calibBlocks are not mergeable."
  else if objects.any Yaml.isStr then
    if objects.all Yaml.isStr then
      if objects.all fun o => pyStartsWith o.getStr "arm=" then
        .ok (.str ("arm=" ++ String.intercalate "^"
          (List.insertionSort (fun a b => pyStrLe a b = true)
            (objects.map fun o => armSuffix o.getStr))))
      else if objects.all fun o => (objects.headD (Yaml.str "")).getStr == o.getStr then
        .ok (.str (objects.headD (Yaml.str "")).getStr)
      else .error "calibBlocks are not mergeable."
    else .error "calibBlocks are not mergeable."
  else
    if objects.all fun o => (objects.headD (Yaml.scalar 0)).getScalar == o.getScalar then
      .ok (.scalar (objects.headD (Yaml.scalar 0)).getScalar)
    else .error "calibBlocks are not mergeable."
termination_by (objects.map sizeOf).sum
decreasing_by
  · have hobj : objects ≠ [] := by
      intro hnil
      rw [hnil] at h0
      exact h0 rfl
    obtain ⟨col, hcol⟩ := c
    have hf := zipAll_mem_forall₂ _ col hcol
    have hf2 := List.forall₂_map_right_iff.mp hf
    have hall : ∀ o ∈ objects, Yaml.isList o = true := fun o ho =>
      List.all_eq_true.mp hL o ho
    have hf3 := forall₂_and_right hf2 hall
    have hf4 : List.Forall₂ (fun (a : Yaml) (o : Yaml) => sizeOf a < sizeOf o)
        col objects := by
      refine hf3.imp ?_
      intro a o hao
      obtain ⟨hmem, hlist⟩ := hao
      cases o with
      | list l =>
        have hlt := List.sizeOf_lt_of_mem (show a ∈ l from hmem)
        simp only [Yaml.list.sizeOf_spec]
        omega
      | str s => simp [Yaml.isList] at hlist
      | map m => simp [Yaml.isList] at hlist
      | scalar n => simp [Yaml.isList] at hlist
    have hne : col ≠ [] := by
      intro hnil
      rw [hnil, List.forall₂_nil_left_iff] at hf4
      exact hobj hf4
    exact sum_lt_sum_of_forall₂ sizeOf sizeOf hf4 hne
  · have hobj : objects ≠ [] := by
      intro hnil
      rw [hnil] at h0
      exact h0 rfl
    obtain ⟨⟨k, v⟩, he⟩ := e
    refine sum_map_lt _ sizeOf sizeOf objects ?_ hobj
    intro o ho
    have hMo : Yaml.isMap o = true := List.all_eq_true.mp hM o ho
    have hKo := List.all_eq_true.mp hK o ho
    rw [sameKeySet, Bool.and_eq_true] at hKo
    have hk0 : k ∈ (objects.headD (Yaml.map [])).getMap.map Prod.fst :=
      List.mem_map_of_mem Prod.fst he
    have hk1 := List.all_eq_true.mp hKo.1 k hk0
    cases o with
    | map m => exact sizeOf_pyLookup_lt hk1
    | str s => simp [Yaml.isMap] at hMo
    | list l => simp [Yaml.isMap] at hMo
    | scalar n => simp [Yaml.isMap] at hMo

/-- Model of `mergeCalibBlocks` (generateReductionSpec.py, 772–801): greedily
group the head block with every later block mergeable with it, merge the
group, and continue with the rest. -/
def mergeCalibBlocks : List Yaml → Except String (List MYaml)
  | [] => .ok []
  | b0 :: rest =>
    match pyMerge (b0 :: rest.filter fun b => isMergeable b0 b) with
    | .error e => .error e
    | .ok m =>
      match mergeCalibBlocks (rest.filter fun b => !isMergeable b0 b) with
      | .error e => .error e
      | .ok ms => .ok (m :: ms)
termination_by blocks => blocks.length
decreasing_by
  have := List.length_filter_le (fun b => !isMergeable b0 b) rest
  simp only [List.length_cons]
  omega

theorem mergeCalibBlocks_nil : mergeCalibBlocks [] = .ok [] := by
  rw [mergeCalibBlocks]

theorem mergeCalibBlocks_cons (b0 : Yaml) (rest : List Yaml) :
    mergeCalibBlocks (b0 :: rest) =
      match pyMerge (b0 :: rest.filter fun b => isMergeable b0 b) with
      | .error e => .error e
      | .ok m =>
        match mergeCalibBlocks (rest.filter fun b => !isMergeable b0 b) with
        | .error e => .error e
        | .ok ms => .ok (m :: ms) := by
  rw [mergeCalibBlocks]

/-- Unfolding of `pyMerge` with the `attach` bookkeeping removed (for
rewriting; a well-founded definition does not reduce definitionally). -/
theorem pyMerge_eq (objects : List Yaml) :
    pyMerge objects =
      if objects.isEmpty then .error "No objects to merge."
      else if objects.any Yaml.isList then
        if objects.all Yaml.isList then
          if objects.all fun o =>
              (objects.headD (Yaml.list [])).getList.length == o.getList.length then
            (eMapM pyMerge (zipAll (objects.map Yaml.getList))).map MYaml.list
          else .ok (.exc "calibBlocks are not mergeable.")
        else .error "calibBlocks are not mergeable."
      else if objects.any Yaml.isMap then
        if objects.all Yaml.isMap then
          if objects.all fun o =>
              sameKeySet (objects.headD (Yaml.map [])).getMap o.getMap then
            (eMapM (fun e =>
                if e.1 == "name" then
                  match eMapM asStrName (objects.map fun o => pyLookup o.getMap e.1) with
                  | .error msg => .error msg
                  | .ok names =>
                    match pyMergeNames names with
                    | .error msg => .error msg
                    | .ok s => .ok (e.1, MYaml.str s)
                else
                  match pyMerge (objects.map fun o => pyLookup o.getMap e.1) with
                  | .error msg => .error msg
                  | .ok v => .ok (e.1, v))
              (objects.headD (Yaml.map [])).getMap).map MYaml.map
          else .ok (.exc "calibBlocks are not mergeable.")
        else .error "calibBlocks are not mergeable."
      else if objects.any Yaml.isStr then
        if objects.all Yaml.isStr then
          if objects.all fun o => pyStartsWith o.getStr "arm=" then
            .ok (.str ("arm=" ++ String.intercalate "^"
              (List.insertionSort (fun a b => pyStrLe a b = true)
                (objects.map fun o => armSuffix o.getStr))))
          else if objects.all fun o => (objects.headD (Yaml.str "")).getStr == o.getStr then
            .ok (.str (objects.headD (Yaml.str "")).getStr)
          else .error "calibBlocks are not mergeable."
        else .error "calibBlocks are not mergeable."
      else
        if objects.all fun o => (objects.headD (Yaml.scalar 0)).getScalar == o.getScalar then
          .ok (.scalar (objects.headD (Yaml.scalar 0)).getScalar)
        else .error "calibBlocks are not mergeable." := by
  rw [pyMerge]
  split
  · rfl
  · split
    · split
      · split
        · exact congrArg (Except.map MYaml.list)
            (eMapM_attach (zipAll (objects.map Yaml.getList)) pyMerge)
        · rfl
      · rfl
    · split
      · split
        · split
          · exact congrArg (Except.map MYaml.map)
              (eMapM_attach (objects.headD (Yaml.map [])).getMap (fun e =>
                if e.1 == "name" then
                  match eMapM asStrName (objects.map fun o => pyLookup o.getMap e.1) with
                  | .error msg => .error msg
                  | .ok names =>
                    match pyMergeNames names with
                    | .error msg => .error msg
                    | .ok s => .ok (e.1, MYaml.str s)
                else
                  match pyMerge (objects.map fun o => pyLookup o.getMap e.1) with
                  | .error msg => .error msg
                  | .ok v => .ok (e.1, v)))
          · rfl
        · rfl
      · rfl

theorem zipAll_eq {α : Type} (ls : List (List α)) :
    zipAll ls =
      if ls.isEmpty || ls.any List.isEmpty then []
      else (ls.filterMap List.head?) :: zipAll (ls.map List.tail) := by
  rw [zipAll]

theorem zipAll_pair {α : Type} (a b : α) : zipAll [[a], [b]] = [[a, b]] := by
  rw [zipAll_eq,
    show ([[a], [b]].isEmpty || [[a], [b]].any List.isEmpty) = false from rfl,
    if_neg Bool.false_ne_true]
  have ht : [[a], [b]].map List.tail = ([[], []] : List (List α)) := rfl
  rw [ht, zipAll_eq,
    show (([[], []] : List (List α)).isEmpty
      || ([[], []] : List (List α)).any List.isEmpty) = true from rfl,
    if_pos rfl]
  rfl

theorem attach_all_eq {α : Type} (l : List α) (f : α → Bool) :
    (l.attach.all fun x => f x.1) = l.all f := by
  by_cases h : l.all f = true
  · rw [h, List.all_eq_true]
    intro x _
    exact List.all_eq_true.mp h x.1 x.2
  · rw [Bool.not_eq_true] at h
    rw [h, List.all_eq_false]
    rw [List.all_eq_false] at h
    obtain ⟨x, hx, hfx⟩ := h
    exact ⟨⟨x, hx⟩, List.mem_attach _ _, hfx⟩

/-- Unfolding of `isMergeable` with the `attach` bookkeeping removed. -/
theorem isMergeable_eq (o1 o2 : Yaml) :
    isMergeable o1 o2 =
      match o1, o2 with
      | .list l1, .list l2 =>
        (l1.length == l2.length) && (l1.zip l2).all fun p => isMergeable p.1 p.2
      | .list _, _ => false
      | .map m1, .map m2 =>
        sameKeySet m1 m2 &&
          m1.all fun e => (e.1 == "name") || isMergeable e.2 (pyLookup m2 e.1)
      | .map _, _ => false
      | .str s1, .str s2 =>
        (pyStartsWith s1 "arm=" && pyStartsWith s2 "arm=") || s1 == s2
      | .str _, _ => false
      | .scalar n1, .scalar n2 => n1 == n2
      | .scalar _, _ => false := by
  cases o1 <;> cases o2 <;> rw [isMergeable] <;> try (intro _ h; exact Yaml.noConfusion h)
  · rename_i l1 l2
    rw [show ((l1.zip l2).attach.all fun p => isMergeable p.1.1 p.1.2)
          = (l1.zip l2).all fun p => isMergeable p.1 p.2 from
        attach_all_eq (l1.zip l2) (fun p => isMergeable p.1 p.2)]
  · rename_i m1 m2
    rw [show (m1.attach.all fun e => (e.1.1 == "name")
            || isMergeable e.1.2 (pyLookup m2 e.1.1))
          = m1.all fun e => (e.1 == "name") || isMergeable e.2 (pyLookup m2 e.1) from
        attach_all_eq m1 (fun e => (e.1 == "name") || isMergeable e.2 (pyLookup m2 e.1))]

theorem pyMerge_armbb :
    pyMerge [Yaml.str "arm=b", Yaml.str "arm=b"] = .ok (.str "arm=b^b") := by
  rw [pyMerge_eq]
  rfl

theorem pyMerge_armbr :
    pyMerge [Yaml.str "arm=b", Yaml.str "arm=r"] = .ok (.str "arm=b^r") := by
  rw [pyMerge_eq]
  rfl

theorem pyMerge_idlists :
    pyMerge [Yaml.list [Yaml.str "arm=b"], Yaml.list [Yaml.str "arm=r"]]
      = .ok (.list [.str "arm=b^r"]) := by
  rw [pyMerge_eq]
  show (eMapM pyMerge
      (zipAll [[Yaml.str "arm=b"], [Yaml.str "arm=r"]])).map MYaml.list = _
  rw [zipAll_pair]
  rw [eMapM, pyMerge_armbr, eMapM]
  rfl

theorem isMergeable_strbr :
    isMergeable (Yaml.str "arm=b") (Yaml.str "arm=r") = true := by
  rw [isMergeable_eq]
  rfl

theorem isMergeable_idlists :
    isMergeable (Yaml.list [Yaml.str "arm=b"]) (Yaml.list [Yaml.str "arm=r"])
      = true := by
  rw [isMergeable_eq]
  show (isMergeable (Yaml.str "arm=b") (Yaml.str "arm=r") && true) = true
  rw [isMergeable_strbr]
  rfl

def block_b : Yaml :=
  Yaml.map [("name", Yaml.str "biasb"), ("id", Yaml.list [Yaml.str "arm=b"])]

def block_r : Yaml :=
  Yaml.map [("name", Yaml.str "biasr"), ("id", Yaml.list [Yaml.str "arm=r"])]

theorem isMergeable_blocks : isMergeable block_b block_r = true := by
  rw [block_b, block_r, isMergeable_eq]
  show (isMergeable (Yaml.list [Yaml.str "arm=b"])
      (Yaml.list [Yaml.str "arm=r"]) && true) = true
  rw [isMergeable_idlists]
  rfl

theorem pyMerge_blocks :
    pyMerge [block_b, block_r]
      = .ok (.map [("name", .str "biasbr"), ("id", .list [.str "arm=b^r"])]) := by
  rw [block_b, block_r, pyMerge_eq]
  simp only [eMapM]
  rw [show List.map (fun o => pyLookup o.getMap "id")
        [Yaml.map [("name", Yaml.str "biasb"), ("id", Yaml.list [Yaml.str "arm=b"])],
         Yaml.map [("name", Yaml.str "biasr"), ("id", Yaml.list [Yaml.str "arm=r"])]]
      = [Yaml.list [Yaml.str "arm=b"], Yaml.list [Yaml.str "arm=r"]] from rfl]
  rw [pyMerge_idlists]
  rfl

theorem mergeCalibBlocks_blocks :
    mergeCalibBlocks [block_b, block_r]
      = .ok [.map [("name", .str "biasbr"), ("id", .list [.str "arm=b^r"])]] := by
  rw [mergeCalibBlocks_cons]
  rw [show List.filter (fun b => isMergeable block_b b) [block_r] = [block_r] from by
    rw [List.filter_cons, isMergeable_blocks]
    rfl]
  rw [show List.filter (fun b => !isMergeable block_b b) [block_r] = [] from by
    rw [List.filter_cons, isMergeable_blocks]
    rfl]
  rw [pyMerge_blocks, mergeCalibBlocks_nil]

theorem pyMerge_arm_leaves (objects : List Yaml) (h0 : objects ≠ [])
    (harm : ∀ o ∈ objects, ∃ s, o = Yaml.str s ∧ pyStartsWith s "arm=" = true) :
    ∃ sfx : List String,
      pyMerge objects = .ok (.str ("arm=" ++ String.intercalate "^" sfx)) ∧
      sfx.Perm (objects.map fun o => armSuffix o.getStr) ∧
      List.Pairwise (fun a b => pyStrLe a b = true) sfx := by
  have hempty : objects.isEmpty = false := by
    cases objects with
    | nil => exact absurd rfl h0
    | cons x rest => rfl
  have hanyL : objects.any Yaml.isList = false := by
    rw [List.any_eq_false]
    intro o ho
    obtain ⟨s, hs, _⟩ := harm o ho
    rw [hs]
    simp [Yaml.isList]
  have hanyM : objects.any Yaml.isMap = false := by
    rw [List.any_eq_false]
    intro o ho
    obtain ⟨s, hs, _⟩ := harm o ho
    rw [hs]
    simp [Yaml.isMap]
  have hallS : objects.all Yaml.isStr = true := by
    rw [List.all_eq_true]
    intro o ho
    obtain ⟨s, hs, _⟩ := harm o ho
    rw [hs]
    rfl
  have hanyS : objects.any Yaml.isStr = true := by
    cases objects with
    | nil => exact absurd rfl h0
    | cons x rest =>
      rw [List.any_eq_true]
      obtain ⟨s, hs, _⟩ := harm x (List.mem_cons_self _ _)
      exact ⟨x, List.mem_cons_self _ _, by rw [hs]; rfl⟩
  have hallArm : (objects.all fun o => pyStartsWith o.getStr "arm=") = true := by
    rw [List.all_eq_true]
    intro o ho
    obtain ⟨s, hs, harms⟩ := harm o ho
    rw [hs]
    exact harms
  rw [pyMerge_eq, hempty, if_neg Bool.false_ne_true, hanyL,
    if_neg Bool.false_ne_true, hanyM, if_neg Bool.false_ne_true, hanyS,
    if_pos rfl, hallS, if_pos rfl, hallArm, if_pos rfl]
  refine ⟨List.insertionSort (fun a b => pyStrLe a b = true)
      (objects.map fun o => armSuffix o.getStr), rfl,
    List.perm_insertionSort _ _, ?_⟩
  letI : IsTotal String (fun a b => pyStrLe a b = true) :=
    ⟨fun a b => pyCharListLe_total a.data b.data⟩
  letI : IsTrans String (fun a b => pyStrLe a b = true) :=
    ⟨fun a b c => pyCharListLe_trans a.data b.data c.data⟩
  exact List.sorted_insertionSort _ _

/-- C3: merging mergeable calibBlocks replaces every group of corresponding
`arm=`-leaves by one leaf `"arm=" ++` the suffixes sorted and re-joined with
`"^"` — the suffixes are kept with multiplicity (a permutation of the input
suffixes), NOT de-duplicated as the spec says; and two blocks identical except
`id: ["arm=b"]` versus `id: ["arm=r"]` merge into one block with
`id: ["arm=b^r"]` (amended statement). -/
theorem C3_arm_leaf_merge :
    (∀ (objects : List Yaml), objects ≠ [] →
      (∀ o ∈ objects, ∃ s, o = Yaml.str s ∧ pyStartsWith s "arm=" = true) →
      ∃ sfx : List String,
        pyMerge objects = .ok (.str ("arm=" ++ String.intercalate "^" sfx)) ∧
        sfx.Perm (objects.map fun o => armSuffix o.getStr) ∧
        List.Pairwise (fun a b => pyStrLe a b = true) sfx) ∧
    mergeCalibBlocks [block_b, block_r]
      = .ok [.map [("name", .str "biasbr"), ("id", .list [.str "arm=b^r"])]] :=
  ⟨pyMerge_arm_leaves, mergeCalibBlocks_blocks⟩

/-- Witness for C3: the amended statement applied to the concrete pair
`["arm=b", "arm=r"]`. -/
theorem C3_arm_leaf_merge_witness :
    ∃ sfx : List String,
      pyMerge [Yaml.str "arm=b", Yaml.str "arm=r"]
        = .ok (.str ("arm=" ++ String.intercalate "^" sfx)) ∧
      sfx.Perm ([Yaml.str "arm=b", Yaml.str "arm=r"].map fun o => armSuffix o.getStr) ∧
      List.Pairwise (fun a b => pyStrLe a b = true) sfx :=
  C3_arm_leaf_merge.1 [Yaml.str "arm=b", Yaml.str "arm=r"] (List.cons_ne_nil _ _)
    (by
      intro o ho
      rw [List.mem_cons, List.mem_cons] at ho
      rcases ho with h | h | h
      · exact ⟨"arm=b", h, rfl⟩
      · exact ⟨"arm=r", h, rfl⟩
      · simp at h)

/-- C3 counterexample: the spec says suffixes are de-duplicated, so merging
`"arm=b"` with `"arm=b"` should give `"arm=b"`; the code keeps both
occurrences and yields `"arm=b^b"` (`sorted()` in the source does not remove
duplicates). -/
theorem C3_no_dedup_counterexample :
    pyMerge [Yaml.str "arm=b", Yaml.str "arm=b"] = .ok (.str "arm=b^b") ∧
    MYaml.str "arm=b^b" ≠ MYaml.str "arm=b" :=
  ⟨pyMerge_armbb, by
    intro h
    injection h with h2
    exact absurd h2 (by decide)⟩

/-- C6: on structurally incompatible inputs `_mergeCalibBlocks_merge` does
NOT always raise — for a sequence-length mismatch and for a mapping key-set
mismatch the source says `return ValueError(...)` instead of
`raise ValueError(...)`, so the un-raised exception object is returned as the
merged value (rendered `.exc` here). -/
theorem C6_merge_returns_exception_object :
    pyMerge [Yaml.list [Yaml.scalar 1], Yaml.list []]
        = .ok (.exc "calibBlocks are not mergeable.") ∧
    pyMerge [Yaml.map [("a", Yaml.scalar 1)], Yaml.map []]
        = .ok (.exc "calibBlocks are not mergeable.") := by
  constructor
  · rw [pyMerge_eq]
    rfl
  · rw [pyMerge_eq]
    rfl

/-! ### generateCommands (generateCommands.py, 1042–1896) -/

/-- One emitted command group of `CalibBlock.execute`, tagged with its
origin: the output of `sources[t].execute`, `sources[t].ingest`, or
`sources[t].clean`. -/
inductive CmdLine where
  | construct (typeName : String)
  | ingest (typeName : String)
  | cleanup (typeName : String)
deriving DecidableEq

/-- The class attribute `CalibBlock.calibTypes` (generateCommands.py, 1042):
the canonical calib-type order. -/
def calibTypesCanonical : List String :=
  ["bias", "dark", "flat", "bootstrap", "fiberProfiles", "detectorMap"]

/-- A calib block: its name and the keys of its `sources` dict (the calib
types it defines, in YAML order). -/
structure CalibBlock where
  name : String
  sources : List String

/-- Model of `CalibBlock.execute` (generateCommands.py, 1092–1170):
`calibTypes = set(calibTypes)`; if that set is nonempty, keep the canonical
`self.calibTypes` order filtered to the requested set, else take all of
`self.calibTypes`; for each kept type that is present in `self.sources`,
emit the construction commands, the ingestion commands, and — when `clean`
is set — the clean-up commands. -/
def calibBlockExecute (block : CalibBlock) (calibTypes : List String)
    (clean : Bool) : List CmdLine :=
  let types := if calibTypes.isEmpty then calibTypesCanonical
    else calibTypesCanonical.filter fun t => calibTypes.contains t
  types.flatMap fun t =>
    if block.sources.contains t then
      [CmdLine.construct t, CmdLine.ingest t]
        ++ (if clean then [CmdLine.cleanup t] else [])
    else []

theorem flatMap_if_filter {α β : Type} (l : List α) (p q : α → Bool)
    (f : α → List β) :
    (l.filter p).flatMap (fun t => if q t then f t else [])
      = (l.filter fun t => p t && q t).flatMap f := by
  induction l with
  | nil => rfl
  | cons x xs ih =>
    rcases Bool.eq_false_or_eq_true (p x) with hp | hp <;>
      rcases Bool.eq_false_or_eq_true (q x) with hq | hq <;>
        simp [List.filter_cons, hp, hq, ih]

/-- C8: for every CalibBlock and requested set of calib types,
`CalibBlock.execute` emits commands for the requested types present in the
block in the fixed canonical order bias, dark, flat, bootstrap,
fiberProfiles, detectorMap, silently skipping absent types (first conjunct,
for a nonempty request — an empty request means "all types"); the output
depends only on the request's membership (second conjunct); and with
`calibTypes=["detectorMap","bias"]` the bias commands come before the
detectorMap commands (third conjunct). -/
theorem C8_calib_canonical_order :
    (∀ (block : CalibBlock) (req : List String) (clean : Bool), req ≠ [] →
      calibBlockExecute block req clean
        = (calibTypesCanonical.filter fun t =>
            req.contains t && block.sources.contains t).flatMap fun t =>
              [CmdLine.construct t, CmdLine.ingest t]
                ++ (if clean then [CmdLine.cleanup t] else [])) ∧
    (∀ (block : CalibBlock) (req req' : List String) (clean : Bool),
      req.isEmpty = req'.isEmpty → (∀ t, req.contains t = req'.contains t) →
      calibBlockExecute block req clean = calibBlockExecute block req' clean) ∧
    calibBlockExecute ⟨"calibs", calibTypesCanonical⟩ ["detectorMap", "bias"] false
      = [CmdLine.construct "bias", CmdLine.ingest "bias",
         CmdLine.construct "detectorMap", CmdLine.ingest "detectorMap"] := by
  refine ⟨?_, ?_, ?_⟩
  · intro block req clean hreq
    have hne : req.isEmpty = false := by
      cases req with
      | nil => exact absurd rfl hreq
      | cons x xs => rfl
    rw [calibBlockExecute]
    simp only [hne, Bool.false_eq_true, if_false]
    exact flatMap_if_filter calibTypesCanonical _ _ _
  · intro block req req' clean hempty hcont
    rw [calibBlockExecute, calibBlockExecute, hempty,
      List.filter_congr fun t _ => hcont t]
  · decide

/-- Witness for C8: the canonical-order statement applied to the request
`["detectorMap", "bias"]` against a block defining bias and detectorMap. -/
theorem C8_calib_canonical_order_witness :
    (["detectorMap", "bias"] : List String) ≠ [] ∧
    calibBlockExecute ⟨"calibs", ["bias", "detectorMap"]⟩ ["detectorMap", "bias"] true
      = (calibTypesCanonical.filter fun t =>
          (["detectorMap", "bias"] : List String).contains t
            && (["bias", "detectorMap"] : List String).contains t).flatMap fun t =>
            [CmdLine.construct t, CmdLine.ingest t]
              ++ (if true then [CmdLine.cleanup t] else []) :=
  ⟨by decide,
    C8_calib_canonical_order.1 ⟨"calibs", ["bias", "detectorMap"]⟩ ["detectorMap", "bias"] true
      (by decide)⟩

/-- What `processYaml` returns: whether an `init` block is present, and the
names of the calib and science blocks (dict keys, in YAML order). -/
structure SpecModel where
  initSource : Option Unit
  calibBlocks : List String
  scienceBlocks : List String

/-- One portion of the emitted shell script: a literal printed line, or the
output of `initSource.execute`, `calibBlocks[name].execute`, or
`scienceBlocks[name].execute`. -/
inductive ScriptLine where
  | text (s : String)
  | initOutput
  | calibOutput (blockName : String)
  | scienceOutput (blockName : String)
deriving DecidableEq

/-- Observable outcome of one `generateCommands` call: the exception raised
(if any), the content written to the output file (`none` = the file was never
opened), and the file mode set by the final `os.chmod` (`none` = the chmod
was never reached). -/
structure GenResult where
  error : Option String
  written : Option (List ScriptLine)
  finalMode : Option Nat

/-- Model of `unique` (generateCommands.py, 1586–1610): drop duplicates,
keeping first occurrences in order. -/
def pyUniqueAux : List String → List String → List String
  | _, [] => []
  | seen, x :: xs =>
    if seen.contains x then pyUniqueAux seen xs
    else x :: pyUniqueAux (x :: seen) xs

def pyUnique (l : List String) : List String := pyUniqueAux [] l

/-- Model of `generateCommands` (generateCommands.py, 1739–1896).  The file
system is abstracted by `dataDirExists`/`calibExists` (the two
`os.path.exists` probes), `parse` (what `processYaml` returns or raises) and
`origMode` (`os.stat(output).st_mode`).  The checks before the output file is
opened, in source order: the clean+link conflict (1799), the missing dataDir
(1809, unless `force`), the missing calib directory (1824, unless `init` or
`force`), the `processYaml` call (1830), and the unrecognised-blocks check
(1843, unless `force`).  Only then is the output opened and `#!/bin/sh` plus
`set -ux`/`set -uxe` printed; the missing-`init` error (1858) is raised after
those two lines.  On success the final `os.chmod` (1896) adds `S_IXUSR` (64)
and `S_IXGRP` (8). -/
def generateCommands (dataDir calib : String) (clean : Bool) (copyMode : String)
    (force init allowErrors : Bool) (dataDirExists calibExists : Bool)
    (parse : Except String SpecModel) (blocks : Option (List String))
    (origMode : Nat) : GenResult :=
  if clean && copyMode == "link" then
    ⟨some "When `copyMode`=link, `clean` must not be True.", none, none⟩
  else if !dataDirExists && !force then
    ⟨some ("'" ++ dataDir ++ "' doesn't exist"), none, none⟩
  else if !init && !calibExists && !force then
    ⟨some ("'" ++ calib
      ++ "' doesn't exist (To start without this directory, use `init` option)"),
      none, none⟩
  else
    match parse with
    | .error e => ⟨some e, none, none⟩
    | .ok spec =>
      if !((blocks.getD (pyUnique (spec.calibBlocks ++ spec.scienceBlocks))).filter
            fun b => !(pyUnique (spec.calibBlocks ++ spec.scienceBlocks)).contains b).isEmpty
          && !force then
        ⟨some "Unrecognised blocks", none, none⟩
      else
        if init && spec.initSource.isNone then
          ⟨some "No 'init' block to execute",
            some [ScriptLine.text "#!/bin/sh",
              ScriptLine.text ("set -" ++ (if allowErrors then "ux" else "uxe"))],
            none⟩
        else
          ⟨none,
            some ([ScriptLine.text "#!/bin/sh",
                ScriptLine.text ("set -" ++ (if allowErrors then "ux" else "uxe"))]
              ++ (if init then [ScriptLine.initOutput] else [])
              ++ (((blocks.getD (pyUnique (spec.calibBlocks ++ spec.scienceBlocks))).filter
                    fun b => spec.calibBlocks.contains b).map ScriptLine.calibOutput)
              ++ (((blocks.getD (pyUnique (spec.calibBlocks ++ spec.scienceBlocks))).filter
                    fun b => spec.scienceBlocks.contains b).map ScriptLine.scienceOutput)),
            some (origMode ||| 64 ||| 8)⟩

theorem generateCommands_err (dataDir calib : String) (clean : Bool)
    (copyMode : String) (force init allowErrors dataDirExists calibExists : Bool)
    (e : String) (blocks : Option (List String)) (origMode : Nat) :
    generateCommands dataDir calib clean copyMode force init allowErrors
        dataDirExists calibExists (Except.error e) blocks origMode =
      if clean && copyMode == "link" then
        ⟨some "When `copyMode`=link, `clean` must not be True.", none, none⟩
      else if !dataDirExists && !force then
        ⟨some ("'" ++ dataDir ++ "' doesn't exist"), none, none⟩
      else if !init && !calibExists && !force then
        ⟨some ("'" ++ calib
          ++ "' doesn't exist (To start without this directory, use `init` option)"),
          none, none⟩
      else ⟨some e, none, none⟩ := by
  rw [generateCommands.eq_def]

theorem generateCommands_ok (dataDir calib : String) (clean : Bool)
    (copyMode : String) (force init allowErrors dataDirExists calibExists : Bool)
    (spec : SpecModel) (blocks : Option (List String)) (origMode : Nat) :
    generateCommands dataDir calib clean copyMode force init allowErrors
        dataDirExists calibExists (Except.ok spec) blocks origMode =
      if clean && copyMode == "link" then
        ⟨some "When `copyMode`=link, `clean` must not be True.", none, none⟩
      else if !dataDirExists && !force then
        ⟨some ("'" ++ dataDir ++ "' doesn't exist"), none, none⟩
      else if !init && !calibExists && !force then
        ⟨some ("'" ++ calib
          ++ "' doesn't exist (To start without this directory, use `init` option)"),
          none, none⟩
      else if !((blocks.getD (pyUnique (spec.calibBlocks ++ spec.scienceBlocks))).filter
            fun b => !(pyUnique (spec.calibBlocks ++ spec.scienceBlocks)).contains b).isEmpty
          && !force then
        ⟨some "Unrecognised blocks", none, none⟩
      else if init && spec.initSource.isNone then
        ⟨some "No 'init' block to execute",
          some [ScriptLine.text "#!/bin/sh",
            ScriptLine.text ("set -" ++ (if allowErrors then "ux" else "uxe"))],
          none⟩
      else
        ⟨none,
          some ([ScriptLine.text "#!/bin/sh",
              ScriptLine.text ("set -" ++ (if allowErrors then "ux" else "uxe"))]
            ++ (if init then [ScriptLine.initOutput] else [])
            ++ (((blocks.getD (pyUnique (spec.calibBlocks ++ spec.scienceBlocks))).filter
                  fun b => spec.calibBlocks.contains b).map ScriptLine.calibOutput)
            ++ (((blocks.getD (pyUnique (spec.calibBlocks ++ spec.scienceBlocks))).filter
                  fun b => spec.scienceBlocks.contains b).map ScriptLine.scienceOutput)),
          some (origMode ||| 64 ||| 8)⟩ := by
  rw [generateCommands.eq_def]

/-- C4 (amended): when `generateCommands` raises, either nothing at all was
written to the output (every pre-open error: clean+link conflict, missing
dataDir, missing calib, schema error from processYaml, unrecognised blocks),
or — only for `--init` requested with no init section in the spec — exactly
the two header lines `#!/bin/sh` and `set -ux[e]` were already written before
the error. -/
theorem C4_error_partial_output (dataDir calib : String) (clean : Bool) (copyMode : String)
    (force init allowErrors dataDirExists calibExists : Bool)
    (parse : Except String SpecModel) (blocks : Option (List String))
    (origMode : Nat)
    (herr : (generateCommands dataDir calib clean copyMode force init allowErrors
      dataDirExists calibExists parse blocks origMode).error ≠ none) :
    (generateCommands dataDir calib clean copyMode force init allowErrors
        dataDirExists calibExists parse blocks origMode).written = none ∨
      (init = true ∧ (∃ spec, parse = Except.ok spec ∧ spec.initSource = none) ∧
        (generateCommands dataDir calib clean copyMode force init allowErrors
            dataDirExists calibExists parse blocks origMode).written
          = some [ScriptLine.text "#!/bin/sh",
              ScriptLine.text ("set -" ++ (if allowErrors then "ux" else "uxe"))]) := by
  cases parse with
  | error e =>
    rw [generateCommands_err] at herr ⊢
    left
    by_cases h1 : (clean && copyMode == "link") = true
    · rw [if_pos h1]
    · rw [if_neg h1]
      by_cases h2 : (!dataDirExists && !force) = true
      · rw [if_pos h2]
      · rw [if_neg h2]
        by_cases h3 : (!init && !calibExists && !force) = true
        · rw [if_pos h3]
        · rw [if_neg h3]
  | ok spec =>
    rw [generateCommands_ok] at herr ⊢
    by_cases h1 : (clean && copyMode == "link") = true
    · rw [if_pos h1]
      left
      rfl
    · rw [if_neg h1] at herr ⊢
      by_cases h2 : (!dataDirExists && !force) = true
      · rw [if_pos h2]
        left
        rfl
      · rw [if_neg h2] at herr ⊢
        by_cases h3 : (!init && !calibExists && !force) = true
        · rw [if_pos h3]
          left
          rfl
        · rw [if_neg h3] at herr ⊢
          by_cases h4 : (!((blocks.getD (pyUnique (spec.calibBlocks ++ spec.scienceBlocks))).filter
                fun b => !(pyUnique (spec.calibBlocks ++ spec.scienceBlocks)).contains b).isEmpty
              && !force) = true
          · rw [if_pos h4]
            left
            rfl
          · rw [if_neg h4] at herr ⊢
            by_cases h5 : (init && spec.initSource.isNone) = true
            · rw [if_pos h5]
              rw [Bool.and_eq_true] at h5
              right
              exact ⟨h5.1, ⟨spec, rfl, Option.isNone_iff_eq_none.mp h5.2⟩, rfl⟩
            · rw [if_neg h5] at herr
              exact absurd rfl herr

/-- C5 (amended): every successful `generateCommands` run writes a script
whose first line is `#!/bin/sh` and whose second line is `set -uxe` when
errors are not tolerated (the source builds `"ux"` then appends `"e"`), or
`set -ux` with `allowErrors`; afterwards the output file mode gains the
owner (bit 6, `S_IXUSR`) and group (bit 3, `S_IXGRP`) execute bits, keeping
every bit already set. -/
theorem C5_script_header_and_mode (dataDir calib : String) (clean : Bool) (copyMode : String)
    (force init allowErrors dataDirExists calibExists : Bool)
    (parse : Except String SpecModel) (blocks : Option (List String))
    (origMode : Nat)
    (hok : (generateCommands dataDir calib clean copyMode force init allowErrors
      dataDirExists calibExists parse blocks origMode).error = none) :
    ∃ rest : List ScriptLine,
      (generateCommands dataDir calib clean copyMode force init allowErrors
          dataDirExists calibExists parse blocks origMode).written
        = some (ScriptLine.text "#!/bin/sh"
            :: ScriptLine.text (if allowErrors then "set -ux" else "set -uxe")
            :: rest) ∧
      (generateCommands dataDir calib clean copyMode force init allowErrors
          dataDirExists calibExists parse blocks origMode).finalMode
        = some (origMode ||| 64 ||| 8) ∧
      (origMode ||| 64 ||| 8).testBit 6 = true ∧
      (origMode ||| 64 ||| 8).testBit 3 = true ∧
      (∀ i, origMode.testBit i = true → (origMode ||| 64 ||| 8).testBit i = true) := by
  have hset : ("set -" ++ (if allowErrors then "ux" else "uxe"))
      = (if allowErrors then "set -ux" else "set -uxe") := by
    cases allowErrors <;> rfl
  have hbits6 : (origMode ||| 64 ||| 8).testBit 6 = true := by
    simp only [Nat.testBit_or]
    rw [show Nat.testBit 64 6 = true from by decide]
    simp
  have hbits3 : (origMode ||| 64 ||| 8).testBit 3 = true := by
    simp only [Nat.testBit_or]
    rw [show Nat.testBit 8 3 = true from by decide]
    simp
  have hmono : ∀ i, origMode.testBit i = true → (origMode ||| 64 ||| 8).testBit i = true := by
    intro i hi
    simp [Nat.testBit_or, hi]
  cases parse with
  | error e =>
    rw [generateCommands_err] at hok
    exfalso
    by_cases h1 : (clean && copyMode == "link") = true
    · rw [if_pos h1] at hok
      simp at hok
    · rw [if_neg h1] at hok
      by_cases h2 : (!dataDirExists && !force) = true
      · rw [if_pos h2] at hok
        simp at hok
      · rw [if_neg h2] at hok
        by_cases h3 : (!init && !calibExists && !force) = true
        · rw [if_pos h3] at hok
          simp at hok
        · rw [if_neg h3] at hok
          simp at hok
  | ok spec =>
    rw [generateCommands_ok] at hok ⊢
    by_cases h1 : (clean && copyMode == "link") = true
    · rw [if_pos h1] at hok
      simp at hok
    · rw [if_neg h1] at hok ⊢
      by_cases h2 : (!dataDirExists && !force) = true
      · rw [if_pos h2] at hok
        simp at hok
      · rw [if_neg h2] at hok ⊢
        by_cases h3 : (!init && !calibExists && !force) = true
        · rw [if_pos h3] at hok
          simp at hok
        · rw [if_neg h3] at hok ⊢
          by_cases h4 : (!((blocks.getD (pyUnique (spec.calibBlocks ++ spec.scienceBlocks))).filter
                fun b => !(pyUnique (spec.calibBlocks ++ spec.scienceBlocks)).contains b).isEmpty
              && !force) = true
          · rw [if_pos h4] at hok
            simp at hok
          · rw [if_neg h4] at hok ⊢
            by_cases h5 : (init && spec.initSource.isNone) = true
            · rw [if_pos h5] at hok
              simp at hok
            · rw [if_neg h5]
              refine ⟨(if init = true then [ScriptLine.initOutput] else [])
                  ++ (((blocks.getD (pyUnique (spec.calibBlocks ++ spec.scienceBlocks))).filter
                        fun b => spec.calibBlocks.contains b).map ScriptLine.calibOutput)
                  ++ (((blocks.getD (pyUnique (spec.calibBlocks ++ spec.scienceBlocks))).filter
                        fun b => spec.scienceBlocks.contains b).map ScriptLine.scienceOutput),
                ?_, rfl, hbits6, hbits3, hmono⟩
              rw [hset]
              rfl

/-- C5 counterexample: the spec says the second line is exactly `set -eux`,
but on a successful run with errors not tolerated the second line is
`set -uxe` (the source concatenates `"ux" + "e"`), which is a different
string. -/
theorem C5_setopts_counterexample :
    ∃ lines : List ScriptLine,
      (generateCommands "/d" "/d/CALIB" false "copy" false false false true true
          (Except.ok ⟨none, [], []⟩) (some []) 420).error = none ∧
      (generateCommands "/d" "/d/CALIB" false "copy" false false false true true
          (Except.ok ⟨none, [], []⟩) (some []) 420).written = some lines ∧
      lines.getD 1 (ScriptLine.text "") = ScriptLine.text "set -uxe" ∧
      ScriptLine.text "set -uxe" ≠ ScriptLine.text "set -eux" :=
  ⟨[ScriptLine.text "#!/bin/sh", ScriptLine.text "set -uxe"],
    by decide, by decide, by decide, by decide⟩

/-- C4 counterexample: with `--init` requested and no `init` block in the
spec, the RuntimeError of generateCommands.py line 1858 is raised only after
`#!/bin/sh` and the `set -...` line were printed (lines 1850–1854 run inside
the already-opened output file), so the output is left partially written —
not untouched and not empty. -/
theorem C4_partial_write_counterexample :
    (generateCommands "/d" "/d/CALIB" false "copy" false true false true true
        (Except.ok ⟨none, [], []⟩) (some []) 420).error
      = some "No 'init' block to execute" ∧
    (generateCommands "/d" "/d/CALIB" false "copy" false true false true true
        (Except.ok ⟨none, [], []⟩) (some []) 420).written
      = some [ScriptLine.text "#!/bin/sh", ScriptLine.text "set -uxe"] ∧
    some [ScriptLine.text "#!/bin/sh", ScriptLine.text "set -uxe"]
      ≠ (none : Option (List ScriptLine)) ∧
    some [ScriptLine.text "#!/bin/sh", ScriptLine.text "set -uxe"]
      ≠ some ([] : List ScriptLine) := by
  refine ⟨by decide, by decide, by decide, by decide⟩

/-- Witness for C4: the amended statement applied to a run with `init` but no
init section in the parsed spec. -/
theorem C4_error_partial_output_witness :
    (generateCommands "/d" "/d/CALIB" false "copy" false true false true true
        (Except.ok ⟨none, [], []⟩) (some []) 420).written = none ∨
      (true = true ∧
        (∃ spec, (Except.ok ⟨none, [], []⟩ : Except String SpecModel) = Except.ok spec ∧
          spec.initSource = none) ∧
        (generateCommands "/d" "/d/CALIB" false "copy" false true false true true
            (Except.ok ⟨none, [], []⟩) (some []) 420).written
          = some [ScriptLine.text "#!/bin/sh",
              ScriptLine.text ("set -" ++ (if false then "ux" else "uxe"))]) :=
  C4_error_partial_output "/d" "/d/CALIB" false "copy" false true false true true
    (Except.ok ⟨none, [], []⟩) (some []) 420 (by decide)

/-- Witness for C5: the amended statement applied to a concrete successful
run with `allowErrors = false` and mode 0o644. -/
theorem C5_script_header_and_mode_witness :
    ∃ rest : List ScriptLine,
      (generateCommands "/d" "/d/CALIB" false "copy" false false false true true
          (Except.ok ⟨none, [], []⟩) (some []) 420).written
        = some (ScriptLine.text "#!/bin/sh"
            :: ScriptLine.text (if false then "set -ux" else "set -uxe")
            :: rest) ∧
      (generateCommands "/d" "/d/CALIB" false "copy" false false false true true
          (Except.ok ⟨none, [], []⟩) (some []) 420).finalMode
        = some (420 ||| 64 ||| 8) ∧
      (420 ||| 64 ||| 8).testBit 6 = true ∧
      (420 ||| 64 ||| 8).testBit 3 = true ∧
      (∀ i, (420 : Nat).testBit i = true → (420 ||| 64 ||| 8).testBit i = true) :=
  C5_script_header_and_mode "/d" "/d/CALIB" false "copy" false false false true true
    (Except.ok ⟨none, [], []⟩) (some []) 420 (by decide)

/-! ### Round trip of `getSpansFromIntegers` (C1) -/

theorem windows3_map_z {α : Type} : ∀ l : List α,
    (windows3 l).map (fun w => w.2.2) = l.drop 2 := by
  intro l
  match l with
  | [] => rfl
  | [a] => rfl
  | [a, b] => rfl
  | a :: b :: c :: t =>
    rw [windows3_cons₃, List.map_cons, windows3_map_z (b :: c :: t)]
    rfl

theorem windows3_tail {α : Type} (l : List α) :
    (windows3 l).drop 1 = windows3 (l.drop 1) := by
  match l with
  | [] => rfl
  | [a] => rfl
  | [a, b] => rfl
  | a :: b :: c :: t => rw [windows3_cons₃]; rfl

theorem windows3_drop {α : Type} : ∀ (g : Nat) (l : List α),
    (windows3 l).drop g = windows3 (l.drop g) := by
  intro g
  induction g with
  | zero => intro l; rfl
  | succ n ih =>
    intro l
    have h1 : (windows3 l).drop (n + 1) = (((windows3 l).drop 1).drop n) := by
      rw [List.drop_drop]
      rw [Nat.add_comm]
    rw [h1, windows3_tail, ih, List.drop_drop, Nat.add_comm]

theorem windows3_infixOf {α : Type} : ∀ {l : List α} {w : α × α × α},
    w ∈ windows3 l → [w.1, w.2.1, w.2.2] <:+: l := by
  intro l
  match l with
  | [] => intro w h; simp [windows3] at h
  | [a] => intro w h; simp [windows3] at h
  | [a, b] => intro w h; simp [windows3] at h
  | a :: b :: c :: t =>
    intro w h
    rw [windows3_cons₃, List.mem_cons] at h
    rcases h with h | h
    · rw [h]
      exact ⟨[], b :: c :: t |>.drop 2, rfl⟩
    · exact (windows3_infixOf h).trans (List.infix_cons (List.infix_refl _))

theorem expandSpan_singleton (x : Int) : expandSpan (x, x, 1) = [x] := by
  rw [expandSpan]
  rw [show ((x - x) / 1 : Int).toNat + 1 = 1 from by norm_num]
  show List.map (fun k => x + 1 * k) [((0 : Nat) : Int)] = [x]
  norm_num

theorem sortedDedup_eq_self {l : List Int} (h : l.Sorted (· < ·)) :
    sortedDedup l = l := by
  rw [sortedDedup]
  have hnd : l.Nodup := h.imp ne_of_lt
  rw [List.dedup_eq_self.2 hnd]
  exact List.Sorted.insertionSort_eq (h.imp le_of_lt)

theorem getLastD_map {α β : Type} (f : α → β) (d : α) : ∀ (l : List α),
    (l.map f).getLastD (f d) = f (l.getLastD d) := by
  intro l
  match l with
  | [] => rfl
  | [a] => rfl
  | a :: b :: t =>
    rw [List.map_cons, List.getLastD_cons, List.getLastD_cons]
    exact getLastD_map f a (b :: t)

theorem headOpt_take {α : Type} (l : List α) (n : Nat) :
    (l.take (n + 1)).head? = l.head? := by
  cases l <;> rfl

theorem range_map_getLastD (f : Nat → Int) (k : Nat) (d : Int) :
    ((List.range (k + 1)).map f).getLastD d = f k := by
  rw [List.range_succ, List.map_append]
  exact List.getLastD_concat _ _ _

theorem bind_pure_cast : ∀ (l : List Nat),
    (l >>= fun a => pure ((a : Int))) = l.map (fun a : Nat => (a : Int)) := by
  intro l
  induction l with
  | nil => rfl
  | cons x t ih =>
    show List.flatMap (x :: t) _ = _
    rw [List.flatMap_cons]
    rw [show (List.flatMap t fun a => pure ((a : Int)))
          = t.map (fun a : Nat => (a : Int)) from ih]
    rfl

theorem expandSpan_prog (a s : Int) (k : Nat) (hs : 1 ≤ s) :
    expandSpan (a, a + k * s, s)
      = (List.range (k + 1)).map (fun j : Nat => a + s * (j : Int)) := by
  rw [expandSpan]
  have h1 : (a + (k : Int) * s - a) = k * s := by ring
  rw [h1, Int.mul_ediv_cancel _ (by omega : s ≠ 0)]
  simp only [Int.toNat_natCast]
  rw [show (do let a ← List.range (k + 1); pure ((a : Int)))
        = (List.range (k + 1)).map (fun a : Nat => (a : Int)) from bind_pure_cast _]
  rw [List.map_map]
  rfl

theorem evenKey_true_elim {s : Int} {q0 q1 q2 : Option Int}
    (h : evenKey s (q0, q1, q2) = true) :
    ∃ x, q0 = some x ∧ q1 = some (x + s) ∧ q2 = some (x + 2 * s) := by
  match q0, q1, q2 with
  | none, _, _ => simp [evenKey] at h
  | some x, none, _ => simp [evenKey] at h
  | some x, some y, none => simp [evenKey] at h
  | some x, some y, some z =>
    rw [show evenKey s (some x, some y, some z)
          = (decide (y - x = z - y) && decide (z - y = s)) from rfl,
      Bool.and_eq_true, decide_eq_true_iff, decide_eq_true_iff] at h
    exact ⟨x, rfl, by rw [show y = x + s from by omega],
      by rw [show z = x + 2 * s from by omega]⟩

theorem trueRun_progression (s : Int) :
    ∀ (g : Nat) (Q : List (Option Int)), 1 ≤ g → g ≤ (windows3 Q).length →
      (∀ w ∈ (windows3 Q).take g, evenKey s w = true) →
      ∃ a : Int, Q.take (g + 2)
        = (List.range (g + 2)).map fun j : Nat => some (a + s * (j : Int)) := by
  intro g
  induction g with
  | zero => intro Q h0 _ _; exact absurd h0 (by omega)
  | succ n ih =>
    intro Q h1 hg hall
    have hQlen : 3 ≤ Q.length := by
      have := windows3_length Q
      omega
    match Q, hQlen with
    | q0 :: q1 :: q2 :: t, _ =>
      have hw0 : evenKey s (q0, q1, q2) = true := by
        apply hall
        rw [windows3_cons₃, List.take_succ_cons]
        exact List.mem_cons_self _ _
      obtain ⟨x, hx, hy, hz⟩ := evenKey_true_elim hw0
      cases n with
      | zero =>
        refine ⟨x, ?_⟩
        rw [List.take_succ_cons, List.take_succ_cons, List.take_succ_cons,
          List.take_zero, hx, hy, hz]
        rw [show List.range 3 = [0, 1, 2] from rfl]
        simp only [List.map_cons, List.map_nil, List.cons.injEq, and_true,
          Option.some.injEq]
        refine ⟨by push_cast; ring, by push_cast; ring, by push_cast; ring⟩
      | succ m =>
        have hg2 : m + 1 ≤ (windows3 (q1 :: q2 :: t)).length := by
          rw [windows3_cons₃] at hg
          simp only [List.length_cons] at hg
          omega
        have hall2 : ∀ w ∈ (windows3 (q1 :: q2 :: t)).take (m + 1),
            evenKey s w = true := by
          intro w hw
          apply hall
          rw [windows3_cons₃, List.take_succ_cons]
          exact List.mem_cons_of_mem _ hw
        obtain ⟨a, ha⟩ := ih (q1 :: q2 :: t) (by omega) hg2 hall2
        have ha0 : a = x + s := by
          have h := congrArg List.head? ha
          rw [headOpt_take, List.head?_cons, List.range_succ_eq_map,
            List.map_cons, List.head?_cons, hy] at h
          have h2 : x + s = a + s * ((0 : Nat) : Int) :=
            Option.some.inj (Option.some.inj h)
          simp at h2
          omega
        refine ⟨x, ?_⟩
        rw [List.take_succ_cons, ha, hx]
        conv_rhs => rw [show m + 1 + 1 + 2 = (m + 1 + 2) + 1 from rfl,
          List.range_succ_eq_map, List.map_cons, List.map_map]
        congr 1
        · simp
        · refine List.map_congr_left ?_
          intro j _
          show some (a + s * (j : Int)) = some (x + s * ((Nat.succ j : Nat) : Int))
          rw [ha0]
          congr 1
          push_cast
          ring

theorem filterMap_id_map_some {α β : Type} (f : α → β) (l : List α) :
    ((l.map fun x => some (f x)).filterMap id) = l.map f := by
  induction l with
  | nil => rfl
  | cons x t ih => simp [ih]

theorem headD_take {α : Type} (l : List α) (g : Nat) (d : α) (hg : 1 ≤ g) :
    (l.take g).headD d = l.headD d := by
  obtain ⟨g', rfl⟩ : ∃ g', g = g' + 1 := ⟨g - 1, by omega⟩
  cases l with
  | nil => rfl
  | cons x t => rw [List.take_succ_cons]; rfl

theorem trueChunk_expand (s : Int) (hs : 1 ≤ s) (Q0 : List (Option Int)) (g : Nat)
    (hg1 : 1 ≤ g) (hgle : g ≤ (windows3 (Q0 ++ [none, none])).length)
    (htrue : ∀ w ∈ (windows3 (Q0 ++ [none, none])).take g, evenKey s w = true) :
    g + 2 ≤ Q0.length ∧
    expandSpan
      ((((windows3 (Q0 ++ [none, none])).take g).headD (none, none, none)).1.getD 0,
       ((((windows3 (Q0 ++ [none, none])).take g).getLastD
          (none, none, none)).2.2).getD 0,
       s)
      = (Q0.take (g + 2)).filterMap id := by
  obtain ⟨a, ha⟩ := trueRun_progression s g (Q0 ++ [none, none]) hg1 hgle htrue
  have hwin : (windows3 (Q0 ++ [none, none])).length = Q0.length := by
    rw [windows3_length]
    simp
  have hg2 : g + 2 ≤ Q0.length := by
    by_contra hcon
    push_neg at hcon
    have hnone : (none : Option Int) ∈ (Q0 ++ [none, none]).take (g + 2) := by
      rw [List.take_append_eq_append_take,
        List.take_of_length_le (by omega : Q0.length ≤ g + 2)]
      refine List.mem_append_right _ ?_
      obtain ⟨d, hd⟩ := Nat.exists_eq_add_of_le
        (show 1 ≤ g + 2 - Q0.length from by omega)
      rw [hd, Nat.add_comm, List.take_succ_cons]
      exact List.mem_cons_self _ _
    rw [ha] at hnone
    obtain ⟨j, _, hj⟩ := List.mem_map.1 hnone
    cases hj
  refine ⟨hg2, ?_⟩
  have hQ3 : (Q0 ++ [none, none]).take 3
      = [some (a + s * ((0 : Nat) : Int)), some (a + s * ((1 : Nat) : Int)),
         some (a + s * ((2 : Nat) : Int))] := by
    have h := congrArg (List.take 3) ha
    rw [List.take_take, show min 3 (g + 2) = 3 from by omega] at h
    rw [h, ← List.map_take, List.take_range, show min 3 (g + 2) = 3 from by omega]
    rfl
  have hQdecomp : (Q0 ++ [none, none])
      = some (a + s * ((0 : Nat) : Int)) :: some (a + s * ((1 : Nat) : Int))
        :: some (a + s * ((2 : Nat) : Int)) :: (Q0 ++ [none, none]).drop 3 := by
    conv_lhs => rw [← List.take_append_drop 3 (Q0 ++ [none, none]), hQ3]
    rfl
  have hheadW : ((windows3 (Q0 ++ [none, none])).take g).headD (none, none, none)
      = (some (a + s * ((0 : Nat) : Int)), some (a + s * ((1 : Nat) : Int)),
         some (a + s * ((2 : Nat) : Int))) := by
    rw [headD_take _ _ _ hg1]
    conv_lhs => rw [hQdecomp, windows3_cons₃]
    rfl
  have hzmap : (((windows3 (Q0 ++ [none, none])).take g).map fun w => w.2.2)
      = (((Q0 ++ [none, none]).take (g + 2)).drop 2) := by
    rw [List.map_take, windows3_map_z, List.drop_take, Nat.add_sub_cancel]
  have hlastz : ((((windows3 (Q0 ++ [none, none])).take g).getLastD
      (none, none, none)).2.2) = some (a + s * ((g + 1 : Nat) : Int)) := by
    have h1 := getLastD_map (fun w : Option Int × Option Int × Option Int => w.2.2)
      (none, none, none) ((windows3 (Q0 ++ [none, none])).take g)
    rw [hzmap] at h1
    rw [← h1, ha]
    have hne : (((List.range (g + 2)).map
        fun j : Nat => some (a + s * (j : Int))).drop 2) ≠ [] := by
      intro hnil
      have := congrArg List.length hnil
      simp at this
      omega
    rw [List.getLastD_eq_getLast?, getLast?_drop_of_ne_nil hne,
      show g + 2 = (g + 1) + 1 from rfl, List.range_succ, List.map_append,
      show List.map (fun j : Nat => some (a + s * (j : Int))) [g + 1]
        = [some (a + s * ((g + 1 : Nat) : Int))] from rfl,
      List.getLast?_concat]
    rfl
  rw [hheadW, hlastz]
  show expandSpan (a + s * ((0 : Nat) : Int), a + s * ((g + 1 : Nat) : Int), s) = _
  rw [show a + s * ((0 : Nat) : Int) = a from by push_cast; ring,
    show a + s * ((g + 1 : Nat) : Int) = a + ((g + 1 : Nat) : Int) * s from by
      push_cast; ring,
    expandSpan_prog a s (g + 1) hs,
    show Q0.take (g + 2) = (Q0 ++ [none, none]).take (g + 2) from
      (List.take_append_of_le_length hg2).symm,
    ha, filterMap_id_map_some]

/-- The body of the `flatMap` in the grouped branch of `getSpansFromSorted`. -/
def spanBody (s : Int) (p : Bool × List (Option Int × Option Int × Option Int)) :
    List Span :=
  if p.1 then
    [((p.2.headD (none, none, none)).1.getD 0,
      ((p.2.getLastD (none, none, none)).2.2).getD 0, s)]
  else
    getSpansFromSorted
      (sortedDedup ((p.2.take (p.2.length - 2)).filterMap fun w => w.2.2))

theorem zs_slice_eq (Q0 : List (Option Int)) (g k : Nat)
    (hk : k ≤ g) (hg : g ≤ Q0.length) (hk2 : k ≤ Q0.length - 2) :
    (((windows3 (Q0 ++ [none, none])).take g).take k).filterMap (fun w => w.2.2)
      = ((Q0.drop 2).take k).filterMap id := by
  rw [List.take_take, show min k g = k from by omega]
  have h1 : ((windows3 (Q0 ++ [none, none])).take k).filterMap (fun w => w.2.2)
      = (((windows3 (Q0 ++ [none, none])).take k).map fun w => w.2.2).filterMap id := by
    rw [List.filterMap_map]
    rfl
  rw [h1, List.map_take, windows3_map_z, List.drop_append_eq_append_drop,
    List.take_append_of_le_length]
  have := windows3_length (Q0 ++ [none, none])
  simp only [List.length_drop, List.length_append, List.length_cons,
    List.length_nil]
  omega

theorem cover_upper (n : Nat) (s : Int) (hs : 1 ≤ s)
    (hIH : ∀ l' : List Int, l'.length < n → l'.Sorted (· < ·) →
      ∀ x : Int, (x ∈ (getSpansFromSorted l').flatMap expandSpan ↔ x ∈ l')) :
    ∀ (CL : List (Bool × List (Option Int × Option Int × Option Int)))
      (Q0 : List (Option Int)),
      CL.flatMap Prod.snd = windows3 (Q0 ++ [none, none]) →
      (∀ c ∈ CL, ∀ w ∈ c.2, evenKey s w = c.1) →
      (∀ c ∈ CL, c.2 ≠ []) →
      (Q0.filterMap id).Sorted (· < ·) →
      (∀ c ∈ CL, c.1 = false →
        ((c.2.take (c.2.length - 2)).filterMap fun w => w.2.2).length < n) →
      ∀ x : Int, x ∈ (CL.flatMap (spanBody s)).flatMap expandSpan →
        x ∈ Q0.filterMap id := by
  intro CL
  induction CL with
  | nil =>
    intro Q0 _ _ _ _ _ x hx
    simp at hx
  | cons c CL' ih =>
    intro Q0 hjoin huni hne hsort hsize x hx
    rw [List.flatMap_cons] at hjoin
    rw [List.flatMap_cons, List.flatMap_append, List.mem_append] at hx
    have hwin : (windows3 (Q0 ++ [none, none])).length = Q0.length := by
      rw [windows3_length]
      simp
    have hc2 : c.2 = (windows3 (Q0 ++ [none, none])).take c.2.length := by
      rw [← hjoin, List.take_left]
    have hrest : CL'.flatMap Prod.snd
        = (windows3 (Q0 ++ [none, none])).drop c.2.length := by
      rw [← hjoin, List.drop_left]
    have hglen : c.2.length ≤ (windows3 (Q0 ++ [none, none])).length := by
      have := congrArg List.length hjoin
      simp only [List.length_append] at this
      omega
    have hg1 : 1 ≤ c.2.length := by
      have h := hne c (List.mem_cons_self _ _)
      have := List.length_pos.2 h
      omega

    rcases hx with hx | hx
    · by_cases hc : c.1 = true
      · rw [spanBody, if_pos hc] at hx
        have htrue : ∀ w ∈ (windows3 (Q0 ++ [none, none])).take c.2.length,
            evenKey s w = true := by
          intro w hw
          rw [← hc2] at hw
          rw [huni c (List.mem_cons_self _ _) w hw, hc]
        obtain ⟨hg2, hexp⟩ := trueChunk_expand s hs Q0 c.2.length hg1 hglen htrue
        rw [List.flatMap_cons, List.flatMap_nil, List.append_nil] at hx
        rw [hc2, hexp] at hx
        exact ((List.take_sublist _ _).filterMap id).subset hx
      · rw [Bool.not_eq_true] at hc
        rw [spanBody, if_neg (by rw [hc]; exact Bool.false_ne_true)] at hx
        have hgQ : c.2.length ≤ Q0.length := by omega
        have hzs : ((c.2.take (c.2.length - 2)).filterMap fun w => w.2.2)
            = ((Q0.drop 2).take (c.2.length - 2)).filterMap id := by
          have h0 := zs_slice_eq Q0 c.2.length (c.2.length - 2) (by omega)
            (by omega) (by omega)
          rw [← h0]
          congr 1
          nth_rewrite 2 [hc2]
          rfl
        have hzsub : (((Q0.drop 2).take (c.2.length - 2)).filterMap id).Sublist
            (Q0.filterMap id) :=
          ((List.take_sublist _ _).trans (List.drop_sublist _ _)).filterMap id
        have hzsort : (((Q0.drop 2).take (c.2.length - 2)).filterMap id).Sorted
            (· < ·) := hsort.sublist hzsub
        have hzlen := hsize c (List.mem_cons_self _ _) hc
        rw [hzs] at hzlen
        rw [hzs, sortedDedup_eq_self hzsort] at hx
        exact hzsub.subset ((hIH _ hzlen hzsort x).1 hx)
    · have hrest2 : CL'.flatMap Prod.snd
          = windows3 (Q0.drop c.2.length ++ [none, none]) := by
        rw [hrest, windows3_drop,
          List.drop_append_of_le_length (by omega : c.2.length ≤ Q0.length)]
      have hdropsub : ((Q0.drop c.2.length).filterMap id).Sublist
          (Q0.filterMap id) := (List.drop_sublist _ _).filterMap id
      have := ih (Q0.drop c.2.length) hrest2
        (fun c' hc' => huni c' (List.mem_cons_of_mem _ hc'))
        (fun c' hc' => hne c' (List.mem_cons_of_mem _ hc'))
        (hsort.sublist hdropsub)
        (fun c' hc' => hsize c' (List.mem_cons_of_mem _ hc'))
        x hx
      exact hdropsub.subset this

theorem cover_lower (n : Nat) (s : Int) (hs : 1 ≤ s)
    (hIH : ∀ l' : List Int, l'.length < n → l'.Sorted (· < ·) →
      ∀ x : Int, (x ∈ (getSpansFromSorted l').flatMap expandSpan ↔ x ∈ l')) :
    ∀ (CL : List (Bool × List (Option Int × Option Int × Option Int)))
      (Q0 : List (Option Int)),
      CL.flatMap Prod.snd = windows3 (Q0 ++ [none, none]) →
      (∀ c ∈ CL, ∀ w ∈ c.2, evenKey s w = c.1) →
      (∀ c ∈ CL, c.2 ≠ []) →
      List.Chain' (fun a b => a.1 ≠ b.1) CL →
      (Q0.filterMap id).Sorted (· < ·) →
      (∀ c ∈ CL, c.1 = false →
        ((c.2.take (c.2.length - 2)).filterMap fun w => w.2.2).length < n) →
      ∀ x : Int,
        x ∈ (match CL.head? with
          | none => ([] : List Int)
          | some c => if c.1 then Q0.filterMap id else (Q0.drop 2).filterMap id) →
        x ∈ (CL.flatMap (spanBody s)).flatMap expandSpan := by
  intro CL
  induction CL with
  | nil =>
    intro Q0 _ _ _ _ _ _ x hx
    simp at hx
  | cons c CL' ih =>
    intro Q0 hjoin huni hne halt hsort hsize x hx
    rw [List.flatMap_cons] at hjoin
    rw [List.flatMap_cons, List.flatMap_append, List.mem_append]
    have hwin : (windows3 (Q0 ++ [none, none])).length = Q0.length := by
      rw [windows3_length]
      simp
    have hc2 : c.2 = (windows3 (Q0 ++ [none, none])).take c.2.length := by
      rw [← hjoin, List.take_left]
    have hrest : CL'.flatMap Prod.snd
        = (windows3 (Q0 ++ [none, none])).drop c.2.length := by
      rw [← hjoin, List.drop_left]
    have hglen : c.2.length ≤ (windows3 (Q0 ++ [none, none])).length := by
      have := congrArg List.length hjoin
      simp only [List.length_append] at this
      omega
    have hg1 : 1 ≤ c.2.length := by
      have h := hne c (List.mem_cons_self _ _)
      have := List.length_pos.2 h
      omega
    have hrest2 : CL'.flatMap Prod.snd
        = windows3 (Q0.drop c.2.length ++ [none, none]) := by
      rw [hrest, windows3_drop,
        List.drop_append_of_le_length (by omega : c.2.length ≤ Q0.length)]
    by_cases hc : c.1 = true
    · have hx2 : x ∈ (if c.1 = true then Q0.filterMap id
          else (Q0.drop 2).filterMap id) := hx
      rw [hc, if_pos rfl] at hx2
      have htrue : ∀ w ∈ (windows3 (Q0 ++ [none, none])).take c.2.length,
          evenKey s w = true := by
        intro w hw
        rw [← hc2] at hw
        rw [huni c (List.mem_cons_self _ _) w hw, hc]
      obtain ⟨hg2, hexp⟩ := trueChunk_expand s hs Q0 c.2.length hg1 hglen htrue
      rcases hCL' : CL' with _ | ⟨c', CL''⟩
      · exfalso
        rw [hCL'] at hrest
        have := congrArg List.length hrest
        simp only [List.flatMap_nil, List.length_nil, List.length_drop] at this
        omega
      · have hc' : c'.1 = false := by
          rw [hCL'] at halt
          have := (List.chain'_cons.1 halt).1
          rw [hc] at this
          cases hcc : c'.1 with
          | false => rfl
          | true => rw [hcc] at this; exact absurd rfl this
        conv at hx2 =>
          rw [show Q0 = Q0.take (c.2.length + 2) ++ Q0.drop (c.2.length + 2) from
            (List.take_append_drop _ _).symm]
        rw [List.filterMap_append, List.mem_append] at hx2
        rcases hx2 with hx3 | hx3
        · left
          rw [spanBody, if_pos hc, List.flatMap_cons, List.flatMap_nil,
            List.append_nil, hc2, hexp]
          exact hx3
        · right
          have hih := ih (Q0.drop c.2.length) hrest2
            (fun d hd => huni d (List.mem_cons_of_mem _ hd))
            (fun d hd => hne d (List.mem_cons_of_mem _ hd))
            halt.tail
            (hsort.sublist ((List.drop_sublist _ _).filterMap id))
            (fun d hd => hsize d (List.mem_cons_of_mem _ hd))
            x
          rw [hCL'] at hih
          apply hih
          show x ∈ (if c'.1 = true then (Q0.drop c.2.length).filterMap id
            else ((Q0.drop c.2.length).drop 2).filterMap id)
          rw [hc', if_neg Bool.false_ne_true, List.drop_drop]
          exact hx3
    · rw [Bool.not_eq_true] at hc
      have hx2 : x ∈ (if c.1 = true then Q0.filterMap id
          else (Q0.drop 2).filterMap id) := hx
      rw [hc, if_neg Bool.false_ne_true] at hx2
      have hgQ : c.2.length ≤ Q0.length := by omega
      have hzs : ((c.2.take (c.2.length - 2)).filterMap fun w => w.2.2)
          = ((Q0.drop 2).take (c.2.length - 2)).filterMap id := by
        have h0 := zs_slice_eq Q0 c.2.length (c.2.length - 2) (by omega)
          (by omega) (by omega)
        rw [← h0]
        congr 1
        nth_rewrite 2 [hc2]
        rfl
      have hzsub : (((Q0.drop 2).take (c.2.length - 2)).filterMap id).Sublist
          (Q0.filterMap id) :=
        ((List.take_sublist _ _).trans (List.drop_sublist _ _)).filterMap id
      have hzsort : (((Q0.drop 2).take (c.2.length - 2)).filterMap id).Sorted
          (· < ·) := hsort.sublist hzsub
      have hzlen := hsize c (List.mem_cons_self _ _) hc
      rw [hzs] at hzlen
      have hcov : ∀ y : Int, y ∈ ((Q0.drop 2).take (c.2.length - 2)).filterMap id →
          y ∈ (spanBody s c).flatMap expandSpan := by
        intro y hy
        rw [spanBody, if_neg (by rw [hc]; exact Bool.false_ne_true), hzs,
          sortedDedup_eq_self hzsort]
        exact (hIH _ hzlen hzsort y).2 hy
      rcases hCL' : CL' with _ | ⟨c', CL''⟩
      · have hgfull : c.2.length = Q0.length := by
          rw [hCL'] at hrest
          have := congrArg List.length hrest
          simp only [List.flatMap_nil, List.length_nil, List.length_drop] at this
          omega
        left
        apply hcov
        rw [show (Q0.drop 2).take (c.2.length - 2) = Q0.drop 2 from by
          apply List.take_of_length_le
          simp only [List.length_drop]
          omega]
        exact hx2
      · have hc' : c'.1 = true := by
          rw [hCL'] at halt
          have := (List.chain'_cons.1 halt).1
          rw [hc] at this
          cases hcc : c'.1 with
          | true => rfl
          | false => rw [hcc] at this; exact absurd rfl this
        conv at hx2 =>
          rw [show Q0.drop 2
              = (Q0.drop 2).take (c.2.length - 2) ++ (Q0.drop 2).drop (c.2.length - 2)
            from (List.take_append_drop _ _).symm]
        rw [List.filterMap_append, List.mem_append] at hx2
        rcases hx2 with hx3 | hx3
        · left
          exact hcov x hx3
        · right
          have hx4 : x ∈ ((Q0.drop c.2.length).filterMap id) := by
            rw [List.drop_drop] at hx3
            have hsub : (Q0.drop (2 + (c.2.length - 2))).Sublist
                (Q0.drop c.2.length) := by
              rw [show 2 + (c.2.length - 2)
                    = c.2.length + (2 + (c.2.length - 2) - c.2.length) from by omega,
                ← List.drop_drop]
              exact List.drop_sublist _ _
            exact (hsub.filterMap id).subset hx3
          have hih := ih (Q0.drop c.2.length) hrest2
            (fun d hd => huni d (List.mem_cons_of_mem _ hd))
            (fun d hd => hne d (List.mem_cons_of_mem _ hd))
            halt.tail
            (hsort.sublist ((List.drop_sublist _ _).filterMap id))
            (fun d hd => hsize d (List.mem_cons_of_mem _ hd))
            x
          rw [hCL'] at hih
          apply hih
          show x ∈ (if c'.1 = true then (Q0.drop c.2.length).filterMap id
            else ((Q0.drop c.2.length).drop 2).filterMap id)
          rw [hc', if_pos rfl]
          exact hx4

theorem singletonSpans_expand : ∀ (l : List Int),
    ((l.map fun v => ((v, v, 1) : Span)).flatMap expandSpan) = l := by
  intro l
  induction l with
  | nil => rfl
  | cons v t ih =>
    rw [List.map_cons, List.flatMap_cons, expandSpan_singleton, ih]
    rfl

theorem filterMap_id_map_some_id (l : List Int) :
    ((l.map some).filterMap id) = l := by
  have h := filterMap_id_map_some (fun v : Int => v) l
  simpa using h

/-- Round trip of `getSpansFromSorted` on a strictly sorted list: the union of
the expanded spans is exactly the input. -/
theorem roundtrip_sorted : ∀ (l : List Int), l.Sorted (· < ·) →
    ∀ x : Int, (x ∈ (getSpansFromSorted l).flatMap expandSpan ↔ x ∈ l) := by
  suffices h : ∀ (n : Nat) (l : List Int), l.length < n → l.Sorted (· < ·) →
      ∀ x : Int, (x ∈ (getSpansFromSorted l).flatMap expandSpan ↔ x ∈ l) by
    intro l hsort x
    exact h (l.length + 1) l (by omega) hsort x
  intro n
  induction n with
  | zero => intro l h; omega
  | succ m ihn =>
    intro l hlen hsort x
    rw [getSpansFromSorted_eq]
    by_cases hlen2 : l.length ≤ 2
    · rw [if_pos hlen2, singletonSpans_expand]
    · rw [if_neg hlen2]
      cases hmin : (strideCandidates l).min? with
      | none =>
        rw [singletonSpans_expand]
      | some stride =>
        have hmem := List.min?_mem int_min_eq_or hmin
        rw [strideCandidates, List.mem_filterMap] at hmem
        obtain ⟨w, hw, hcand⟩ := hmem
        have hweq : w.2.1 - w.1 = w.2.2 - w.2.1 ∧ stride = w.2.1 - w.1 := by
          by_cases hc : w.2.1 - w.1 = w.2.2 - w.2.1
          · rw [if_pos hc] at hcand
            exact ⟨hc, (Option.some.inj hcand).symm⟩
          · rw [if_neg hc] at hcand
            cases hcand
        have hinfix := windows3_infixOf hw
        have hsorted3 : List.Pairwise (· < ·) [w.1, w.2.1, w.2.2] :=
          hsort.sublist hinfix.sublist
        have hlt : w.1 < w.2.1 := by
          have := List.pairwise_cons.1 hsorted3
          exact this.1 w.2.1 (List.mem_cons_self _ _)
        have hstride : 1 ≤ stride := by omega
        have hIHc : ∀ l' : List Int, l'.length < l.length → l'.Sorted (· < ·) →
            ∀ y : Int, (y ∈ (getSpansFromSorted l').flatMap expandSpan ↔ y ∈ l') := by
          intro l' h1 h2 y
          exact ihn l' (by omega) h2 y
        have hQ0 : (none :: none :: l.map some) ++ [none, none]
            = none :: none :: (l.map some ++ [none, none]) := rfl
        have hjoin : (groupRuns (evenKey stride)
              (windows3 (none :: none :: (l.map some ++ [none, none])))).flatMap
              Prod.snd
            = windows3 ((none :: none :: l.map some) ++ [none, none]) := by
          rw [hQ0]
          exact groupRuns_flatMap _ _
        have huni : ∀ c ∈ groupRuns (evenKey stride)
              (windows3 (none :: none :: (l.map some ++ [none, none]))),
            ∀ w' ∈ c.2, evenKey stride w' = c.1 := by
          intro c hc w' hw'
          exact groupRuns_key _ _ c.1 c.2 hc w' hw'
        have hne : ∀ c ∈ groupRuns (evenKey stride)
              (windows3 (none :: none :: (l.map some ++ [none, none]))), c.2 ≠ [] := by
          intro c hc
          exact groupRuns_ne_nil _ _ c.1 c.2 hc
        have halt := groupRuns_flags_alternate (evenKey stride)
          (windows3 (none :: none :: (l.map some ++ [none, none])))
        have hQ0fm : ((none :: none :: l.map some).filterMap id) = l := by
          rw [show ((none :: none :: l.map some).filterMap id)
                = ((l.map some).filterMap id) from by
              rw [List.filterMap_cons, List.filterMap_cons]
              rfl]
          exact filterMap_id_map_some_id l
        have hsortQ : (((none :: none :: l.map some)).filterMap id).Sorted
            (· < ·) := by
          rw [hQ0fm]
          exact hsort
        have hlenW : (windows3 (none :: none
            :: (l.map some ++ [none, none]))).length = l.length + 2 := by
          rw [windows3_length]
          simp
        have htruewin : ∃ ct ∈ groupRuns (evenKey stride)
            (windows3 (none :: none :: (l.map some ++ [none, none]))),
            ct.1 = true := by
          have hwmem := mem_windows3_padded hw
          have hkey : evenKey stride (some w.1, some w.2.1, some w.2.2) = true := by
            rw [show evenKey stride (some w.1, some w.2.1, some w.2.2)
                  = (decide (w.2.1 - w.1 = w.2.2 - w.2.1)
                    && decide (w.2.2 - w.2.1 = stride)) from rfl]
            rw [decide_eq_true hweq.1, decide_eq_true (by omega : w.2.2 - w.2.1 = stride)]
            rfl
          have : (some w.1, some w.2.1, some w.2.2)
              ∈ (groupRuns (evenKey stride)
                (windows3 (none :: none :: (l.map some ++ [none, none])))).flatMap
                Prod.snd := by
            rw [groupRuns_flatMap]
            exact hwmem
          rw [List.mem_flatMap] at this
          obtain ⟨c, hcmem, hwc⟩ := this
          refine ⟨c, hcmem, ?_⟩
          rw [← huni c hcmem _ hwc, hkey]
        have hsize : ∀ c ∈ groupRuns (evenKey stride)
            (windows3 (none :: none :: (l.map some ++ [none, none]))),
            c.1 = false →
            ((c.2.take (c.2.length - 2)).filterMap fun w' => w'.2.2).length
              < l.length := by
          intro c hc hcfalse
          obtain ⟨ct, hct, hcttrue⟩ := htruewin
          have hcnect : c ≠ ct := by
            intro heq
            rw [heq, hcttrue] at hcfalse
            cases hcfalse
          have hsum := two_mem_map_sum_le (fun p => p.2.length) hc hct hcnect
          have hflatlen : ((groupRuns (evenKey stride)
              (windows3 (none :: none :: (l.map some ++ [none, none])))).map
                fun p => p.2.length).sum = l.length + 2 := by
            have h := List.length_flatMap (groupRuns (evenKey stride)
              (windows3 (none :: none :: (l.map some ++ [none, none])))) Prod.snd
            rw [groupRuns_flatMap] at h
            rw [show ((groupRuns (evenKey stride)
                (windows3 (none :: none :: (l.map some ++ [none, none])))).map
                  fun p => p.2.length)
                = ((groupRuns (evenKey stride)
                  (windows3 (none :: none :: (l.map some ++ [none, none])))).map
                    (List.length ∘ Prod.snd)) from rfl, ← h]
            exact hlenW
          have hsum2 : c.2.length + ct.2.length
              ≤ ((groupRuns (evenKey stride)
                (windows3 (none :: none :: (l.map some ++ [none, none])))).map
                  fun p => p.2.length).sum := hsum
          have hctlen : 1 ≤ ct.2.length := by
            have h := groupRuns_ne_nil _ _ ct.1 ct.2 hct
            have := List.length_pos.2 h
            omega
          have hclen : c.2.length ≤ l.length + 1 := by omega
          have h1 := List.length_filterMap_le (fun w' :
              Option Int × Option Int × Option Int => w'.2.2)
            (c.2.take (c.2.length - 2))
          have h2 : (c.2.take (c.2.length - 2)).length ≤ c.2.length - 2 := by
            rw [List.length_take]
            omega
          omega
        constructor
        · intro hx
          have hup := cover_upper l.length stride hstride hIHc
            (groupRuns (evenKey stride)
              (windows3 (none :: none :: (l.map some ++ [none, none]))))
            (none :: none :: l.map some)
            hjoin huni hne hsortQ hsize x
          rw [hQ0fm] at hup
          apply hup
          exact hx
        · intro hx
          have hlow := cover_lower l.length stride hstride hIHc
            (groupRuns (evenKey stride)
              (windows3 (none :: none :: (l.map some ++ [none, none]))))
            (none :: none :: l.map some)
            hjoin huni hne halt hsortQ hsize x
          have hl3 : 3 ≤ l.length := by omega
          obtain ⟨v0, v1, v2, t, rfl⟩ : ∃ v0 v1 v2 t, l = v0 :: v1 :: v2 :: t := by
            match l, hl3 with
            | a :: b :: c :: t, _ => exact ⟨a, b, c, t, rfl⟩
          apply hlow
          rw [show (none :: none :: ((v0 :: v1 :: v2 :: t).map some
                ++ [none, none]))
              = none :: none :: some v0 :: ((v1 :: v2 :: t).map some
                ++ [none, none]) from rfl]
          rw [windows3_cons₃]
          obtain ⟨g, rest, hgr⟩ := groupRuns_head_key (evenKey stride)
            ((none, none, some v0))
            (windows3 (none :: some v0 :: ((v1 :: v2 :: t).map some
              ++ [none, none])))
          rw [hgr]
          show x ∈ (if evenKey stride (none, none, some v0) = true
            then ((none :: none :: (v0 :: v1 :: v2 :: t).map some).filterMap id)
            else (((none :: none :: (v0 :: v1 :: v2 :: t).map some).drop 2).filterMap
              id))
          rw [show evenKey stride (none, none, some v0) = false from rfl,
            if_neg Bool.false_ne_true]
          show x ∈ (((v0 :: v1 :: v2 :: t).map some).filterMap id)
          rw [filterMap_id_map_some_id]
          exact hx

/-- C1: for every finite set of integers (given as a list), the spans produced
by `getSpansFromIntegers` expand, as inclusive arithmetic progressions, to
exactly the input set: every element is covered and nothing outside the input
is covered. -/
theorem C1_spans_roundtrip : ∀ (ints : List Int) (x : Int),
    (x ∈ (getSpansFromIntegers ints).flatMap expandSpan ↔ x ∈ ints) := by
  intro ints x
  rw [getSpansFromIntegers]
  have hperm := List.perm_insertionSort (fun a b : Int => a ≤ b) ints.dedup
  have hnd : (sortedDedup ints).Nodup := by
    rw [sortedDedup]
    exact (hperm.nodup_iff).2 (List.nodup_dedup ints)
  have hle : (sortedDedup ints).Sorted (· ≤ ·) := by
    rw [sortedDedup]
    exact List.sorted_insertionSort _ _
  have hlt : (sortedDedup ints).Sorted (· < ·) :=
    (List.Pairwise.and hle hnd).imp fun h => lt_of_le_of_ne h.1 h.2
  rw [roundtrip_sorted _ hlt x, sortedDedup, hperm.mem_iff, List.mem_dedup]

/-! ### C10: mergeability as an equivalence, greedy grouping, order independence -/

/-- Well-formedness of a calibBlock tree as parsed from YAML: every mapping in
the tree has pairwise distinct keys (a Python dict cannot hold a key twice). -/
def wf : Yaml → Bool
  | .str _ => true
  | .scalar _ => true
  | .list l => l.attach.all fun x => wf x.1
  | .map m =>
    decide ((m.map Prod.fst).Nodup) && m.attach.all fun e => wf e.1.2
termination_by o => sizeOf o
decreasing_by
  · have h1 := List.sizeOf_lt_of_mem x.2
    simp only [Yaml.list.sizeOf_spec]
    omega
  · obtain ⟨⟨k, v⟩, he⟩ := e
    have h1 := List.sizeOf_lt_of_mem he
    simp only [Yaml.map.sizeOf_spec]
    simp at h1 ⊢
    omega

theorem wf_eq (o : Yaml) :
    wf o = match o with
      | .str _ => true
      | .scalar _ => true
      | .list l => l.all wf
      | .map m => decide ((m.map Prod.fst).Nodup) && m.all fun e => wf e.2 := by
  cases o with
  | str s => rw [wf]
  | scalar n => rw [wf]
  | list l =>
    rw [wf]
    rw [show (l.attach.all fun x => wf x.1) = l.all wf from attach_all_eq l wf]
  | map m =>
    rw [wf]
    rw [show (m.attach.all fun e => wf e.1.2) = m.all fun e => wf e.2 from
      attach_all_eq m (fun e => wf e.2)]

theorem wf_list_elim {l : List Yaml} (h : wf (Yaml.list l) = true) :
    ∀ o ∈ l, wf o = true := by
  rw [wf_eq] at h
  exact List.all_eq_true.1 h

theorem wf_map_elim {m : List (String × Yaml)} (h : wf (Yaml.map m) = true) :
    (m.map Prod.fst).Nodup ∧ ∀ e ∈ m, wf e.2 = true := by
  rw [wf_eq, Bool.and_eq_true] at h
  exact ⟨of_decide_eq_true h.1, List.all_eq_true.1 h.2⟩

theorem lookup_eq_of_mem_nodup {m : List (String × Yaml)} {k : String} {v : Yaml}
    (hnd : (m.map Prod.fst).Nodup) (hmem : (k, v) ∈ m) :
    m.lookup k = some v := by
  induction m with
  | nil => simp at hmem
  | cons e rest ih =>
    rw [List.map_cons, List.nodup_cons] at hnd
    rw [List.mem_cons] at hmem
    rcases hmem with hmem | hmem
    · rw [← hmem]
      rw [List.lookup]
      simp
    · have hkne : ¬(k == e.1) = true := by
        intro hk
        simp at hk
        exact hnd.1 (hk ▸ List.mem_map_of_mem Prod.fst hmem)
      rw [List.lookup, Bool.of_not_eq_true hkne]
      exact ih hnd.2 hmem

theorem pyLookup_eq_of_mem_nodup {m : List (String × Yaml)} {k : String} {v : Yaml}
    (hnd : (m.map Prod.fst).Nodup) (hmem : (k, v) ∈ m) :
    pyLookup m k = v := by
  rw [pyLookup, lookup_eq_of_mem_nodup hnd hmem]
  rfl

theorem sameKeySet_iff {m1 m2 : List (String × Yaml)} :
    sameKeySet m1 m2 = true ↔
      (∀ k, k ∈ m1.map Prod.fst ↔ k ∈ m2.map Prod.fst) := by
  rw [sameKeySet, Bool.and_eq_true, List.all_eq_true, List.all_eq_true]
  constructor
  · intro ⟨h1, h2⟩ k
    constructor
    · intro hk
      have h := h1 k hk
      simpa using h
    · intro hk
      have h := h2 k hk
      simpa using h
  · intro h
    refine ⟨fun k hk => ?_, fun k hk => ?_⟩
    · simpa using (h k).1 hk
    · simpa using (h k).2 hk

theorem sizeOf_snd_lt_map {m : List (String × Yaml)} {e : String × Yaml}
    (he : e ∈ m) : sizeOf e.2 < sizeOf (Yaml.map m) := by
  have h1 := List.sizeOf_lt_of_mem he
  obtain ⟨k, v⟩ := e
  simp only [Yaml.map.sizeOf_spec]
  simp at h1 ⊢
  omega

theorem sizeOf_mem_lt_list {l : List Yaml} {o : Yaml} (ho : o ∈ l) :
    sizeOf o < sizeOf (Yaml.list l) := by
  have h1 := List.sizeOf_lt_of_mem ho
  simp only [Yaml.list.sizeOf_spec]
  omega

theorem zip_self {α : Type} (l : List α) : l.zip l = l.map fun a => (a, a) := by
  induction l with
  | nil => rfl
  | cons a t ih => simp [List.zip_cons_cons, ih]

theorem mem_keys_of_mem {m : List (String × Yaml)} {e : String × Yaml}
    (he : e ∈ m) : e.1 ∈ m.map Prod.fst :=
  List.mem_map_of_mem Prod.fst he

theorem mem_of_mem_keys {m : List (String × Yaml)} {k : String}
    (hk : k ∈ m.map Prod.fst) : ∃ v, (k, v) ∈ m := by
  obtain ⟨e, he, hek⟩ := List.mem_map.1 hk
  exact ⟨e.2, by rw [← hek]; exact he⟩

/-- Reflexivity of `isMergeable` on well-formed trees. -/
theorem isMergeable_refl : ∀ (o : Yaml), wf o = true → isMergeable o o = true := by
  suffices h : ∀ (n : Nat) (o : Yaml), sizeOf o < n → wf o = true →
      isMergeable o o = true from fun o hw => h (sizeOf o + 1) o (by omega) hw
  intro n
  induction n with
  | zero => intro o h; omega
  | succ n ih =>
    intro o hsz hwf
    cases o with
    | str s => rw [isMergeable_eq]; simp
    | scalar m => rw [isMergeable_eq]; simp
    | list l =>
      rw [isMergeable_eq]
      simp only [beq_self_eq_true, Bool.true_and]
      rw [List.all_eq_true]
      intro p hp
      rw [zip_self] at hp
      obtain ⟨a, ha, rfl⟩ := List.mem_map.1 hp
      exact ih a (by have := sizeOf_mem_lt_list ha; omega) (wf_list_elim hwf a ha)
    | map m =>
      rw [isMergeable_eq, Bool.and_eq_true]
      obtain ⟨hnd, hvals⟩ := wf_map_elim hwf
      constructor
      · exact sameKeySet_iff.2 fun k => Iff.rfl
      · rw [List.all_eq_true]
        intro e he
        rw [Bool.or_eq_true]
        right
        rw [pyLookup_eq_of_mem_nodup hnd (show (e.1, e.2) ∈ m from he)]
        exact ih e.2 (by have := sizeOf_snd_lt_map he; omega) (hvals e he)

theorem all_congr {α : Type} {l : List α} {p q : α → Bool}
    (h : ∀ x ∈ l, p x = q x) : l.all p = l.all q := by
  induction l with
  | nil => rfl
  | cons a t ih =>
    simp only [List.all_cons]
    rw [h a (List.mem_cons_self a t), ih fun x hx => h x (List.mem_cons_of_mem a hx)]

/-- Symmetry of `isMergeable` on well-formed trees. -/
theorem isMergeable_symm : ∀ (o1 o2 : Yaml), wf o1 = true → wf o2 = true →
    isMergeable o1 o2 = isMergeable o2 o1 := by
  suffices h : ∀ (n : Nat) (o1 o2 : Yaml), sizeOf o1 + sizeOf o2 < n →
      wf o1 = true → wf o2 = true → isMergeable o1 o2 = isMergeable o2 o1 from
    fun o1 o2 h1 h2 => h (sizeOf o1 + sizeOf o2 + 1) o1 o2 (by omega) h1 h2
  intro n
  induction n with
  | zero => intro o1 o2 h; omega
  | succ n ih =>
    intro o1 o2 hsz hwf1 hwf2
    cases o1 with
    | str s1 =>
      cases o2 <;> rw [isMergeable_eq, isMergeable_eq]
      case str s2 =>
        show (pyStartsWith s1 "arm=" && pyStartsWith s2 "arm=" || s1 == s2) =
          (pyStartsWith s2 "arm=" && pyStartsWith s1 "arm=" || s2 == s1)
        rcases Decidable.em (s1 = s2) with rfl | hne
        · rfl
        · have h1 : (s1 == s2) = false := beq_eq_false_iff_ne.mpr hne
          have h2 : (s2 == s1) = false := beq_eq_false_iff_ne.mpr (Ne.symm hne)
          rw [h1, h2, Bool.and_comm]
    | scalar m1 =>
      cases o2 <;> rw [isMergeable_eq, isMergeable_eq]
      case scalar m2 =>
        show (m1 == m2) = (m2 == m1)
        simp [eq_comm]
    | list l1 =>
      cases o2 <;> rw [isMergeable_eq, isMergeable_eq]
      case list l2 =>
        show (l1.length == l2.length && (l1.zip l2).all fun p => isMergeable p.1 p.2) =
          (l2.length == l1.length && (l2.zip l1).all fun p => isMergeable p.1 p.2)
        rcases Decidable.em (l1.length = l2.length) with hlen | hlen
        · simp only [hlen, beq_self_eq_true, Bool.true_and]
          rw [← List.zip_swap l1 l2, List.all_map]
          apply all_congr
          intro p hp
          have h1 := (List.of_mem_zip hp).1
          have h2 := (List.of_mem_zip hp).2
          have hs1 := sizeOf_mem_lt_list h1
          have hs2 := sizeOf_mem_lt_list h2
          show isMergeable p.1 p.2 = isMergeable p.2 p.1
          exact ih p.1 p.2 (by omega) (wf_list_elim hwf1 p.1 h1)
            (wf_list_elim hwf2 p.2 h2)
        · have h1 : (l1.length == l2.length) = false := beq_eq_false_iff_ne.mpr hlen
          have h2 : (l2.length == l1.length) = false :=
            beq_eq_false_iff_ne.mpr (Ne.symm hlen)
          rw [h1, h2, Bool.false_and, Bool.false_and]
    | map m1 =>
      cases o2 <;> rw [isMergeable_eq, isMergeable_eq]
      case map m2 =>
        show (sameKeySet m1 m2 &&
            m1.all fun e => (e.1 == "name") || isMergeable e.2 (pyLookup m2 e.1)) =
          (sameKeySet m2 m1 &&
            m2.all fun e => (e.1 == "name") || isMergeable e.2 (pyLookup m1 e.1))
        obtain ⟨hnd1, hv1⟩ := wf_map_elim hwf1
        obtain ⟨hnd2, hv2⟩ := wf_map_elim hwf2
        rcases hks : sameKeySet m1 m2 with _ | _
        · have hks2 : sameKeySet m2 m1 = false := by
            rcases h2 : sameKeySet m2 m1 with _ | _
            · rfl
            · rw [sameKeySet_iff] at h2
              rw [show sameKeySet m1 m2 = true from
                sameKeySet_iff.2 fun k => (h2 k).symm] at hks
              exact hks
          rw [hks2]
          simp
        · have hks2 : sameKeySet m2 m1 = true := by
            rw [sameKeySet_iff] at hks ⊢
            exact fun k => (hks k).symm
          rw [hks2]
          simp only [Bool.true_and]
          have key : ∀ (ma mb : List (String × Yaml)),
              (ma.map Prod.fst).Nodup → (mb.map Prod.fst).Nodup →
              (∀ e ∈ ma, wf e.2 = true) → (∀ e ∈ mb, wf e.2 = true) →
              sizeOf (Yaml.map ma) + sizeOf (Yaml.map mb) ≤
                sizeOf (Yaml.map m1) + sizeOf (Yaml.map m2) →
              (∀ k, k ∈ ma.map Prod.fst ↔ k ∈ mb.map Prod.fst) →
              (ma.all fun e => (e.1 == "name") || isMergeable e.2 (pyLookup mb e.1)) = true →
              (mb.all fun e => (e.1 == "name") || isMergeable e.2 (pyLookup ma e.1)) = true := by
            intro ma mb hnda hndb hva hvb hsab hkab hall
            rw [List.all_eq_true] at hall ⊢
            intro e' he'
            rw [Bool.or_eq_true]
            rcases Decidable.em (e'.1 = "name") with hname | hname
            · left
              simp [hname]
            · right
              have hk2 : e'.1 ∈ mb.map Prod.fst := mem_keys_of_mem he'
              obtain ⟨v, hv⟩ := mem_of_mem_keys ((hkab e'.1).2 hk2)
              have h1 := hall (e'.1, v) hv
              rw [Bool.or_eq_true] at h1
              rcases h1 with h1 | h1
              · exact absurd (by simpa using h1) hname
              · rw [pyLookup_eq_of_mem_nodup hndb (show (e'.1, e'.2) ∈ mb from he')] at h1
                rw [pyLookup_eq_of_mem_nodup hnda hv]
                have hsa : sizeOf v < sizeOf (Yaml.map ma) := sizeOf_snd_lt_map hv
                have hsb := sizeOf_snd_lt_map he'
                rw [ih e'.2 v (by omega) (hvb e' he') (hva (e'.1, v) hv)]
                exact h1
          apply Bool.eq_iff_iff.mpr
          constructor
          · intro h
            exact key m1 m2 hnd1 hnd2 hv1 hv2 (by omega) (sameKeySet_iff.1 hks) h
          · intro h
            exact key m2 m1 hnd2 hnd1 hv2 hv1 (by omega)
              (fun k => ((sameKeySet_iff.1 hks) k).symm) h

theorem zip_all_iff {l1 l2 : List Yaml} {f : Yaml → Yaml → Bool} :
    ((l1.zip l2).all fun p => f p.1 p.2) = true ↔
      ∀ (i : Nat) (h1 : i < l1.length) (h2 : i < l2.length),
        f (l1.get ⟨i, h1⟩) (l2.get ⟨i, h2⟩) = true := by
  rw [List.all_eq_true]
  constructor
  · intro h i h1 h2
    have hz : i < (l1.zip l2).length := by rw [List.length_zip]; omega
    have hm := List.getElem_mem hz
    rw [List.getElem_zip] at hm
    exact h _ hm
  · intro h p hp
    obtain ⟨i, hi, rfl⟩ := List.mem_iff_getElem.1 hp
    have hi' := hi
    rw [List.length_zip] at hi'
    rw [List.getElem_zip]
    exact h i (by omega) (by omega)

/-- Transitivity of `isMergeable` on well-formed trees. -/
theorem isMergeable_trans : ∀ (o1 o2 o3 : Yaml), wf o1 = true → wf o2 = true →
    wf o3 = true → isMergeable o1 o2 = true → isMergeable o2 o3 = true →
    isMergeable o1 o3 = true := by
  suffices h : ∀ (n : Nat) (o1 o2 o3 : Yaml),
      sizeOf o1 + sizeOf o2 + sizeOf o3 < n → wf o1 = true → wf o2 = true →
      wf o3 = true → isMergeable o1 o2 = true → isMergeable o2 o3 = true →
      isMergeable o1 o3 = true from
    fun o1 o2 o3 h1 h2 h3 => h (sizeOf o1 + sizeOf o2 + sizeOf o3 + 1) o1 o2 o3
      (by omega) h1 h2 h3
  intro n
  induction n with
  | zero => intro o1 o2 o3 h; omega
  | succ n ih =>
    intro o1 o2 o3 hsz hwf1 hwf2 hwf3 h12 h23
    cases o1 with
    | str s1 =>
      cases o2 <;> rw [isMergeable_eq] at h12 <;>
        try exact Bool.noConfusion (show false = true from h12)
      case str s2 =>
        cases o3 <;> rw [isMergeable_eq] at h23 <;>
          try exact Bool.noConfusion (show false = true from h23)
        case str s3 =>
          rw [isMergeable_eq]
          show (pyStartsWith s1 "arm=" && pyStartsWith s3 "arm=" || s1 == s3) = true
          have h12' : (pyStartsWith s1 "arm=" && pyStartsWith s2 "arm=" || s1 == s2) = true := h12
          have h23' : (pyStartsWith s2 "arm=" && pyStartsWith s3 "arm=" || s2 == s3) = true := h23
          rw [Bool.or_eq_true, Bool.and_eq_true] at h12' h23' ⊢
          rcases h12' with ⟨ha1, ha2⟩ | he12
          · rcases h23' with ⟨hb2, hb3⟩ | he23
            · exact Or.inl ⟨ha1, hb3⟩
            · have he : s2 = s3 := by simpa using he23
              exact Or.inl ⟨ha1, he ▸ ha2⟩
          · have he : s1 = s2 := by simpa using he12
            rcases h23' with ⟨hb2, hb3⟩ | he23
            · exact Or.inl ⟨he ▸ hb2, hb3⟩
            · have he2 : s2 = s3 := by simpa using he23
              exact Or.inr (by simp [he, he2])
    | scalar m1 =>
      cases o2 <;> rw [isMergeable_eq] at h12 <;>
        try exact Bool.noConfusion (show false = true from h12)
      case scalar m2 =>
        cases o3 <;> rw [isMergeable_eq] at h23 <;>
          try exact Bool.noConfusion (show false = true from h23)
        case scalar m3 =>
          rw [isMergeable_eq]
          show (m1 == m3) = true
          have h12' : (m1 == m2) = true := h12
          have h23' : (m2 == m3) = true := h23
          simp at h12' h23' ⊢
          omega
    | list l1 =>
      cases o2 <;> rw [isMergeable_eq] at h12 <;>
        try exact Bool.noConfusion (show false = true from h12)
      case list l2 =>
        cases o3 <;> rw [isMergeable_eq] at h23 <;>
          try exact Bool.noConfusion (show false = true from h23)
        case list l3 =>
          rw [isMergeable_eq]
          show (l1.length == l3.length && (l1.zip l3).all fun p => isMergeable p.1 p.2) = true
          have h12' : (l1.length == l2.length && (l1.zip l2).all fun p => isMergeable p.1 p.2) = true := h12
          have h23' : (l2.length == l3.length && (l2.zip l3).all fun p => isMergeable p.1 p.2) = true := h23
          rw [Bool.and_eq_true] at h12' h23' ⊢
          have hlen12 : l1.length = l2.length := by simpa using h12'.1
          have hlen23 : l2.length = l3.length := by simpa using h23'.1
          refine ⟨by simp [hlen12, hlen23], ?_⟩
          rw [zip_all_iff]
          intro i hi1 hi3
          have hi2 : i < l2.length := by omega
          have ha := (zip_all_iff.1 h12'.2) i hi1 hi2
          have hb := (zip_all_iff.1 h23'.2) i hi2 hi3
          have hm1 := List.get_mem l1 i hi1
          have hm2 := List.get_mem l2 i hi2
          have hm3 := List.get_mem l3 i hi3
          have hs1 := sizeOf_mem_lt_list hm1
          have hs2 := sizeOf_mem_lt_list hm2
          have hs3 := sizeOf_mem_lt_list hm3
          exact ih _ _ _ (by omega) (wf_list_elim hwf1 _ hm1)
            (wf_list_elim hwf2 _ hm2) (wf_list_elim hwf3 _ hm3) ha hb
    | map m1 =>
      cases o2 <;> rw [isMergeable_eq] at h12 <;>
        try exact Bool.noConfusion (show false = true from h12)
      case map m2 =>
        cases o3 <;> rw [isMergeable_eq] at h23 <;>
          try exact Bool.noConfusion (show false = true from h23)
        case map m3 =>
          rw [isMergeable_eq]
          show (sameKeySet m1 m3 &&
            m1.all fun e => (e.1 == "name") || isMergeable e.2 (pyLookup m3 e.1)) = true
          have h12' : (sameKeySet m1 m2 &&
            m1.all fun e => (e.1 == "name") || isMergeable e.2 (pyLookup m2 e.1)) = true := h12
          have h23' : (sameKeySet m2 m3 &&
            m2.all fun e => (e.1 == "name") || isMergeable e.2 (pyLookup m3 e.1)) = true := h23
          rw [Bool.and_eq_true] at h12' h23' ⊢
          obtain ⟨hnd1, hv1⟩ := wf_map_elim hwf1
          obtain ⟨hnd2, hv2⟩ := wf_map_elim hwf2
          obtain ⟨hnd3, hv3⟩ := wf_map_elim hwf3
          have hk12 := sameKeySet_iff.1 h12'.1
          have hk23 := sameKeySet_iff.1 h23'.1
          refine ⟨sameKeySet_iff.2 fun k => (hk12 k).trans (hk23 k), ?_⟩
          rw [List.all_eq_true]
          intro e he
          rw [Bool.or_eq_true]
          rcases Decidable.em (e.1 = "name") with hname | hname
          · left
            simp [hname]
          · right
            have h1 := List.all_eq_true.1 h12'.2 e he
            rw [Bool.or_eq_true] at h1
            rcases h1 with h1 | h1
            · exact absurd (by simpa using h1) hname
            obtain ⟨v2, hv2mem⟩ := mem_of_mem_keys ((hk12 e.1).1 (mem_keys_of_mem he))
            rw [pyLookup_eq_of_mem_nodup hnd2 hv2mem] at h1
            have h2 := List.all_eq_true.1 h23'.2 (e.1, v2) hv2mem
            rw [Bool.or_eq_true] at h2
            rcases h2 with h2 | h2
            · exact absurd (by simpa using h2) hname
            have h2' : isMergeable v2 (pyLookup m3 e.1) = true := h2
            have hk2' : (e.1, v2).1 ∈ m2.map Prod.fst := List.mem_map_of_mem Prod.fst hv2mem
            obtain ⟨v3, hv3mem⟩ := mem_of_mem_keys ((hk23 e.1).1 hk2')
            have hpl3 : pyLookup m3 e.1 = v3 := pyLookup_eq_of_mem_nodup hnd3 hv3mem
            rw [hpl3] at h2'
            rw [hpl3]
            have hs1 : sizeOf e.2 < sizeOf (Yaml.map m1) := sizeOf_snd_lt_map he
            have hs2 : sizeOf v2 < sizeOf (Yaml.map m2) := sizeOf_snd_lt_map hv2mem
            have hs3 : sizeOf v3 < sizeOf (Yaml.map m3) := sizeOf_snd_lt_map hv3mem
            exact ih e.2 v2 v3 (by omega) (hv1 e he) (hv2 (e.1, v2) hv2mem)
              (hv3 (e.1, v3) hv3mem) h1 h2'

/-- The greedy grouping performed by `mergeCalibBlocks`: the first block
anchors a group consisting of it and every later block mergeable with it;
the remaining blocks are grouped recursively. -/
def greedyGroups : List Yaml → List (List Yaml)
  | [] => []
  | b0 :: rest =>
    (b0 :: rest.filter fun b => isMergeable b0 b) ::
      greedyGroups (rest.filter fun b => !isMergeable b0 b)
termination_by blocks => blocks.length
decreasing_by
  have := List.length_filter_le (fun b => !isMergeable b0 b) rest
  simp only [List.length_cons]
  omega

theorem greedyGroups_nil : greedyGroups [] = [] := by
  rw [greedyGroups]

theorem greedyGroups_cons (b0 : Yaml) (rest : List Yaml) :
    greedyGroups (b0 :: rest) =
      (b0 :: rest.filter fun b => isMergeable b0 b) ::
        greedyGroups (rest.filter fun b => !isMergeable b0 b) := by
  rw [greedyGroups]

/-- `mergeCalibBlocks` is exactly `pyMerge` mapped (fallibly) over the greedy
groups. -/
theorem mergeCalibBlocks_eq_greedy : ∀ (blocks : List Yaml),
    mergeCalibBlocks blocks = eMapM pyMerge (greedyGroups blocks) := by
  suffices h : ∀ (n : Nat) (blocks : List Yaml), blocks.length < n →
      mergeCalibBlocks blocks = eMapM pyMerge (greedyGroups blocks) from
    fun blocks => h (blocks.length + 1) blocks (by omega)
  intro n
  induction n with
  | zero => intro blocks h; omega
  | succ n ih =>
    intro blocks hlen
    cases blocks with
    | nil => rw [mergeCalibBlocks_nil, greedyGroups_nil]; rfl
    | cons b0 rest =>
      rw [mergeCalibBlocks_cons, greedyGroups_cons, eMapM]
      have hrec := ih (rest.filter fun b => !isMergeable b0 b)
        (by
          have := List.length_filter_le (fun b => !isMergeable b0 b) rest
          simp only [List.length_cons] at hlen
          omega)
      rw [hrec]
      cases pyMerge (b0 :: rest.filter fun b => isMergeable b0 b) with
      | error e => rfl
      | ok m =>
        cases eMapM pyMerge (greedyGroups (rest.filter fun b => !isMergeable b0 b)) with
        | error e => rfl
        | ok ms => rfl

/-- Each greedy group is the full `isMergeable`-equivalence class, within the
original block list, of its representative. -/
theorem greedyGroups_full_classes : ∀ (blocks : List Yaml),
    (∀ b ∈ blocks, wf b = true) → ∀ g ∈ greedyGroups blocks,
    ∃ rep, rep ∈ blocks ∧ g = blocks.filter fun b => isMergeable rep b := by
  suffices h : ∀ (n : Nat) (blocks : List Yaml), blocks.length < n →
      (∀ b ∈ blocks, wf b = true) → ∀ g ∈ greedyGroups blocks,
      ∃ rep, rep ∈ blocks ∧ g = blocks.filter fun b => isMergeable rep b from
    fun blocks => h (blocks.length + 1) blocks (by omega)
  intro n
  induction n with
  | zero => intro blocks h; omega
  | succ n ih =>
    intro blocks hlen hwf g hg
    cases blocks with
    | nil => rw [greedyGroups_nil] at hg; exact absurd hg (List.not_mem_nil g)
    | cons b0 rest =>
      rw [greedyGroups_cons, List.mem_cons] at hg
      have hwfb0 : wf b0 = true := hwf b0 (List.mem_cons_self b0 rest)
      rcases hg with hg | hg
      · refine ⟨b0, List.mem_cons_self b0 rest, ?_⟩
        rw [hg, List.filter_cons_of_pos (isMergeable_refl b0 hwfb0)]
      · have hwf' : ∀ b ∈ rest.filter (fun b => !isMergeable b0 b), wf b = true :=
          fun b hb => hwf b (List.mem_cons_of_mem b0 (List.mem_of_mem_filter hb))
        have hlen' : (rest.filter fun b => !isMergeable b0 b).length < n := by
          have := List.length_filter_le (fun b => !isMergeable b0 b) rest
          simp only [List.length_cons] at hlen
          omega
        obtain ⟨rep, hrep, hgeq⟩ := ih _ hlen' hwf' g hg
        have hrepr : rep ∈ rest := List.mem_of_mem_filter hrep
        have hwfrep : wf rep = true := hwf rep (List.mem_cons_of_mem b0 hrepr)
        have hb0rep : isMergeable b0 rep = false := by
          have := List.of_mem_filter hrep
          simp at this
          exact this
        refine ⟨rep, List.mem_cons_of_mem b0 hrepr, ?_⟩
        have hrb0 : isMergeable rep b0 = false := by
          rw [isMergeable_symm rep b0 hwfrep hwfb0]
          exact hb0rep
        rw [List.filter_cons_of_neg (by simp [hrb0])]
        rw [hgeq, List.filter_filter]
        apply List.filter_congr
        intro b hb
        have hwfb : wf b = true := hwf b (List.mem_cons_of_mem b0 hb)
        rcases hrepb : isMergeable rep b with _ | _
        · rw [Bool.false_and]
        · rw [Bool.true_and]
          rcases hb0b : isMergeable b0 b with _ | _
          · rfl
          · exfalso
            have h1 : isMergeable b rep = true := by
              rw [isMergeable_symm b rep hwfb hwfrep]
              exact hrepb
            have h2 : isMergeable b0 rep = true :=
              isMergeable_trans b0 b rep hwfb0 hwfb hwfrep hb0b h1
            rw [h2] at hb0rep
            exact Bool.noConfusion hb0rep

theorem attach_map_eq {α β : Type} (l : List α) (f : α → β) :
    (l.attach.map fun x => f x.1) = l.map f := by
  conv_rhs => rw [← List.attach_map_subtype_val l]
  rw [List.map_map]
  rfl

/-- Canonical form of a merged tree: every mapping is sorted by key.  Two
merged results that differ only in dictionary insertion order have the same
canonical form. -/
def MYaml.canon : MYaml → MYaml
  | .str s => .str s
  | .scalar n => .scalar n
  | .exc s => .exc s
  | .list l => .list (l.attach.map fun x => x.1.canon)
  | .map m => .map (List.insertionSort (fun a b => pyStrLe a.1 b.1 = true)
      (m.attach.map fun e => (e.1.1, e.1.2.canon)))
termination_by o => sizeOf o
decreasing_by
  · have h1 := List.sizeOf_lt_of_mem x.2
    simp only [MYaml.list.sizeOf_spec]
    omega
  · obtain ⟨⟨k, v⟩, he⟩ := e
    have h1 := List.sizeOf_lt_of_mem he
    simp only [MYaml.map.sizeOf_spec]
    simp at h1 ⊢
    omega

theorem canon_eq (o : MYaml) :
    o.canon = match o with
      | .str s => .str s
      | .scalar n => .scalar n
      | .exc s => .exc s
      | .list l => .list (l.map MYaml.canon)
      | .map m => .map (List.insertionSort (fun a b => pyStrLe a.1 b.1 = true)
          (m.map fun e => (e.1, e.2.canon))) := by
  cases o with
  | str s => rw [MYaml.canon]
  | scalar n => rw [MYaml.canon]
  | exc s => rw [MYaml.canon]
  | list l =>
    rw [MYaml.canon]
    rw [attach_map_eq l MYaml.canon]
  | map m =>
    rw [MYaml.canon]
    rw [attach_map_eq m fun e => (e.1, e.2.canon)]

/-- Relation between two fallible merge results: both fail, or both succeed
with the same canonical tree. -/
def exceptRel : Except String MYaml → Except String MYaml → Prop
  | .ok a, .ok b => a.canon = b.canon
  | .error _, .error _ => True
  | _, _ => False

theorem perm_all {α : Type} {l l' : List α} (h : l.Perm l') (p : α → Bool) :
    l.all p = l'.all p := by
  apply Bool.eq_iff_iff.mpr
  rw [List.all_eq_true, List.all_eq_true]
  exact ⟨fun ha x hx => ha x (h.mem_iff.2 hx), fun ha x hx => ha x (h.mem_iff.1 hx)⟩

theorem perm_any {α : Type} {l l' : List α} (h : l.Perm l') (p : α → Bool) :
    l.any p = l'.any p := by
  apply Bool.eq_iff_iff.mpr
  rw [List.any_eq_true, List.any_eq_true]
  exact ⟨fun ⟨x, hx, hp⟩ => ⟨x, h.mem_iff.1 hx, hp⟩,
    fun ⟨x, hx, hp⟩ => ⟨x, h.mem_iff.2 hx, hp⟩⟩

theorem perm_isEmpty {α : Type} {l l' : List α} (h : l.Perm l') :
    l.isEmpty = l'.isEmpty := by
  have hlen := h.length_eq
  cases l <;> cases l' <;> simp_all

theorem headD_mem {α : Type} {l : List α} (d : α) (h : l ≠ []) : l.headD d ∈ l := by
  cases l with
  | nil => exact absurd rfl h
  | cons a t => exact List.mem_cons_self a t

/-- A guard of the form "every element is `r`-related to the first element"
depends only on the set of elements, for `r` symmetric and transitive on them. -/
theorem all_headRel_iff {α : Type} (r : α → α → Bool) (d : α) (l : List α)
    (hne : l ≠ [])
    (hrefl : ∀ a ∈ l, r a a = true)
    (hsymm : ∀ a ∈ l, ∀ b ∈ l, r a b = r b a)
    (htrans : ∀ a ∈ l, ∀ b ∈ l, ∀ c ∈ l,
      r a b = true → r b c = true → r a c = true) :
    (l.all fun o => r (l.headD d) o) = true ↔ ∀ a ∈ l, ∀ b ∈ l, r a b = true := by
  have hh := headD_mem d hne
  rw [List.all_eq_true]
  constructor
  · intro h a ha b hb
    have hha := h a ha
    have hhb := h b hb
    have hah : r a (l.headD d) = true := by rw [hsymm a ha _ hh]; exact hha
    exact htrans a ha _ hh b hb hah hhb
  · intro h o ho
    exact h _ hh o ho

theorem eMapM_isOk_iff {α β : Type} (f : α → Except String β) (l : List α) :
    (∃ ys, eMapM f l = .ok ys) ↔ ∀ x ∈ l, ∃ y, f x = .ok y := by
  induction l with
  | nil => simp [eMapM]
  | cons x xs ih =>
    rw [eMapM]
    constructor
    · intro ⟨ys, hys⟩ a ha
      rcases hfx : f x with e | y <;> rw [hfx] at hys
      · exact absurd hys (by simp)
      · rcases hxs : eMapM f xs with e | ys' <;> rw [hxs] at hys
        · exact absurd hys (by simp)
        · rw [List.mem_cons] at ha
          rcases ha with rfl | ha
          · exact ⟨y, hfx⟩
          · exact (ih.1 ⟨ys', hxs⟩) a ha
    · intro h
      obtain ⟨y, hy⟩ := h x (List.mem_cons_self x xs)
      obtain ⟨ys, hys⟩ := ih.2 fun a ha => h a (List.mem_cons_of_mem x ha)
      rw [hy, hys]
      exact ⟨y :: ys, rfl⟩

theorem eMapM_ok_eq {α β : Type} (f : α → Except String β) :
    ∀ (l : List α) (ys : List β), eMapM f l = .ok ys →
      ys = l.filterMap fun x => (f x).toOption := by
  intro l
  induction l with
  | nil =>
    intro ys h
    rw [eMapM] at h
    cases h
    rfl
  | cons x xs ih =>
    intro ys h
    rw [eMapM] at h
    rcases hfx : f x with e | y <;> rw [hfx] at h
    · exact absurd h (by simp)
    · rcases hxs : eMapM f xs with e | ys' <;> rw [hxs] at h
      · exact absurd h (by simp)
      · cases h
        rw [List.filterMap_cons, hfx]
        show y :: ys' = y :: (xs.filterMap fun x => (f x).toOption)
        rw [ih ys' hxs]

theorem sort_strings_eq_of_perm {l l' : List String} (h : l.Perm l') :
    List.insertionSort (fun a b => pyStrLe a b = true) l =
    List.insertionSort (fun a b => pyStrLe a b = true) l' := by
  letI : IsTotal String (fun a b => pyStrLe a b = true) := ⟨pyStrLe_total⟩
  letI : IsTrans String (fun a b => pyStrLe a b = true) :=
    ⟨fun a b c h1 h2 => pyStrLe_trans h1 h2⟩
  letI : IsAntisymm String (fun a b => pyStrLe a b = true) :=
    ⟨fun a b h1 h2 => pyStrLe_antisymm h1 h2⟩
  exact List.eq_of_perm_of_sorted
    (((List.perm_insertionSort _ l).trans h).trans
      (List.perm_insertionSort _ l').symm)
    (List.sorted_insertionSort _ l) (List.sorted_insertionSort _ l')

theorem sorted_entries_eq :
    ∀ (l1 l2 : List (String × MYaml)), l1.Perm l2 →
      l1.Sorted (fun a b => pyStrLe a.1 b.1 = true) →
      l2.Sorted (fun a b => pyStrLe a.1 b.1 = true) →
      (l1.map Prod.fst).Nodup → l1 = l2 := by
  intro l1
  induction l1 with
  | nil =>
    intro l2 h _ _ _
    exact (List.perm_nil.1 h.symm).symm
  | cons a t1 ih =>
    intro l2 h hs1 hs2 hnd
    cases l2 with
    | nil => exact absurd (List.perm_nil.1 h) (by simp)
    | cons b t2 =>
      have hab : a = b := by
        by_contra hne
        have ha2 : a ∈ b :: t2 := h.mem_iff.1 (List.mem_cons_self a t1)
        have hb1 : b ∈ a :: t1 := h.mem_iff.2 (List.mem_cons_self b t2)
        have ha2' : a ∈ t2 := by
          rcases List.mem_cons.1 ha2 with h' | h'
          · exact absurd h' hne
          · exact h'
        have hb1' : b ∈ t1 := by
          rcases List.mem_cons.1 hb1 with h' | h'
          · exact absurd h'.symm hne
          · exact h'
        have h1 : pyStrLe a.1 b.1 = true := (List.sorted_cons.1 hs1).1 b hb1'
        have h2 : pyStrLe b.1 a.1 = true := (List.sorted_cons.1 hs2).1 a ha2'
        have hk : a.1 = b.1 := pyStrLe_antisymm h1 h2
        have hbk : b.1 ∈ t1.map Prod.fst := List.mem_map_of_mem Prod.fst hb1'
        rw [List.map_cons, List.nodup_cons] at hnd
        exact hnd.1 (hk ▸ hbk)
      subst hab
      rw [List.map_cons, List.nodup_cons] at hnd
      rw [ih t2 h.cons_inv (List.sorted_cons.1 hs1).2 (List.sorted_cons.1 hs2).2 hnd.2]

theorem sort_entries_eq_of_perm {E E' : List (String × MYaml)} (h : E.Perm E')
    (hnd : (E.map Prod.fst).Nodup) :
    List.insertionSort (fun a b => pyStrLe a.1 b.1 = true) E =
    List.insertionSort (fun a b => pyStrLe a.1 b.1 = true) E' := by
  letI : IsTotal (String × MYaml) (fun a b => pyStrLe a.1 b.1 = true) :=
    ⟨fun a b => pyStrLe_total a.1 b.1⟩
  letI : IsTrans (String × MYaml) (fun a b => pyStrLe a.1 b.1 = true) :=
    ⟨fun a b c h1 h2 => pyStrLe_trans h1 h2⟩
  apply sorted_entries_eq
  · exact ((List.perm_insertionSort _ E).trans h).trans
      (List.perm_insertionSort _ E').symm
  · exact List.sorted_insertionSort _ E
  · exact List.sorted_insertionSort _ E'
  · have hp : ((List.insertionSort (fun a b => pyStrLe a.1 b.1 = true) E).map
        Prod.fst).Perm (E.map Prod.fst) :=
      (List.perm_insertionSort _ E).map Prod.fst
    exact hp.nodup_iff.2 hnd

theorem sum_tail_lt {α : Type} :
    ∀ (ls : List (List α)), ls ≠ [] → (∀ l ∈ ls, l ≠ []) →
      ((ls.map List.tail).map List.length).sum < (ls.map List.length).sum := by
  intro ls hne hall
  cases ls with
  | nil => exact absurd rfl hne
  | cons l rest =>
    simp only [List.map_cons, List.sum_cons]
    have h1 : l.tail.length < l.length := by
      have : l ≠ [] := hall l (List.mem_cons_self l rest)
      cases l with
      | nil => exact absurd rfl this
      | cons a t => simp
    have h2 := sum_len_tail_le rest
    omega

theorem zipAll_perm {α : Type} :
    ∀ (N : Nat) (ls ls' : List (List α)), (ls.map List.length).sum ≤ N →
      ls.Perm ls' → List.Forall₂ List.Perm (zipAll ls) (zipAll ls') := by
  intro N
  induction N with
  | zero =>
    intro ls ls' hN h
    rw [zipAll_eq ls, zipAll_eq ls']
    have hg : (ls.isEmpty || ls.any List.isEmpty) =
        (ls'.isEmpty || ls'.any List.isEmpty) := by
      rw [perm_isEmpty h, perm_any h]
    rcases Bool.eq_false_or_eq_true (ls.isEmpty || ls.any List.isEmpty) with hgv | hgv
    · have hg' : (ls'.isEmpty || ls'.any List.isEmpty) = true := by
        rw [← hg]
        exact hgv
      rw [if_pos hgv, if_pos hg']
      exact List.Forall₂.nil
    · exfalso
      rw [Bool.or_eq_false_iff] at hgv
      have hne : ls ≠ [] := by
        intro hnil
        rw [hnil] at hgv
        exact Bool.noConfusion hgv.1
      have hall : ∀ l ∈ ls, l ≠ [] := by
        intro l hl hnil
        have hany : ls.any List.isEmpty = true :=
          List.any_eq_true.2 ⟨l, hl, by rw [hnil]; rfl⟩
        rw [hany] at hgv
        exact Bool.noConfusion hgv.2
      cases ls with
      | nil => exact hne rfl
      | cons l rest =>
        have hlne : l ≠ [] := hall l (List.mem_cons_self l rest)
        cases l with
        | nil => exact hlne rfl
        | cons a t =>
          simp only [List.map_cons, List.sum_cons, List.length_cons] at hN
          omega
  | succ n ih =>
    intro ls ls' hN h
    rw [zipAll_eq ls, zipAll_eq ls']
    have hg : (ls.isEmpty || ls.any List.isEmpty) =
        (ls'.isEmpty || ls'.any List.isEmpty) := by
      rw [perm_isEmpty h, perm_any h]
    rcases Bool.eq_false_or_eq_true (ls.isEmpty || ls.any List.isEmpty) with hgv | hgv
    · have hg' : (ls'.isEmpty || ls'.any List.isEmpty) = true := by
        rw [← hg]
        exact hgv
      rw [if_pos hgv, if_pos hg']
      exact List.Forall₂.nil

    · have hg' : (ls'.isEmpty || ls'.any List.isEmpty) = false := by
        rw [← hg]
        exact hgv
      rw [if_neg (by rw [hgv]; simp), if_neg (by rw [hg']; simp)]
      refine List.Forall₂.cons (h.filterMap List.head?) ?_
      refine ih _ _ ?_ (h.map List.tail)
      rw [Bool.or_eq_false_iff] at hgv
      have hne : ls ≠ [] := by
        intro hnil
        rw [hnil] at hgv
        exact Bool.noConfusion hgv.1
      have hall : ∀ l ∈ ls, l ≠ [] := by
        intro l hl hnil
        have hany : ls.any List.isEmpty = true :=
          List.any_eq_true.2 ⟨l, hl, by rw [hnil]; rfl⟩
        rw [hany] at hgv
        exact Bool.noConfusion hgv.2
      have hlt := sum_tail_lt ls hne hall
      omega
theorem eMapM_rel {α β : Type} (f : α → Except String MYaml)
    (g : β → Except String MYaml) :
    ∀ {l1 : List α} {l2 : List β},
      List.Forall₂ (fun a b => exceptRel (f a) (g b)) l1 l2 →
      match eMapM f l1, eMapM g l2 with
      | .ok ys, .ok ys' => ys.map MYaml.canon = ys'.map MYaml.canon
      | .error _, .error _ => True
      | _, _ => False := by
  intro l1 l2 h
  induction h with
  | nil => exact rfl
  | cons hab htail ih =>
    rename_i a b t1 t2
    rw [eMapM, eMapM]
    rcases hfa : f a with e | y <;> rcases hgb : g b with e' | y' <;>
      rw [hfa, hgb] at hab
    · exact trivial
    · exact (hab : False).elim
    · exact (hab : False).elim
    · have hcanon : y.canon = y'.canon := hab
      rcases hfs : eMapM f t1 with e1 | ys <;> rcases hgs : eMapM g t2 with e2 | ys' <;>
        rw [hfs, hgs] at ih
      · exact trivial
      · exact (ih : False).elim
      · exact (ih : False).elim
      · show (y :: ys).map MYaml.canon = (y' :: ys').map MYaml.canon
        rw [List.map_cons, List.map_cons, hcanon, ih]

theorem eMapM_ok_length {α β : Type} (f : α → Except String β) :
    ∀ (l : List α) (ys : List β), eMapM f l = .ok ys → ys.length = l.length := by
  intro l
  induction l with
  | nil =>
    intro ys h
    rw [eMapM] at h
    cases h
    rfl
  | cons x xs ih =>
    intro ys h
    rw [eMapM] at h
    rcases hfx : f x with e | y <;> rw [hfx] at h
    · exact absurd h (by simp)
    · rcases hxs : eMapM f xs with e | ys' <;> rw [hxs] at h
      · exact absurd h (by simp)
      · cases h
        rw [List.length_cons, ih ys' hxs, List.length_cons]

theorem pyMergeNames_empty {names : List String} (he : names.isEmpty = true) :
    pyMergeNames names = .error "No names to merge." := by
  rw [pyMergeNames, if_pos he]

theorem pyMergeNames_splitfail {names : List String} {e : String}
    (he : names.isEmpty = false) (hps : eMapM nameSplit names = .error e) :
    pyMergeNames names = .error e := by
  rw [pyMergeNames, if_neg (by rw [he]; simp), hps]

theorem pyMergeNames_guardfail {names : List String} {parts : List (String × String)}
    (he : names.isEmpty = false) (hps : eMapM nameSplit names = .ok parts)
    (hg : (parts.all fun p => (parts.headD ("", "")).1 == p.1) = false) :
    pyMergeNames names = .error "names are not mergeable." := by
  rw [pyMergeNames, if_neg (by rw [he]; simp), hps]
  show (if (parts.all fun p => (parts.headD ("", "")).1 == p.1) = true then _ else
    Except.error "names are not mergeable.") = _
  rw [if_neg (by rw [hg]; simp)]

theorem pyMergeNames_ok {names : List String} {parts : List (String × String)}
    (he : names.isEmpty = false) (hps : eMapM nameSplit names = .ok parts)
    (hg : (parts.all fun p => (parts.headD ("", "")).1 == p.1) = true) :
    pyMergeNames names = .ok ((parts.headD ("", "")).1 ++
      String.join (List.insertionSort (fun a b => pyStrLe a b = true)
        (parts.map Prod.snd))) := by
  rw [pyMergeNames, if_neg (by rw [he]; simp), hps]
  show (if (parts.all fun p => (parts.headD ("", "")).1 == p.1) = true then
      Except.ok ((parts.headD ("", "")).1 ++
        String.join (List.insertionSort (fun a b => pyStrLe a b = true)
          (parts.map Prod.snd)))
    else _) = _
  rw [if_pos hg]

/-- Merging the `name` fields is insensitive to the order of the blocks: it
either fails on every order, or yields the same merged name on every order. -/
theorem pyMergeNames_perm {names names' : List String} (h : names.Perm names') :
    match pyMergeNames names, pyMergeNames names' with
    | .ok s, .ok s' => s = s'
    | .error _, .error _ => True
    | _, _ => False := by
  rcases Bool.eq_false_or_eq_true names.isEmpty with he | he
  · have he' : names'.isEmpty = true := by rw [← perm_isEmpty h]; exact he
    rw [pyMergeNames_empty he, pyMergeNames_empty he']
    exact trivial
  · have he' : names'.isEmpty = false := by rw [← perm_isEmpty h]; exact he
    rcases hps : eMapM nameSplit names with e | parts
    · have hnok : ¬ ∀ x ∈ names, ∃ y, nameSplit x = .ok y := by
        intro hall
        obtain ⟨ys, hys⟩ := (eMapM_isOk_iff nameSplit names).2 hall
        rw [hys] at hps
        exact Except.noConfusion hps
      rcases hps' : eMapM nameSplit names' with e' | parts'
      · rw [pyMergeNames_splitfail he hps, pyMergeNames_splitfail he' hps']
        exact trivial
      · refine absurd ?_ hnok
        intro x hx
        exact (eMapM_isOk_iff nameSplit names').1 ⟨parts', hps'⟩ x (h.mem_iff.1 hx)
    · have hok : ∀ x ∈ names, ∃ y, nameSplit x = .ok y :=
        (eMapM_isOk_iff nameSplit names).1 ⟨parts, hps⟩
      obtain ⟨parts', hps'⟩ := (eMapM_isOk_iff nameSplit names').2
        fun x hx => hok x (h.mem_iff.2 hx)
      have hpe : parts = names.filterMap fun x => (nameSplit x).toOption :=
        eMapM_ok_eq nameSplit names parts hps
      have hpe' : parts' = names'.filterMap fun x => (nameSplit x).toOption :=
        eMapM_ok_eq nameSplit names' parts' hps'
      have hpperm : parts.Perm parts' := by
        rw [hpe, hpe']
        exact h.filterMap _
      have hplen : parts ≠ [] := by
        intro hnil
        have hl := eMapM_ok_length nameSplit names parts hps
        rw [hnil] at hl
        cases names with
        | nil => rw [List.isEmpty] at he; exact Bool.noConfusion he
        | cons a t => simp at hl
      have hplen' : parts' ≠ [] := by
        intro hnil
        rw [hnil] at hpperm
        exact hplen (List.perm_nil.1 hpperm)
      have hguard :
          (parts.all fun p => (parts.headD ("", "")).1 == p.1) = true ↔
          ∀ a ∈ parts, ∀ b ∈ parts, (a.1 == b.1) = true := by
        apply all_headRel_iff (fun p q : String × String => p.1 == q.1) ("", "")
          parts hplen
        · intro a _
          simp
        · intro a _ b _
          apply Bool.eq_iff_iff.mpr
          simp only [beq_iff_eq]
          exact eq_comm
        · intro a _ b _ c _ h1 h2
          simp at h1 h2 ⊢
          rw [h1, h2]
      have hguard' :
          (parts'.all fun p => (parts'.headD ("", "")).1 == p.1) = true ↔
          ∀ a ∈ parts', ∀ b ∈ parts', (a.1 == b.1) = true := by
        apply all_headRel_iff (fun p q : String × String => p.1 == q.1) ("", "")
          parts' hplen'
        · intro a _
          simp
        · intro a _ b _
          apply Bool.eq_iff_iff.mpr
          simp only [beq_iff_eq]
          exact eq_comm
        · intro a _ b _ c _ h1 h2
          simp at h1 h2 ⊢
          rw [h1, h2]
      rcases Bool.eq_false_or_eq_true
          (parts.all fun p => (parts.headD ("", "")).1 == p.1) with hgv | hgv
      · have hpair := hguard.1 hgv
        have hpair' : ∀ a ∈ parts', ∀ b ∈ parts', (a.1 == b.1) = true :=
          fun a ha b hb => hpair a (hpperm.mem_iff.2 ha) b (hpperm.mem_iff.2 hb)
        have hgv' := hguard'.2 hpair'
        rw [pyMergeNames_ok he hps hgv, pyMergeNames_ok he' hps' hgv']
        show (parts.headD ("", "")).1 ++ _ = (parts'.headD ("", "")).1 ++ _
        have hstem : (parts.headD ("", "")).1 = (parts'.headD ("", "")).1 := by
          have h1 := headD_mem ("", "") hplen
          have h2 := headD_mem ("", "") hplen'
          have h3 := hpair _ h1 _ (hpperm.mem_iff.2 h2)
          simpa using h3
        rw [hstem, sort_strings_eq_of_perm (hpperm.map Prod.snd)]
      · have hgv' : (parts'.all fun p => (parts'.headD ("", "")).1 == p.1) = false := by
          rcases Bool.eq_false_or_eq_true
              (parts'.all fun p => (parts'.headD ("", "")).1 == p.1) with hx | hx
          · exfalso
            have hpair' := hguard'.1 hx
            have hpair : ∀ a ∈ parts, ∀ b ∈ parts, (a.1 == b.1) = true :=
              fun a ha b hb => hpair' a (hpperm.mem_iff.1 ha) b (hpperm.mem_iff.1 hb)
            rw [hguard.2 hpair] at hgv
            exact Bool.noConfusion hgv
          · exact hx
        rw [pyMergeNames_guardfail he hps hgv, pyMergeNames_guardfail he' hps' hgv']
        exact trivial

theorem yaml_sizeOf_pos (o : Yaml) : 1 ≤ sizeOf o := by
  cases o with
  | str s => simp only [Yaml.str.sizeOf_spec]; omega
  | list l => simp only [Yaml.list.sizeOf_spec]; omega
  | map m => simp only [Yaml.map.sizeOf_spec]; omega
  | scalar n => simp only [Yaml.scalar.sizeOf_spec]; omega

theorem wf_getList {o : Yaml} (hL : o.isList = true) (hw : wf o = true) :
    ∀ x ∈ o.getList, wf x = true := by
  cases o with
  | list l => exact wf_list_elim hw
  | str s => exact Bool.noConfusion hL
  | map m => exact Bool.noConfusion hL
  | scalar n => exact Bool.noConfusion hL

theorem wf_getMap {o : Yaml} (hM : o.isMap = true) (hw : wf o = true) :
    (o.getMap.map Prod.fst).Nodup ∧ ∀ e ∈ o.getMap, wf e.2 = true := by
  cases o with
  | map m => exact wf_map_elim hw
  | str s => exact Bool.noConfusion hM
  | list l => exact Bool.noConfusion hM
  | scalar n => exact Bool.noConfusion hM

theorem sizeOf_getList_elem {o : Yaml} (hL : o.isList = true) {x : Yaml}
    (hx : x ∈ o.getList) : sizeOf x < sizeOf o := by
  cases o with
  | list l => exact sizeOf_mem_lt_list hx
  | str s => exact Bool.noConfusion hL
  | map m => exact Bool.noConfusion hL
  | scalar n => exact Bool.noConfusion hL

theorem forall₂_mem_imp {α β : Type} {R S : α → β → Prop} :
    ∀ {l1 : List α} {l2 : List β}, List.Forall₂ R l1 l2 →
      (∀ a ∈ l1, ∀ b ∈ l2, R a b → S a b) → List.Forall₂ S l1 l2 := by
  intro l1 l2 h
  induction h with
  | nil => exact fun _ => List.Forall₂.nil
  | cons hab htail ih =>
    rename_i a b t1 t2
    intro himp
    exact List.Forall₂.cons
      (himp a (List.mem_cons_self a t1) b (List.mem_cons_self b t2)
        hab)
      (ih fun x hx y hy hxy =>
        himp x (List.mem_cons_of_mem a hx) y (List.mem_cons_of_mem b hy) hxy)

theorem all_headEq_iff {α β : Type} [BEq β] [LawfulBEq β] (f : α → β) (d : α)
    (l : List α) (hne : l ≠ []) :
    (l.all fun o => f (l.headD d) == f o) = true ↔
      ∀ a ∈ l, ∀ b ∈ l, f a = f b := by
  have hchar := all_headRel_iff (fun a b => f a == f b) d l hne
    (fun a _ => by simp)
    (fun a _ b _ => by
      apply Bool.eq_iff_iff.mpr
      simp only [beq_iff_eq]
      exact eq_comm)
    (fun a _ b _ c _ h1 h2 => by
      simp at h1 h2 ⊢
      rw [h1, h2])
  rw [hchar]
  constructor
  · intro hp a ha b hb
    have := hp a ha b hb
    simpa using this
  · intro hp a ha b hb
    simp only [beq_iff_eq]
    exact hp a ha b hb

theorem headD_eq_of_pairwise {α β : Type} (f : α → β) {l l' : List α} (d : α)
    (hperm : l.Perm l') (hne : l ≠ [])
    (hpair : ∀ a ∈ l, ∀ b ∈ l, f a = f b) :
    f (l.headD d) = f (l'.headD d) := by
  have hne' : l' ≠ [] := by
    intro hnil
    rw [hnil] at hperm
    exact hne (List.perm_nil.1 hperm)
  exact hpair _ (headD_mem d hne) _ (hperm.mem_iff.2 (headD_mem d hne'))

theorem sameKeySet_guard_iff (d : Yaml) (l : List Yaml) (hne : l ≠ []) :
    (l.all fun o => sameKeySet (l.headD d).getMap o.getMap) = true ↔
      ∀ a ∈ l, ∀ b ∈ l, sameKeySet a.getMap b.getMap = true :=
  all_headRel_iff (fun a b => sameKeySet a.getMap b.getMap) d l hne
    (fun a _ => sameKeySet_iff.2 fun k => Iff.rfl)
    (fun a _ b _ => by
      apply Bool.eq_iff_iff.mpr
      rw [sameKeySet_iff, sameKeySet_iff]
      exact ⟨fun hp k => (hp k).symm, fun hp k => (hp k).symm⟩)
    (fun a _ b _ c _ h1 h2 => by
      rw [sameKeySet_iff] at h1 h2 ⊢
      intro k
      exact (h1 k).trans (h2 k))

/-- The per-entry merge performed inside the dictionary branch of `pyMerge`;
it depends only on the entry key. -/
def entryMergeFun (objects : List Yaml) (k : String) :
    Except String (String × MYaml) :=
  if k == "name" then
    match eMapM asStrName (objects.map fun o => pyLookup o.getMap k) with
    | .error msg => .error msg
    | .ok names =>
      match pyMergeNames names with
      | .error msg => .error msg
      | .ok s => .ok (k, MYaml.str s)
  else
    match pyMerge (objects.map fun o => pyLookup o.getMap k) with
    | .error msg => .error msg
    | .ok v => .ok (k, v)

theorem entryMergeFun_fst {objects : List Yaml} {k : String}
    {v : String × MYaml} (h : entryMergeFun objects k = .ok v) : v.1 = k := by
  rw [entryMergeFun] at h
  rcases Decidable.em ((k == "name") = true) with hk | hk
  · rw [if_pos hk] at h
    rcases hn : eMapM asStrName (objects.map fun o => pyLookup o.getMap k) with
        e | names <;> rw [hn] at h
    · exact absurd h (by simp)
    · have h2 : (match pyMergeNames names with
          | Except.error msg => Except.error msg
          | Except.ok s => Except.ok (k, MYaml.str s)) = Except.ok v := h
      rcases hm : pyMergeNames names with e | str <;> rw [hm] at h2
      · exact absurd h2 (by simp)
      · cases h2
        rfl
  · rw [if_neg hk] at h
    rcases hm : pyMerge (objects.map fun o => pyLookup o.getMap k) with e | v0 <;>
      rw [hm] at h
    · exact absurd h (by simp)
    · cases h
      rfl

/-- Relation between two fallible merged dictionary entries. -/
def keyRel : Except String (String × MYaml) → Except String (String × MYaml) →
    Prop
  | .ok e, .ok e' => e.1 = e'.1 ∧ e.2.canon = e'.2.canon
  | .error _, .error _ => True
  | _, _ => False

theorem bool_eq_false_of_iff {a b : Bool} (h : a = true ↔ b = true)
    (ha : a = false) : b = false := by
  rcases Bool.eq_false_or_eq_true b with hx | hx
  · exfalso
    rw [h.2 hx] at ha
    exact Bool.noConfusion ha
  · exact hx

theorem forall₂_mem_left {α β : Type} {R : α → β → Prop} :
    ∀ {l1 : List α} {l2 : List β}, List.Forall₂ R l1 l2 →
      ∀ a ∈ l1, ∃ b ∈ l2, R a b := by
  intro l1 l2 h
  induction h with
  | nil => intro a ha; exact absurd ha (List.not_mem_nil a)
  | cons hab htail ih =>
    rename_i x y t1 t2
    intro a ha
    rcases List.mem_cons.1 ha with rfl | ha
    · exact ⟨y, List.mem_cons_self y t2, hab⟩
    · obtain ⟨b, hb, hr⟩ := ih a ha
      exact ⟨b, List.mem_cons_of_mem y hb, hr⟩

/-- `pyMerge` is insensitive to the order of its (well-formed) inputs: on any
two orders it either fails on both, or succeeds on both with results that are
equal up to dictionary insertion order (`MYaml.canon`). -/
theorem pyMerge_perm : ∀ (objects objects' : List Yaml), objects.Perm objects' →
    (∀ o ∈ objects, wf o = true) →
    exceptRel (pyMerge objects) (pyMerge objects') := by
  suffices hN : ∀ (N : Nat) (objects objects' : List Yaml),
      (objects.map sizeOf).sum ≤ N → objects.Perm objects' →
      (∀ o ∈ objects, wf o = true) →
      exceptRel (pyMerge objects) (pyMerge objects') from
    fun objects objects' hp hw =>
      hN ((objects.map sizeOf).sum) objects objects' (le_refl _) hp hw
  intro N
  induction N with
  | zero =>
    intro objects objects' hsz h hwf
    cases objects with
    | cons o rest =>
      exfalso
      have hpos := yaml_sizeOf_pos o
      simp only [List.map_cons, List.sum_cons] at hsz
      omega
    | nil =>
      have hnil : objects' = [] := List.perm_nil.1 h.symm
      subst hnil
      rw [pyMerge_eq]
      exact trivial
  | succ n ih =>
    intro objects objects' hsz h hwf
    rw [pyMerge_eq objects, pyMerge_eq objects']
    rcases Bool.eq_false_or_eq_true objects.isEmpty with h0 | h0
    · have h0' : objects'.isEmpty = true := by rw [← perm_isEmpty h]; exact h0
      rw [if_pos h0, if_pos h0']
      exact trivial
    have h0' : objects'.isEmpty = false := by rw [← perm_isEmpty h]; exact h0
    rw [if_neg (show ¬(objects.isEmpty = true) by rw [h0]; simp), if_neg (show ¬(objects'.isEmpty = true) by rw [h0']; simp)]
    have hne : objects ≠ [] := by
      intro hx
      rw [hx] at h0
      exact Bool.noConfusion h0
    have hne' : objects' ≠ [] := by
      intro hx
      rw [hx] at h0'
      exact Bool.noConfusion h0'
    rcases Bool.eq_false_or_eq_true (objects.any Yaml.isList) with h1 | h1
    case inl =>
      -- list branch
      have h1' : objects'.any Yaml.isList = true := by
        rw [← perm_any h]; exact h1
      rw [if_pos h1, if_pos h1']
      rcases Bool.eq_false_or_eq_true (objects.all Yaml.isList) with h2 | h2
      case inr =>
        have h2' : objects'.all Yaml.isList = false := by
          rw [← perm_all h]; exact h2
        rw [if_neg (show ¬(objects.all Yaml.isList = true) by rw [h2]; simp), if_neg (show ¬(objects'.all Yaml.isList = true) by rw [h2']; simp)]
        exact trivial
      case inl =>
      have h2' : objects'.all Yaml.isList = true := by
        rw [← perm_all h]; exact h2
      rw [if_pos h2, if_pos h2']
      have hg3 : (objects.all fun o =>
          (objects.headD (Yaml.list [])).getList.length == o.getList.length) = true ↔
          (objects'.all fun o =>
          (objects'.headD (Yaml.list [])).getList.length == o.getList.length) = true := by
        rw [all_headEq_iff (fun o => o.getList.length) (Yaml.list []) objects hne,
          all_headEq_iff (fun o => o.getList.length) (Yaml.list []) objects' hne']
        exact ⟨fun hp a ha b hb => hp a (h.mem_iff.2 ha) b (h.mem_iff.2 hb),
          fun hp a ha b hb => hp a (h.mem_iff.1 ha) b (h.mem_iff.1 hb)⟩
      rcases Bool.eq_false_or_eq_true (objects.all fun o =>
          (objects.headD (Yaml.list [])).getList.length == o.getList.length) with h3 | h3
      case inr =>
        have h3' := bool_eq_false_of_iff hg3 h3
        rw [if_neg (show ¬((objects.all fun o => (objects.headD (Yaml.list [])).getList.length == o.getList.length) = true) by rw [h3]; simp), if_neg (show ¬((objects'.all fun o => (objects'.headD (Yaml.list [])).getList.length == o.getList.length) = true) by rw [h3']; simp)]
        exact rfl
      case inl =>
      have h3' := hg3.1 h3
      rw [if_pos h3, if_pos h3']
      have hcols := zipAll_perm (((objects.map Yaml.getList).map List.length).sum)
        (objects.map Yaml.getList) (objects'.map Yaml.getList) (le_refl _)
        (h.map Yaml.getList)
      have hrel : List.Forall₂ (fun c c' => exceptRel (pyMerge c) (pyMerge c'))
          (zipAll (objects.map Yaml.getList)) (zipAll (objects'.map Yaml.getList)) := by
        refine forall₂_mem_imp hcols ?_
        intro c hc c' hc' hcp
        cases c with
        | nil =>
          have hnil : c' = [] := List.perm_nil.1 hcp.symm
          subst hnil
          rw [pyMerge_eq]
          exact trivial
        | cons x xs =>
          have hf := zipAll_mem_forall₂ _ _ hc
          have hf2 := List.forall₂_map_right_iff.mp hf
          have hwfc : ∀ y ∈ x :: xs, wf y = true := by
            intro y hy
            obtain ⟨o, ho, hyo⟩ := forall₂_mem_left hf2 y hy
            exact wf_getList (List.all_eq_true.mp h2 o ho) (hwf o ho) y hyo
          have hf4 : List.Forall₂ (fun (a : Yaml) (o : Yaml) =>
              sizeOf a < sizeOf o) (x :: xs) objects :=
            forall₂_mem_imp hf2 (fun a _ o ho hao =>
              sizeOf_getList_elem (List.all_eq_true.mp h2 o ho) hao)
          have hlt := sum_lt_sum_of_forall₂ sizeOf sizeOf hf4 (by simp)
          exact ih (x :: xs) c' (by omega) hcp hwfc
      have hmm := eMapM_rel pyMerge pyMerge hrel
      rcases hel : eMapM pyMerge (zipAll (objects.map Yaml.getList)) with e | ys <;>
        rcases hel' : eMapM pyMerge (zipAll (objects'.map Yaml.getList)) with e' | ys' <;>
        rw [hel, hel'] at hmm
      · try rw [hel]
        try rw [hel']
        exact trivial
      · exact (hmm : False).elim
      · exact (hmm : False).elim
      · try rw [hel]
        try rw [hel']
        show MYaml.canon (MYaml.list ys) = MYaml.canon (MYaml.list ys')
        rw [canon_eq, canon_eq]
        show MYaml.list (ys.map MYaml.canon) = MYaml.list (ys'.map MYaml.canon)
        exact congrArg MYaml.list hmm
    case inr =>
    have h1' : objects'.any Yaml.isList = false := by
      rw [← perm_any h]; exact h1
    rw [if_neg (show ¬(objects.any Yaml.isList = true) by rw [h1]; simp), if_neg (show ¬(objects'.any Yaml.isList = true) by rw [h1']; simp)]
    rcases Bool.eq_false_or_eq_true (objects.any Yaml.isMap) with h4 | h4
    case inl =>
      -- dictionary branch
      have h4' : objects'.any Yaml.isMap = true := by
        rw [← perm_any h]; exact h4
      rw [if_pos h4, if_pos h4']
      rcases Bool.eq_false_or_eq_true (objects.all Yaml.isMap) with h5 | h5
      case inr =>
        have h5' : objects'.all Yaml.isMap = false := by
          rw [← perm_all h]; exact h5
        rw [if_neg (show ¬(objects.all Yaml.isMap = true) by rw [h5]; simp), if_neg (show ¬(objects'.all Yaml.isMap = true) by rw [h5']; simp)]
        exact trivial
      case inl =>
      have h5' : objects'.all Yaml.isMap = true := by
        rw [← perm_all h]; exact h5
      rw [if_pos h5, if_pos h5']
      have hg6 : (objects.all fun o =>
          sameKeySet (objects.headD (Yaml.map [])).getMap o.getMap) = true ↔
          (objects'.all fun o =>
          sameKeySet (objects'.headD (Yaml.map [])).getMap o.getMap) = true := by
        rw [sameKeySet_guard_iff (Yaml.map []) objects hne,
          sameKeySet_guard_iff (Yaml.map []) objects' hne']
        exact ⟨fun hp a ha b hb => hp a (h.mem_iff.2 ha) b (h.mem_iff.2 hb),
          fun hp a ha b hb => hp a (h.mem_iff.1 ha) b (h.mem_iff.1 hb)⟩
      rcases Bool.eq_false_or_eq_true (objects.all fun o =>
          sameKeySet (objects.headD (Yaml.map [])).getMap o.getMap) with h6 | h6
      case inr =>
        have h6' := bool_eq_false_of_iff hg6 h6
        rw [if_neg (show ¬((objects.all fun o => sameKeySet (objects.headD (Yaml.map [])).getMap o.getMap) = true) by rw [h6]; simp), if_neg (show ¬((objects'.all fun o => sameKeySet (objects'.headD (Yaml.map [])).getMap o.getMap) = true) by rw [h6']; simp)]
        exact rfl
      case inl =>
      have h6' := hg6.1 h6
      rw [if_pos h6, if_pos h6']
      have h6pair := (sameKeySet_guard_iff (Yaml.map []) objects hne).1 h6
      -- head objects are well-formed maps with the same key set
      have hhead : objects.headD (Yaml.map []) ∈ objects := headD_mem _ hne
      have hhead' : objects'.headD (Yaml.map []) ∈ objects :=
        h.mem_iff.2 (headD_mem _ hne')
      obtain ⟨hnd0, hwv0⟩ := wf_getMap (List.all_eq_true.mp h5 _ hhead)
        (hwf _ hhead)
      obtain ⟨hnd0', hwv0'⟩ := wf_getMap (List.all_eq_true.mp h5 _ hhead')
        (hwf _ hhead')
      have hks01 : sameKeySet (objects.headD (Yaml.map [])).getMap
          (objects'.headD (Yaml.map [])).getMap = true :=
        h6pair _ hhead _ hhead'
      have hKperm : ((objects.headD (Yaml.map [])).getMap.map Prod.fst).Perm
          ((objects'.headD (Yaml.map [])).getMap.map Prod.fst) :=
        (List.perm_ext_iff_of_nodup hnd0 hnd0').2 (sameKeySet_iff.1 hks01)
      have hm0eq : ∀ (obs : List Yaml) (m : List (String × Yaml)),
          eMapM (fun e =>
            if e.1 == "name" then
              match eMapM asStrName (obs.map fun o => pyLookup o.getMap e.1) with
              | .error msg => .error msg
              | .ok names =>
                match pyMergeNames names with
                | .error msg => .error msg
                | .ok s => .ok (e.1, MYaml.str s)
            else
              match pyMerge (obs.map fun o => pyLookup o.getMap e.1) with
              | .error msg => .error msg
              | .ok v => .ok (e.1, v)) m =
          eMapM (entryMergeFun obs) (m.map Prod.fst) := by
        intro obs m
        rw [eMapM_map]
        rfl
      rw [hm0eq objects _, hm0eq objects' _]
      -- the per-key merge results are related
      have hkey : ∀ k ∈ (objects.headD (Yaml.map [])).getMap.map Prod.fst,
          keyRel (entryMergeFun objects k) (entryMergeFun objects' k) := by
        intro k hk
        rw [entryMergeFun, entryMergeFun]
        have hvperm : (objects.map fun o => pyLookup o.getMap k).Perm
            (objects'.map fun o => pyLookup o.getMap k) := h.map _
        rcases Decidable.em ((k == "name") = true) with hkn | hkn
        · rw [if_pos hkn, if_pos hkn]
          rcases hn : eMapM asStrName (objects.map fun o =>
              pyLookup o.getMap k) with e | names
          · try rw [hn]
            have hnok : ¬ ∀ x ∈ objects.map fun o => pyLookup o.getMap k,
                ∃ y, asStrName x = .ok y := by
              intro hallx
              obtain ⟨ys, hys⟩ := (eMapM_isOk_iff _ _).2 hallx
              rw [hn] at hys
              exact Except.noConfusion hys
            rcases hn' : eMapM asStrName (objects'.map fun o =>
                pyLookup o.getMap k) with e' | names'
            · try rw [hn']
              exact trivial
            · refine absurd ?_ hnok
              intro x hx
              exact (eMapM_isOk_iff _ _).1 ⟨names', hn'⟩ x (hvperm.mem_iff.1 hx)
          · obtain ⟨names', hn'⟩ := (eMapM_isOk_iff _ _).2
              fun x hx => (eMapM_isOk_iff _ _).1 ⟨names, hn⟩ x (hvperm.mem_iff.2 hx)
            try rw [hn]
            try rw [hn']
            show keyRel
              (match pyMergeNames names with
                | Except.error msg => Except.error msg
                | Except.ok s0 => Except.ok (k, MYaml.str s0))
              (match pyMergeNames names' with
                | Except.error msg => Except.error msg
                | Except.ok s0 => Except.ok (k, MYaml.str s0))
            have hnperm : names.Perm names' := by
              rw [eMapM_ok_eq _ _ _ hn, eMapM_ok_eq _ _ _ hn']
              exact hvperm.filterMap _
            have hmn := pyMergeNames_perm hnperm
            rcases hx : pyMergeNames names with e1 | s1 <;>
              rcases hy : pyMergeNames names' with e2 | s2 <;> rw [hx, hy] at hmn
            · try rw [hx]
              try rw [hy]
              exact trivial
            · exact (hmn : False).elim
            · exact (hmn : False).elim
            · try rw [hx]
              try rw [hy]
              show keyRel (.ok (k, MYaml.str s1)) (.ok (k, MYaml.str s2))
              refine ⟨rfl, ?_⟩
              show (MYaml.str s1).canon = (MYaml.str s2).canon
              rw [hmn]
        · rw [if_neg hkn, if_neg hkn]
          have hsum : ((objects.map fun o => pyLookup o.getMap k).map sizeOf).sum <
              (objects.map sizeOf).sum := by
            refine sum_map_lt _ sizeOf sizeOf objects ?_ hne
            intro o ho
            have hMo := List.all_eq_true.mp h5 o ho
            have hkso := h6pair _ hhead o ho
            have hko : k ∈ o.getMap.map Prod.fst := ((sameKeySet_iff.1 hkso) k).1 hk
            cases o with
            | map m => exact sizeOf_pyLookup_lt (keyContains_of_mem hko)
            | str s => exact Bool.noConfusion hMo
            | list l => exact Bool.noConfusion hMo
            | scalar nn => exact Bool.noConfusion hMo
          have hwfv : ∀ v ∈ objects.map fun o => pyLookup o.getMap k,
              wf v = true := by
            intro v hv
            obtain ⟨o, ho, rfl⟩ := List.mem_map.1 hv
            have hMo := List.all_eq_true.mp h5 o ho
            have hkso := h6pair _ hhead o ho
            have hko : k ∈ o.getMap.map Prod.fst := ((sameKeySet_iff.1 hkso) k).1 hk
            obtain ⟨w, hw⟩ := mem_of_mem_keys hko
            obtain ⟨hndo, hwo⟩ := wf_getMap hMo (hwf o ho)
            rw [pyLookup_eq_of_mem_nodup hndo hw]
            exact hwo (k, w) hw
          have hrec := ih _ _ (by omega) hvperm hwfv
          rcases hx : pyMerge (objects.map fun o => pyLookup o.getMap k) with
              e1 | v1 <;>
            rcases hy : pyMerge (objects'.map fun o => pyLookup o.getMap k) with
              e2 | v2 <;> rw [hx, hy] at hrec
          · try rw [hx]
            try rw [hy]
            exact trivial
          · exact (hrec : False).elim
          · exact (hrec : False).elim
          · try rw [hx]
            try rw [hy]
            exact ⟨rfl, hrec⟩
      -- assemble the dictionary results
      rcases hEo : eMapM (entryMergeFun objects)
          ((objects.headD (Yaml.map [])).getMap.map Prod.fst) with e | E
      · have hnall : ¬ ∀ k ∈ (objects.headD (Yaml.map [])).getMap.map Prod.fst,
            ∃ v, entryMergeFun objects k = .ok v := by
          intro hall
          obtain ⟨ys, hys⟩ := (eMapM_isOk_iff _ _).2 hall
          rw [hEo] at hys
          exact Except.noConfusion hys
        rcases hEo' : eMapM (entryMergeFun objects')
            ((objects'.headD (Yaml.map [])).getMap.map Prod.fst) with e' | E'
        · try rw [hEo]
          try rw [hEo']
          exact trivial
        · refine absurd ?_ hnall
          intro k hk
          obtain ⟨v', hv'⟩ := (eMapM_isOk_iff _ _).1 ⟨E', hEo'⟩ k (hKperm.mem_iff.1 hk)
          have hkr := hkey k hk
          rcases hxx : entryMergeFun objects k with e1 | v1
          · rw [hxx, hv'] at hkr
            exact (hkr : False).elim
          · exact ⟨v1, by first | rfl | exact hxx⟩
      · have hall : ∀ k ∈ (objects.headD (Yaml.map [])).getMap.map Prod.fst,
            ∃ v, entryMergeFun objects k = .ok v := (eMapM_isOk_iff _ _).1 ⟨E, hEo⟩
        have hall' : ∀ k ∈ (objects'.headD (Yaml.map [])).getMap.map Prod.fst,
            ∃ v, entryMergeFun objects' k = .ok v := by
          intro k hk
          have hkmem := hKperm.mem_iff.2 hk
          obtain ⟨v, hv⟩ := hall k hkmem
          have hkr := hkey k hkmem
          rcases hxx : entryMergeFun objects' k with e1 | v1
          · rw [hv, hxx] at hkr
            exact (hkr : False).elim
          · exact ⟨v1, by first | rfl | exact hxx⟩
        obtain ⟨E', hEo'⟩ := (eMapM_isOk_iff _ _).2 hall'
        try rw [hEo]
        rw [hEo']
        show MYaml.canon (MYaml.map E) = MYaml.canon (MYaml.map E')
        rw [canon_eq, canon_eq]
        show MYaml.map (List.insertionSort (fun a b => pyStrLe a.1 b.1 = true)
            (E.map fun e => (e.1, e.2.canon))) =
          MYaml.map (List.insertionSort (fun a b => pyStrLe a.1 b.1 = true)
            (E'.map fun e => (e.1, e.2.canon)))
        have hEeq := eMapM_ok_eq _ _ _ hEo
        have hEeq' := eMapM_ok_eq _ _ _ hEo'
        refine congrArg MYaml.map (sort_entries_eq_of_perm ?_ ?_)
        · rw [hEeq, hEeq', List.map_filterMap, List.map_filterMap]
          have hpt : ∀ k ∈ (objects'.headD (Yaml.map [])).getMap.map Prod.fst,
              ((entryMergeFun objects' k).toOption.map fun e => (e.1, e.2.canon)) =
              ((entryMergeFun objects k).toOption.map fun e => (e.1, e.2.canon)) := by
            intro k hk
            have hkr := hkey k (hKperm.mem_iff.2 hk)
            rcases hxx : entryMergeFun objects k with e1 | v1 <;>
              rcases hyy : entryMergeFun objects' k with e2 | v2 <;>
              rw [hxx, hyy] at hkr
            · rfl
            · exact (hkr : False).elim
            · exact (hkr : False).elim
            · show some (v2.1, v2.2.canon) = some (v1.1, v1.2.canon)
              rw [hkr.1, hkr.2]
          rw [List.filterMap_congr hpt]
          exact hKperm.filterMap _
        · have hfst : ((E.map fun e => (e.1, e.2.canon)).map Prod.fst) =
              E.map Prod.fst := by
            rw [List.map_map]
            rfl
          rw [hfst]
          have hpt2 : ∀ k ∈ (objects.headD (Yaml.map [])).getMap.map Prod.fst,
              ((entryMergeFun objects k).toOption.map Prod.fst) = some k := by
            intro k hk
            obtain ⟨v, hv⟩ := hall k hk
            rw [hv]
            show some v.1 = some k
            rw [entryMergeFun_fst hv]
          rw [hEeq, List.map_filterMap, List.filterMap_congr hpt2,
            List.filterMap_some]
          exact hnd0
    case inr =>
    have h4' : objects'.any Yaml.isMap = false := by
      rw [← perm_any h]; exact h4
    rw [if_neg (show ¬(objects.any Yaml.isMap = true) by rw [h4]; simp), if_neg (show ¬(objects'.any Yaml.isMap = true) by rw [h4']; simp)]
    rcases Bool.eq_false_or_eq_true (objects.any Yaml.isStr) with h7 | h7
    case inl =>
      -- string branch
      have h7' : objects'.any Yaml.isStr = true := by
        rw [← perm_any h]; exact h7
      rw [if_pos h7, if_pos h7']
      rcases Bool.eq_false_or_eq_true (objects.all Yaml.isStr) with h8 | h8
      case inr =>
        have h8' : objects'.all Yaml.isStr = false := by
          rw [← perm_all h]; exact h8
        rw [if_neg (show ¬(objects.all Yaml.isStr = true) by rw [h8]; simp), if_neg (show ¬(objects'.all Yaml.isStr = true) by rw [h8']; simp)]
        exact trivial
      case inl =>
      have h8' : objects'.all Yaml.isStr = true := by
        rw [← perm_all h]; exact h8
      rw [if_pos h8, if_pos h8']
      rcases Bool.eq_false_or_eq_true
          (objects.all fun o => pyStartsWith o.getStr "arm=") with h9 | h9
      case inl =>
        have h9' : (objects'.all fun o => pyStartsWith o.getStr "arm=") = true := by
          rw [← perm_all h]; exact h9
        rw [if_pos h9, if_pos h9']
        show MYaml.canon (MYaml.str _) = MYaml.canon (MYaml.str _)
        rw [sort_strings_eq_of_perm (h.map fun o => armSuffix o.getStr)]
      case inr =>
      have h9' : (objects'.all fun o => pyStartsWith o.getStr "arm=") = false := by
        rw [← perm_all h]; exact h9
      rw [if_neg (show ¬((objects.all fun o => pyStartsWith o.getStr "arm=") = true) by rw [h9]; simp), if_neg (show ¬((objects'.all fun o => pyStartsWith o.getStr "arm=") = true) by rw [h9']; simp)]
      have hg10 : (objects.all fun o =>
          (objects.headD (Yaml.str "")).getStr == o.getStr) = true ↔
          (objects'.all fun o =>
          (objects'.headD (Yaml.str "")).getStr == o.getStr) = true := by
        rw [all_headEq_iff (fun o => o.getStr) (Yaml.str "") objects hne,
          all_headEq_iff (fun o => o.getStr) (Yaml.str "") objects' hne']
        exact ⟨fun hp a ha b hb => hp a (h.mem_iff.2 ha) b (h.mem_iff.2 hb),
          fun hp a ha b hb => hp a (h.mem_iff.1 ha) b (h.mem_iff.1 hb)⟩
      rcases Bool.eq_false_or_eq_true (objects.all fun o =>
          (objects.headD (Yaml.str "")).getStr == o.getStr) with h10 | h10
      case inl =>
        have h10' := hg10.1 h10
        rw [if_pos h10, if_pos h10']
        show MYaml.canon (MYaml.str _) = MYaml.canon (MYaml.str _)
        have hpair := (all_headEq_iff (fun o => o.getStr) (Yaml.str "")
          objects hne).1 h10
        rw [headD_eq_of_pairwise (fun o => o.getStr) (Yaml.str "") h hne hpair]
      case inr =>
        have h10' := bool_eq_false_of_iff hg10 h10
        rw [if_neg (show ¬((objects.all fun o => (objects.headD (Yaml.str "")).getStr == o.getStr) = true) by rw [h10]; simp), if_neg (show ¬((objects'.all fun o => (objects'.headD (Yaml.str "")).getStr == o.getStr) = true) by rw [h10']; simp)]
        exact trivial
    case inr =>
    have h7' : objects'.any Yaml.isStr = false := by
      rw [← perm_any h]; exact h7
    rw [if_neg (show ¬(objects.any Yaml.isStr = true) by rw [h7]; simp), if_neg (show ¬(objects'.any Yaml.isStr = true) by rw [h7']; simp)]
    have hg11 : (objects.all fun o =>
        (objects.headD (Yaml.scalar 0)).getScalar == o.getScalar) = true ↔
        (objects'.all fun o =>
        (objects'.headD (Yaml.scalar 0)).getScalar == o.getScalar) = true := by
      rw [all_headEq_iff (fun o => o.getScalar) (Yaml.scalar 0) objects hne,
        all_headEq_iff (fun o => o.getScalar) (Yaml.scalar 0) objects' hne']
      exact ⟨fun hp a ha b hb => hp a (h.mem_iff.2 ha) b (h.mem_iff.2 hb),
        fun hp a ha b hb => hp a (h.mem_iff.1 ha) b (h.mem_iff.1 hb)⟩
    rcases Bool.eq_false_or_eq_true (objects.all fun o =>
        (objects.headD (Yaml.scalar 0)).getScalar == o.getScalar) with h11 | h11
    case inl =>
      have h11' := hg11.1 h11
      rw [if_pos h11, if_pos h11']
      show MYaml.canon (MYaml.scalar _) = MYaml.canon (MYaml.scalar _)
      have hpair := (all_headEq_iff (fun o => o.getScalar) (Yaml.scalar 0)
        objects hne).1 h11
      rw [headD_eq_of_pairwise (fun o => o.getScalar) (Yaml.scalar 0) h hne hpair]
    case inr =>
      have h11' := bool_eq_false_of_iff hg11 h11
      rw [if_neg (show ¬((objects.all fun o => (objects.headD (Yaml.scalar 0)).getScalar == o.getScalar) = true) by rw [h11]; simp), if_neg (show ¬((objects'.all fun o => (objects'.headD (Yaml.scalar 0)).getScalar == o.getScalar) = true) by rw [h11']; simp)]
      exact trivial

/-- Relation between two fallible merged-block lists: both fail, or both
succeed with the same multiset of canonical results. -/
def mergeRel : Except String (List MYaml) → Except String (List MYaml) → Prop
  | .ok out, .ok out' => (out.map MYaml.canon).Perm (out'.map MYaml.canon)
  | .error _, .error _ => True
  | _, _ => False

theorem eMapM_perm_rel {α β : Type} (f : α → Except String β) {l l' : List α}
    (h : l.Perm l') :
    match eMapM f l, eMapM f l' with
    | .ok ys, .ok ys' => ys.Perm ys'
    | .error _, .error _ => True
    | _, _ => False := by
  rcases hl : eMapM f l with e | ys <;> rcases hl' : eMapM f l' with e' | ys'
  · exact trivial
  · exfalso
    have hok := (eMapM_isOk_iff f l').1 ⟨ys', hl'⟩
    obtain ⟨ys, hys⟩ := (eMapM_isOk_iff f l).2
      fun x hx => hok x (h.mem_iff.1 hx)
    rw [hys] at hl
    exact Except.noConfusion hl
  · exfalso
    have hok := (eMapM_isOk_iff f l).1 ⟨ys, hl⟩
    obtain ⟨zs, hzs⟩ := (eMapM_isOk_iff f l').2
      fun x hx => hok x (h.mem_iff.2 hx)
    rw [hzs] at hl'
    exact Except.noConfusion hl'
  · show ys.Perm ys'
    rw [eMapM_ok_eq f l ys hl, eMapM_ok_eq f l' ys' hl']
    exact h.filterMap _

theorem isMergeable_congr_left {a b : Yaml} (hwa : wf a = true)
    (hwb : wf b = true) (hab : isMergeable a b = true) :
    ∀ x, wf x = true → isMergeable a x = isMergeable b x := by
  intro x hwx
  apply Bool.eq_iff_iff.mpr
  constructor
  · intro hax
    have hba : isMergeable b a = true := by
      rw [isMergeable_symm b a hwb hwa]
      exact hab
    exact isMergeable_trans b a x hwb hwa hwx hba hax
  · intro hbx
    exact isMergeable_trans a b x hwa hwb hwx hab hbx

theorem filter_class_eq {a b : Yaml} {L : List Yaml} (hwa : wf a = true)
    (hwb : wf b = true) (hwL : ∀ x ∈ L, wf x = true)
    (hab : isMergeable a b = true) :
    (L.filter fun x => isMergeable a x) = L.filter fun x => isMergeable b x :=
  List.filter_congr fun x hx => isMergeable_congr_left hwa hwb hab x (hwL x hx)

theorem filter_neg_class_eq {a b : Yaml} {L : List Yaml} (hwa : wf a = true)
    (hwb : wf b = true) (hwL : ∀ x ∈ L, wf x = true)
    (hab : isMergeable a b = true) :
    (L.filter fun x => !isMergeable a x) = L.filter fun x => !isMergeable b x :=
  List.filter_congr fun x hx => by
    rw [isMergeable_congr_left hwa hwb hab x (hwL x hx)]

theorem filter_subclass {a b : Yaml} {t : List Yaml} (hwa : wf a = true)
    (hwb : wf b = true) (hwt : ∀ x ∈ t, wf x = true)
    (hnab : isMergeable a b = false) :
    ((t.filter fun x => !isMergeable a x).filter fun x => isMergeable b x) =
      t.filter fun x => isMergeable b x := by
  rw [List.filter_filter]
  apply List.filter_congr
  intro x hx
  rcases hbx : isMergeable b x with _ | _
  · rw [Bool.false_and]
  · rw [Bool.true_and]
    rcases hax : isMergeable a x with _ | _
    · rfl
    · exfalso
      have hxb : isMergeable x b = true := by
        rw [isMergeable_symm x b (hwt x hx) hwb]
        exact hbx
      have hab2 : isMergeable a b = true :=
        isMergeable_trans a x b hwa (hwt x hx) hwb hax hxb
      rw [hab2] at hnab
      exact Bool.noConfusion hnab

theorem filter_comm_neg {a b : Yaml} {t : List Yaml} :
    ((t.filter fun x => !isMergeable a x).filter fun x => !isMergeable b x) =
      ((t.filter fun x => !isMergeable b x).filter fun x => !isMergeable a x) := by
  rw [List.filter_filter, List.filter_filter]
  apply List.filter_congr
  intro x hx
  rw [Bool.and_comm]

/-- The greedy grouping of any input list can be rearranged so that the class
of any chosen member comes first. -/
theorem greedyGroups_extract : ∀ (L : List Yaml), (∀ x ∈ L, wf x = true) →
    ∀ b ∈ L, (greedyGroups L).Perm ((L.filter fun x => isMergeable b x) ::
      greedyGroups (L.filter fun x => !isMergeable b x)) := by
  suffices hN : ∀ (n : Nat) (L : List Yaml), L.length ≤ n →
      (∀ x ∈ L, wf x = true) → ∀ b ∈ L,
      (greedyGroups L).Perm ((L.filter fun x => isMergeable b x) ::
        greedyGroups (L.filter fun x => !isMergeable b x)) from
    fun L hw b hb => hN L.length L (le_refl _) hw b hb
  intro n
  induction n with
  | zero =>
    intro L hlen hw b hb
    cases L with
    | nil => exact absurd hb (List.not_mem_nil b)
    | cons a t => simp at hlen
  | succ n ih =>
    intro L hlen hw b hb
    cases L with
    | nil => exact absurd hb (List.not_mem_nil b)
    | cons a t =>
      have hwa : wf a = true := hw a (List.mem_cons_self a t)
      have hwb : wf b = true := hw b hb
      have hwt : ∀ x ∈ t, wf x = true := fun x hx => hw x (List.mem_cons_of_mem a hx)
      rw [greedyGroups_cons]
      rcases hab : isMergeable a b with _ | _
      · -- b is not in the head class
        have hba : isMergeable b a = false := by
          rw [isMergeable_symm b a hwb hwa]
          exact hab
        have hbt : b ∈ t := by
          rcases List.mem_cons.1 hb with rfl | hbt
          · rw [isMergeable_refl b hwb] at hab
            exact absurd hab (by simp)
          · exact hbt
        have hbt' : b ∈ t.filter fun x => !isMergeable a x := by
          rw [List.mem_filter]
          exact ⟨hbt, by rw [hab]; rfl⟩
        have hih := ih (t.filter fun x => !isMergeable a x)
          (by
            have := List.length_filter_le (fun x => !isMergeable a x) t
            simp only [List.length_cons] at hlen
            omega)
          (fun x hx => hwt x (List.mem_of_mem_filter hx)) b hbt'
        rw [filter_subclass hwa hwb hwt hab, filter_comm_neg] at hih
        have hstep := (hih.cons (a :: t.filter fun x => isMergeable a x)).trans
          (List.Perm.swap _ _ _)
        refine hstep.trans ?_
        have he1 : ((a :: t).filter fun x => isMergeable b x) =
            t.filter fun x => isMergeable b x :=
          List.filter_cons_of_neg (by rw [hba]; simp)
        have he2 : ((a :: t).filter fun x => !isMergeable b x) =
            a :: (t.filter fun x => !isMergeable b x) :=
          List.filter_cons_of_pos (by rw [hba]; rfl)
        rw [he1, he2, greedyGroups_cons]
        rw [filter_subclass hwb hwa hwt hba]
      · -- b is in the head class: the greedy grouping already starts with it
        have he1 : ((a :: t).filter fun x => isMergeable b x) =
            ((a :: t).filter fun x => isMergeable a x) :=
          (filter_class_eq hwa hwb (fun x hx => hw x hx) hab).symm
        have he2 : ((a :: t).filter fun x => !isMergeable b x) =
            ((a :: t).filter fun x => !isMergeable a x) :=
          (filter_neg_class_eq hwa hwb (fun x hx => hw x hx) hab).symm
        rw [he1, he2]
        have he3 : ((a :: t).filter fun x => isMergeable a x) =
            a :: (t.filter fun x => isMergeable a x) :=
          List.filter_cons_of_pos (isMergeable_refl a hwa)
        have he4 : ((a :: t).filter fun x => !isMergeable a x) =
            t.filter fun x => !isMergeable a x :=
          List.filter_cons_of_neg (by rw [isMergeable_refl a hwa]; simp)
        rw [he3, he4]

/-- `mergeCalibBlocks` is insensitive to the order of its (well-formed)
inputs: on any two orders it either fails on both, or succeeds on both with
the same multiset of merged blocks up to dictionary insertion order. -/
theorem mergeCalibBlocks_perm : ∀ (blocks blocks' : List Yaml),
    blocks.Perm blocks' → (∀ b ∈ blocks, wf b = true) →
    mergeRel (mergeCalibBlocks blocks) (mergeCalibBlocks blocks') := by
  suffices hN : ∀ (n : Nat) (blocks blocks' : List Yaml), blocks.length ≤ n →
      blocks.Perm blocks' → (∀ b ∈ blocks, wf b = true) →
      mergeRel (mergeCalibBlocks blocks) (mergeCalibBlocks blocks') from
    fun blocks blocks' h hw => hN blocks.length _ _ (le_refl _) h hw
  intro n
  induction n with
  | zero =>
    intro blocks blocks' hlen h hw
    cases blocks with
    | cons b0 rest => simp at hlen
    | nil =>
      have hnil : blocks' = [] := List.perm_nil.1 h.symm
      subst hnil
      rw [mergeCalibBlocks_nil]
      exact List.Perm.refl _
  | succ n ih =>
    intro blocks blocks' hlen h hw
    cases blocks with
    | nil =>
      have hnil : blocks' = [] := List.perm_nil.1 h.symm
      subst hnil
      rw [mergeCalibBlocks_nil]
      exact List.Perm.refl _
    | cons b0 rest =>
      have hwb0 : wf b0 = true := hw b0 (List.mem_cons_self b0 rest)
      have hwrest : ∀ x ∈ rest, wf x = true :=
        fun x hx => hw x (List.mem_cons_of_mem b0 hx)
      have hw' : ∀ x ∈ blocks', wf x = true :=
        fun x hx => hw x (h.mem_iff.2 hx)
      have hb0' : b0 ∈ blocks' := h.mem_iff.1 (List.mem_cons_self b0 rest)
      have hex := greedyGroups_extract blocks' hw' b0 hb0'
      have hA := eMapM_perm_rel pyMerge hex
      rw [eMapM] at hA
      rw [← mergeCalibBlocks_eq_greedy
        (blocks'.filter fun x => !isMergeable b0 x)] at hA
      have hfG : ((b0 :: rest).filter fun x => isMergeable b0 x) =
          b0 :: rest.filter fun x => isMergeable b0 x :=
        List.filter_cons_of_pos (isMergeable_refl b0 hwb0)
      have hGperm : (b0 :: rest.filter fun x => isMergeable b0 x).Perm
          (blocks'.filter fun x => isMergeable b0 x) := by
        rw [← hfG]
        exact h.filter _
      have hwG : ∀ x ∈ b0 :: rest.filter fun x => isMergeable b0 x,
          wf x = true := by
        intro x hx
        rcases List.mem_cons.1 hx with rfl | hx
        · exact hwb0
        · exact hwrest x (List.mem_of_mem_filter hx)
      have hGrel := pyMerge_perm _ _ hGperm hwG
      have hfR : ((b0 :: rest).filter fun x => !isMergeable b0 x) =
          rest.filter fun x => !isMergeable b0 x :=
        List.filter_cons_of_neg (by rw [isMergeable_refl b0 hwb0]; simp)
      have hRperm : (rest.filter fun x => !isMergeable b0 x).Perm
          (blocks'.filter fun x => !isMergeable b0 x) := by
        rw [← hfR]
        exact h.filter _
      have hRrel := ih _ _
        (by
          have := List.length_filter_le (fun x => !isMergeable b0 x) rest
          simp only [List.length_cons] at hlen
          omega)
        hRperm (fun x hx => hwrest x (List.mem_of_mem_filter hx))
      rw [mergeCalibBlocks_cons, mergeCalibBlocks_eq_greedy blocks']
      rcases hg : pyMerge (b0 :: rest.filter fun x => isMergeable b0 x)
          with e1 | m <;>
        rcases hg' : pyMerge (blocks'.filter fun x => isMergeable b0 x)
          with e2 | m' <;>
        rw [hg] at hGrel <;> rw [hg'] at hGrel hA
      · try rw [hg]
        rcases hE : eMapM pyMerge (greedyGroups blocks') with e0 | ys0
        · try rw [hE]
          exact trivial
        · rw [hE] at hA
          exact (hA : False).elim
      · exact (hGrel : False).elim
      · exact (hGrel : False).elim
      · try rw [hg]
        have hcan : m.canon = m'.canon := hGrel
        rcases hR : mergeCalibBlocks (rest.filter fun x => !isMergeable b0 x)
            with e3 | ms <;>
          rcases hR' : mergeCalibBlocks (blocks'.filter fun x => !isMergeable b0 x)
            with e4 | ms' <;>
          rw [hR] at hRrel <;> rw [hR'] at hRrel hA
        · try rw [hR]
          rcases hE : eMapM pyMerge (greedyGroups blocks') with e0 | ys0
          · try rw [hE]
            exact trivial
          · rw [hE] at hA
            exact (hA : False).elim
        · exact (hRrel : False).elim
        · exact (hRrel : False).elim
        · try rw [hR]
          rcases hE : eMapM pyMerge (greedyGroups blocks') with e0 | ys0
          · rw [hE] at hA
            exact (hA : False).elim
          · rw [hE] at hA
            have hys : ys0.Perm (m' :: ms') := hA
            try rw [hE]
            show ((m :: ms).map MYaml.canon).Perm (ys0.map MYaml.canon)
            have htail : (ms.map MYaml.canon).Perm (ms'.map MYaml.canon) := hRrel
            refine List.Perm.trans ?_ ((hys.map MYaml.canon).symm)
            rw [List.map_cons, List.map_cons, hcan]
            exact htail.cons _

theorem wf_str_eval (s : String) : wf (Yaml.str s) = true := by
  rw [wf_eq]

theorem wf_arm_list_eval (s : String) : wf (Yaml.list [Yaml.str s]) = true := by
  rw [wf_eq]
  show [Yaml.str s].all wf = true
  rw [List.all_cons, List.all_nil, wf_str_eval]
  rfl

theorem wf_name_id_map_eval (nm s : String) :
    wf (Yaml.map [("name", Yaml.str nm), ("id", Yaml.list [Yaml.str s])]) =
      true := by
  rw [wf_eq]
  show (decide ((([("name", Yaml.str nm),
      ("id", Yaml.list [Yaml.str s])]).map Prod.fst).Nodup) &&
    ([("name", Yaml.str nm), ("id", Yaml.list [Yaml.str s])].all
      fun e => wf e.2)) = true
  rw [List.all_cons, List.all_cons, List.all_nil]
  show (decide ((["name", "id"]).Nodup) &&
    (wf (Yaml.str nm) && (wf (Yaml.list [Yaml.str s]) && true))) = true
  rw [wf_str_eval, wf_arm_list_eval]
  decide

theorem wf_block_b : wf block_b = true := by
  rw [block_b]
  exact wf_name_id_map_eval "biasb" "arm=b"

theorem wf_block_r : wf block_r = true := by
  rw [block_r]
  exact wf_name_id_map_eval "biasr" "arm=r"

/-- C10: on well-formed block trees (every dictionary has pairwise-distinct
keys, as any tree parsed from YAML does), the mergeability test `isMergeable`
is reflexive, symmetric and transitive — an equivalence relation; consequently
`mergeCalibBlocks` is exactly `pyMerge` applied to the greedy groups, each
greedy group is the full mergeability-equivalence class of its representative
within the input list, and on any two orderings of the input the function
either fails on both or produces the same multiset of merged blocks (compared
after `MYaml.canon`, which only forgets dictionary insertion order). -/
theorem C10_mergeability_equivalence :
    (∀ o : Yaml, wf o = true → isMergeable o o = true) ∧
    (∀ o1 o2 : Yaml, wf o1 = true → wf o2 = true →
      isMergeable o1 o2 = isMergeable o2 o1) ∧
    (∀ o1 o2 o3 : Yaml, wf o1 = true → wf o2 = true → wf o3 = true →
      isMergeable o1 o2 = true → isMergeable o2 o3 = true →
      isMergeable o1 o3 = true) ∧
    (∀ blocks : List Yaml, (∀ b ∈ blocks, wf b = true) →
      ∀ g ∈ greedyGroups blocks,
        ∃ rep, rep ∈ blocks ∧ g = blocks.filter fun b => isMergeable rep b) ∧
    (∀ blocks : List Yaml,
      mergeCalibBlocks blocks = eMapM pyMerge (greedyGroups blocks)) ∧
    (∀ blocks blocks' : List Yaml, blocks.Perm blocks' →
      (∀ b ∈ blocks, wf b = true) →
      mergeRel (mergeCalibBlocks blocks) (mergeCalibBlocks blocks')) :=
  ⟨isMergeable_refl, isMergeable_symm, isMergeable_trans,
    greedyGroups_full_classes, mergeCalibBlocks_eq_greedy, mergeCalibBlocks_perm⟩

theorem C10_mergeability_equivalence_witness :
    (wf block_b = true ∧ wf block_r = true) ∧
    isMergeable block_b block_b = true ∧
    isMergeable block_b block_r = isMergeable block_r block_b ∧
    mergeRel (mergeCalibBlocks [block_b, block_r])
      (mergeCalibBlocks [block_r, block_b]) :=
  ⟨⟨wf_block_b, wf_block_r⟩,
    C10_mergeability_equivalence.1 block_b wf_block_b,
    C10_mergeability_equivalence.2.1 block_b block_r wf_block_b wf_block_r,
    C10_mergeability_equivalence.2.2.2.2.2 [block_b, block_r] [block_r, block_b]
      (List.Perm.swap block_r block_b [])
      (by
        intro b hb
        rcases List.mem_cons.1 hb with rfl | hb
        · exact wf_block_b
        · rcases List.mem_cons.1 hb with rfl | hb
          · exact wf_block_r
          · exact absurd hb (List.not_mem_nil b))⟩

end Pipe2d
